import Mathlib

/-!
# StereoPlus2 scene graph: transform engine and structural operations

A shallow embedding of `SceneObject`, `StereoPolyLine` and `Scene` from
`src/StereoPlus2/DomainTypes.hpp`, with the helper `find` and the classes
`Command`, `Event` and `Property` of `src/StereoPlus2/InfrastructureTypes.hpp`
and the drag-and-drop guard of `src/StereoPlus2/Windows.hpp`.

* Objects live in a heap indexed by pointers (`Ptr`); a null pointer is `none`.
* Coordinates are rationals (exact arithmetic); the `glm` vector and quaternion
  operations are written out with the formulas of the library.
* Recursion along parent or child pointers takes a fuel argument; a result of
  `none` stands for a call that does not return or whose behaviour is undefined
  (null dereference, out-of-range vector access).
* Virtual methods and callbacks (`Command::Execute`, event handlers) are
  functions on the program state outside the object that calls them; the calls
  made are recorded next to the result.
-/

set_option autoImplicit false

namespace StereoPlus

/-! ## glm vectors and quaternions over exact arithmetic -/

/-- The type `glm::vec3`, with rational coordinates. -/
structure Vec3 where
  x : ℚ
  y : ℚ
  z : ℚ
deriving DecidableEq

/-- The type `glm::fquat` (`w` is the scalar part), with rational coordinates. -/
structure Quat where
  w : ℚ
  x : ℚ
  y : ℚ
  z : ℚ
deriving DecidableEq

namespace Vec3

/-- The value of `glm::vec3()`: all coordinates zero. -/
def zero : Vec3 := ⟨0, 0, 0⟩

/-- Componentwise `operator+`. -/
def add (a b : Vec3) : Vec3 := ⟨a.x + b.x, a.y + b.y, a.z + b.z⟩

/-- Componentwise `operator-`. -/
def sub (a b : Vec3) : Vec3 := ⟨a.x - b.x, a.y - b.y, a.z - b.z⟩

/-- Multiplication of a vector by a scalar. -/
def smul (a : Vec3) (k : ℚ) : Vec3 := ⟨a.x * k, a.y * k, a.z * k⟩

/-- The function `glm::cross`. -/
def cross (a b : Vec3) : Vec3 :=
  ⟨a.y * b.z - b.y * a.z, a.z * b.x - b.z * a.x, a.x * b.y - b.x * a.y⟩

end Vec3

namespace Quat

/-- The squared length `glm::dot(q, q)`. -/
def dot (q : Quat) : ℚ := q.w * q.w + q.x * q.x + q.y * q.y + q.z * q.z

/-- The function `glm::conjugate`. -/
def conjugate (q : Quat) : Quat := ⟨q.w, -q.x, -q.y, -q.z⟩

/-- The function `glm::inverse`: `conjugate(q) / dot(q, q)`. -/
def inverse (q : Quat) : Quat :=
  ⟨q.w / q.dot, -q.x / q.dot, -q.y / q.dot, -q.z / q.dot⟩

/-- Quaternion `operator*` of glm. -/
def mul (p q : Quat) : Quat :=
  ⟨p.w * q.w - p.x * q.x - p.y * q.y - p.z * q.z,
   p.w * q.x + p.x * q.w + p.y * q.z - p.z * q.y,
   p.w * q.y + p.y * q.w + p.z * q.x - p.x * q.z,
   p.w * q.z + p.z * q.w + p.x * q.y - p.y * q.x⟩

/-- The function `glm::rotate(q, v)`, which is `q * v`:
`v + ((cross(u, v) * q.w) + cross(u, cross(u, v))) * 2` with `u` the vector part. -/
def rotate (q : Quat) (v : Vec3) : Vec3 :=
  let u : Vec3 := ⟨q.x, q.y, q.z⟩
  let uv := Vec3.cross u v
  let uuv := Vec3.cross u uv
  Vec3.add v (Vec3.smul (Vec3.add (Vec3.smul uv q.w) uuv) 2)

end Quat

/-! ## Scene objects on a heap -/

/-- A pointer to a scene object. -/
abbrev Ptr := Nat

/-- The enum `InsertPosition`. -/
inductive InsertPosition where
  | Top
  | Bottom
  | Center
  | Any
deriving DecidableEq

/-- The numeric values of the enumerators: `Top = 0x01`, `Bottom = 0x10`,
`Center = 0x100`, `Any = Top | Bottom | Center`. -/
def InsertPosition.toNat : InsertPosition → Nat
  | .Top => 0x01
  | .Bottom => 0x10
  | .Center => 0x100
  | .Any => 0x01 ||| 0x10 ||| 0x100

/-- The fields of `SceneObject` that the transform and structure code uses. -/
structure SceneObject where
  position : Vec3
  rotation : Quat
  parent : Option Ptr
  shouldUpdateCache : Bool
  children : List Ptr
deriving DecidableEq

/-- The store of scene objects. -/
abbrev Heap := Ptr → SceneObject

/-- The method `SceneObject::unitQuat`: `glm::fquat(1, 0, 0, 0)`. -/
def unitQuat : Quat := ⟨1, 0, 0, 0⟩

/-- One level of `CascadeTransform(glm::vec3&)`: the update of `v` before the
call is passed on to the parent. -/
def transformStep (o : SceneObject) (v : Vec3) : Vec3 :=
  if o.rotation = unitQuat then
    Vec3.add v o.position
  else
    Vec3.add (Quat.rotate o.rotation v) o.position

/-- The method `SceneObject::CascadeTransform(glm::vec3&)`. -/
def CascadeTransform (h : Heap) : Nat → Ptr → Vec3 → Option Vec3
  | 0, _, _ => none
  | fuel + 1, p, v =>
    let v1 := transformStep (h p) v
    match (h p).parent with
    | some q => CascadeTransform h fuel q v1
    | none => some v1

/-- The method `SceneObject::CascadeTransformInverse`. The call passed on to
the parent is `parent->CascadeTransform(v)`, as in the source. -/
def CascadeTransformInverse (h : Heap) : Nat → Ptr → Vec3 → Option Vec3
  | 0, _, _ => none
  | fuel + 1, p, v =>
    let v1 :=
      if (h p).rotation = unitQuat then
        Vec3.sub v (h p).position
      else
        Quat.rotate (Quat.inverse (h p).rotation) (Vec3.sub v (h p).position)
    match (h p).parent with
    | some q => CascadeTransform h fuel q v1
    | none => some v1

/-- The method `SceneObject::ToWorldPosition`. -/
def ToWorldPosition (h : Heap) (fuel : Nat) (p : Ptr) (v : Vec3) : Option Vec3 :=
  CascadeTransform h fuel p v

/-- The method `SceneObject::ToLocalPosition`. -/
def ToLocalPosition (h : Heap) (fuel : Nat) (p : Ptr) (v : Vec3) : Option Vec3 :=
  CascadeTransformInverse h fuel p v

/-- The method `SceneObject::GetWorldPosition`. -/
def GetWorldPosition (h : Heap) (fuel : Nat) (p : Ptr) : Option Vec3 :=
  match (h p).parent with
  | some _ => ToWorldPosition h fuel p Vec3.zero
  | none => some (h p).position

/-- The method `SceneObject::GetWorldRotation`. -/
def GetWorldRotation (h : Heap) : Nat → Ptr → Option Quat
  | 0, _ => none
  | fuel + 1, p =>
    match (h p).parent with
    | some q => (GetWorldRotation h fuel q).map (fun w => Quat.mul w (h p).rotation)
    | none => some (h p).rotation

/-- Assignment to the field `shouldUpdateCache` of the object at `p`. -/
def setFlag (h : Heap) (p : Ptr) (b : Bool) : Heap :=
  Function.update h p { h p with shouldUpdateCache := b }

/-- Assignment to the field `position` of the object at `p`. -/
def setPosition (h : Heap) (p : Ptr) (v : Vec3) : Heap :=
  Function.update h p { h p with position := v }

/-- Assignment to the field `rotation` of the object at `p`. -/
def setRotation (h : Heap) (p : Ptr) (q : Quat) : Heap :=
  Function.update h p { h p with rotation := q }

/-- Assignment to the field `parent` of the object at `p`. -/
def setParentField (h : Heap) (p : Ptr) (q : Option Ptr) : Heap :=
  Function.update h p { h p with parent := q }

/-- Assignment to the field `children` of the object at `p`. -/
def setChildren (h : Heap) (p : Ptr) (l : List Ptr) : Heap :=
  Function.update h p { h p with children := l }

/-- The loop `for (auto c : children) c->ForceUpdateCache();` over the
children read at loop entry, with `f` the recursive call. -/
def forEachChild (f : Heap → Ptr → Option Heap) : List Ptr → Heap → Option Heap
  | [], h => some h
  | c :: cs, h =>
    match f h c with
    | some h1 => forEachChild f cs h1
    | none => none

/-- The method `SceneObject::ForceUpdateCache`. -/
def ForceUpdateCache : Nat → Heap → Ptr → Option Heap
  | 0, _, _ => none
  | fuel + 1, h, p =>
    forEachChild (ForceUpdateCache fuel) (h p).children (setFlag h p true)

/-- The method `SceneObject::SetWorldPosition`. -/
def SetWorldPosition (h : Heap) (fuel : Nat) (p : Ptr) (v : Vec3) : Option Heap :=
  match ForceUpdateCache fuel h p with
  | none => none
  | some h1 =>
    match (h1 p).parent with
    | some q =>
      match ToLocalPosition h1 fuel q v with
      | some r => some (setPosition h1 p r)
      | none => none
    | none => some (setPosition h1 p v)

/-- The method `SceneObject::SetWorldRotation`. -/
def SetWorldRotation (h : Heap) (fuel : Nat) (p : Ptr) (v : Quat) : Option Heap :=
  match ForceUpdateCache fuel h p with
  | none => none
  | some h1 =>
    match (h1 p).parent with
    | some q =>
      match GetWorldRotation h1 fuel q with
      | some w => some (setRotation h1 p (Quat.mul (Quat.inverse w) v))
      | none => none
    | none => some (setRotation h1 p v)

/-! ## Vectors of pointers -/

/-- The loop of `find(const std::vector<T>&, const T&)` from index `i` on. -/
def findFrom (item : Ptr) : List Ptr → Nat → Int
  | [], _ => -1
  | x :: xs, i => if x = item then (i : Int) else findFrom item xs (i + 1)

/-- The helper `find(const std::vector<T>& source, const T& item)`: the index of
the first occurrence, or `-1`. -/
def find (source : List Ptr) (item : Ptr) : Int := findFrom item source 0

/-- The call `v.erase(v.begin() + i)`; defined only for `0 ≤ i < v.size()`. -/
def vecErase (l : List Ptr) (i : Int) : Option (List Ptr) :=
  if 0 ≤ i ∧ i < l.length then some (l.eraseIdx i.toNat) else none

/-- The call `v.insert(v.begin() + i, 1, x)`; defined only for `0 ≤ i ≤ v.size()`. -/
def vecInsert (l : List Ptr) (i : Int) (x : Ptr) : Option (List Ptr) :=
  if 0 ≤ i ∧ i ≤ l.length then some (l.take i.toNat ++ x :: l.drop i.toNat) else none

/-! ## Reparenting -/

/-- The block of the two `SetParent` overloads that runs when world values are
kept: read the world position and rotation, assign `parent`, write them back. -/
def reassignAdapting (h : Heap) (fuel : Nat) (this : Ptr) (newParent : Option Ptr) :
    Option Heap :=
  match GetWorldPosition h fuel this with
  | none => none
  | some oldPosition =>
    match GetWorldRotation h fuel this with
    | none => none
    | some oldRotation =>
      match SetWorldPosition (setParentField h this newParent) fuel this oldPosition with
      | none => none
      | some h1 => SetWorldRotation h1 fuel this oldRotation

/-- The tail of the positioned `SetParent`, from `find(*source, this)` on;
`src` and `dst` are the owners of the vectors `*source` and `*dest`. -/
def placeChild (h : Heap) (this src dst : Ptr) (newParentPos : Int)
    (pos : InsertPosition) : Option Heap :=
  let sourcePositionInt := find (h src).children this
  if (h dst).children.length = 0 then
    let h1 := setChildren h dst ((h dst).children ++ [this])
    match vecErase (h1 src).children sourcePositionInt with
    | none => none
    | some l => some (setChildren h1 src l)
  else
    let newParentPos1 :=
      if InsertPosition.Bottom.toNat &&& pos.toNat ≠ 0 then newParentPos + 1 else newParentPos
    if src = dst ∧ newParentPos1 < sourcePositionInt then
      match vecErase (h dst).children sourcePositionInt with
      | none => none
      | some l =>
        let h1 := setChildren h dst l
        match vecInsert (h1 dst).children newParentPos1 this with
        | none => none
        | some l1 => some (setChildren h1 dst l1)
    else
      match vecInsert (h dst).children newParentPos1 this with
      | none => none
      | some l =>
        let h1 := setChildren h dst l
        match vecErase (h1 src).children sourcePositionInt with
        | none => none
        | some l1 => some (setChildren h1 src l1)

/-- The method `SceneObject::SetParent(SceneObject* newParent, int newParentPos,
InsertPosition pos)`. The flag `adapt` is the value of
`GlobalToolConfiguration::MoveCoordinateAction().Get() == MoveCoordinateAction::Adapt`.
A null `parent` or `newParent` is dereferenced by the source, hence `none`. -/
def SetParentAt (adapt : Bool) (fuel : Nat) (h : Heap) (this : Ptr) (newParent : Option Ptr)
    (newParentPos : Int) (pos : InsertPosition) : Option Heap :=
  match ForceUpdateCache fuel h this with
  | none => none
  | some h1 =>
    match (h1 this).parent, newParent with
    | some src, some dst =>
      let reassigned :=
        if adapt then reassignAdapting h1 fuel this newParent
        else some (setParentField h1 this newParent)
      match reassigned with
      | none => none
      | some h2 => placeChild h2 this src dst newParentPos pos
    | _, _ => none

/-- The method `SceneObject::SetParent(SceneObject* newParent, bool shouldConvertValues)`. -/
def SetParent (h : Heap) (fuel : Nat) (this : Ptr) (newParent : Option Ptr)
    (shouldConvertValues : Bool) : Option Heap :=
  match ForceUpdateCache fuel h this with
  | none => none
  | some h1 =>
    let h2 :=
      match (h1 this).parent with
      | some par =>
        if (h1 par).children.length > 0 then
          setChildren h1 par ((h1 par).children.erase this)
        else h1
      | none => h1
    let reassigned :=
      if shouldConvertValues then reassignAdapting h2 fuel this newParent
      else some (setParentField h2 this newParent)
    match reassigned with
    | none => none
    | some h3 =>
      match newParent with
      | some np => some (setChildren h3 np ((h3 np).children ++ [this]))
      | none => some h3

/-! ## The scene -/

/-- The class `Scene`: the heap of its objects, the vector `objects`, the
pointers `root` and `cross`, the address of the member `defaultObject`, and the
objects on which `delete` has run. -/
structure Scene where
  heap : Heap
  objects : List Ptr
  root : Ptr
  cross : Ptr
  defaultObject : Ptr
  released : List Ptr

/-- The inner loop of `Scene::Delete`, once entered:
`for (size_t j = 0; i < objects.size(); j++) if (objects[j] == obj) ...`.
The loop condition does not mention `j`, so a scan that passes the end of
`objects` reads out of range (`none`). The list is the part of `objects` from
index `j` on. -/
def scanObjects (obj : Ptr) : List Ptr → Nat → Option Nat
  | [], _ => none
  | o :: os, j => if o = obj then some j else scanObjects obj os (j + 1)

/-- The outer loop of `Scene::Delete` from index `i` on; the list is the part of
`source->children` from index `i` on. -/
def scanChildren (s : Scene) (source obj : Ptr) : List Ptr → Nat → Option (Bool × Scene)
  | [], _ => some (false, s)
  | c :: cs, i =>
    if c = obj then
      if i < s.objects.length then
        match scanObjects obj s.objects 0 with
        | none => none
        | some j =>
          some (true,
            { s with
              heap := setChildren s.heap source ((s.heap source).children.eraseIdx i)
              objects := s.objects.eraseIdx j
              released := obj :: s.released })
      else scanChildren s source obj cs (i + 1)
    else scanChildren s source obj cs (i + 1)

/-- The method `Scene::Delete(SceneObject* source, SceneObject* obj)`. -/
def Scene.Delete (s : Scene) (source obj : Ptr) : Option (Bool × Scene) :=
  scanChildren s source obj (s.heap source).children 0

/-- The static method `Scene::MoveTo`. The set `items` is given by its elements
in iteration order; `items->begin()` of an empty set is not dereferenceable. -/
def Scene.MoveTo (adapt : Bool) (fuel : Nat) (h : Heap) (destination : Option Ptr)
    (destinationPos : Int) (items : List Ptr) (pos : InsertPosition) : Option (Bool × Heap) :=
  if items.length > 1 then some (false, h)
  else
    match items with
    | [] => none
    | item :: _ =>
      match SetParentAt adapt fuel h item destination destinationPos pos with
      | none => none
      | some h1 => some (true, h1)

/-! ## The drag-and-drop guard of the inspector window -/

/-- The loop body of `SceneObjectInspectorWindow::IsMovedToItself` over the
buffer; `up` is the value of the recursive call `IsMovedToItself(parent, buffer)`. -/
def movedLoop (target : Ptr) (parent : Option Ptr) (up : Option Bool) :
    List Ptr → Option Bool
  | [] => some false
  | o :: os =>
    if o = target then some true
    else
      match parent with
      | none => movedLoop target parent up os
      | some par =>
        if par = o then some true
        else
          match up with
          | none => none
          | some true => some true
          | some false => movedLoop target parent up os

/-- The method `SceneObjectInspectorWindow::IsMovedToItself`. -/
def IsMovedToItself (h : Heap) : Nat → Ptr → List Ptr → Option Bool
  | 0, _, _ => none
  | fuel + 1, target, buffer =>
    let up :=
      match (h target).parent with
      | some par => IsMovedToItself h fuel par buffer
      | none => none
    movedLoop target (h target).parent up buffer

/-- The arguments of one `ScheduleMove` call. -/
structure MoveRequest where
  target : Option Ptr
  targetPos : Int
  items : List Ptr
  pos : InsertPosition
deriving DecidableEq

/-- The body of `TryDragDropTarget` once a drag-and-drop buffer is delivered:
the buffer afterwards and the move that was scheduled, if any.
`relativePosition` is the value of `GetPosition(positionMask)`. -/
def TryDragDropTarget (h : Heap) (fuel : Nat) (o : Ptr) (pos : Int)
    (relativePosition : InsertPosition) (buffer : List Ptr) :
    Option (List Ptr × Option MoveRequest) :=
  match IsMovedToItself h fuel o buffer with
  | none => none
  | some true => some ([], none)
  | some false =>
    if relativePosition = InsertPosition.Center then
      some (buffer, some ⟨some o, 0, buffer, InsertPosition.Center⟩)
    else
      some (buffer, some ⟨(h o).parent, pos, buffer, relativePosition⟩)

/-! ## Concrete scenes used for evaluation -/

/-- A group object at the origin with the identity rotation. -/
def plainObject (parent : Option Ptr) (children : List Ptr) : SceneObject :=
  ⟨Vec3.zero, unitQuat, parent, false, children⟩

/-- Root `0`, its child `1` at local position `(1, 0, 0)`, the child `2` of `1`
and the child `3` of `2`; every rotation is the identity. -/
def chainHeap : Heap := fun p =>
  match p with
  | 0 => plainObject none [1]
  | 1 => { plainObject (some 0) [2] with position := ⟨1, 0, 0⟩ }
  | 2 => plainObject (some 1) [3]
  | 3 => plainObject (some 2) []
  | _ => plainObject none []

/-- Root `0` with the children `1, 2, 3, 4` (the siblings A, B, C, D). -/
def siblingHeap : Heap := fun p =>
  match p with
  | 0 => plainObject none [1, 2, 3, 4]
  | _ => plainObject (some 0) []

/-! ## Well-formed trees -/

/-- The ancestors of `p`, nearest first: `qs = [parent p, parent (parent p), ...]`
and the last one has no parent. -/
def IsChain (h : Heap) : Ptr → List Ptr → Prop
  | p, [] => (h p).parent = none
  | p, q :: qs => (h p).parent = some q ∧ IsChain h q qs

instance IsChain.decide (h : Heap) : ∀ (p : Ptr) (qs : List Ptr), Decidable (IsChain h p qs)
  | p, [] => inferInstanceAs (Decidable ((h p).parent = none))
  | p, q :: qs =>
    @instDecidableAnd _ _ (inferInstanceAs (Decidable ((h p).parent = some q)))
      (IsChain.decide h q qs)

/-- Every downward path from `p` along `children` links has at most `d` nodes,
`p` included: the subtree of `p` is finite with height at most `d`. -/
def ChildDepth (h : Heap) : Nat → Ptr → Prop
  | 0, _ => False
  | d + 1, p => ∀ c ∈ (h p).children, ChildDepth h d c

instance ChildDepth.decide (h : Heap) : ∀ (d : Nat) (p : Ptr), Decidable (ChildDepth h d p)
  | 0, _ => inferInstanceAs (Decidable False)
  | d + 1, p =>
    @List.decidableBAll _ (fun c => ChildDepth h d c) (fun c => ChildDepth.decide h d c)
      (h p).children

/-- The heaps agree on every field except the dirty flags. -/
def SameButFlags (h h1 : Heap) : Prop :=
  ∀ q, (h1 q).position = (h q).position ∧ (h1 q).rotation = (h q).rotation ∧
    (h1 q).parent = (h q).parent ∧ (h1 q).children = (h q).children

/-- The map `x ↦ rotate(localRotation, x) + localPosition` of one object. -/
def levelTransform (o : SceneObject) (x : Vec3) : Vec3 :=
  Vec3.add (Quat.rotate o.rotation x) o.position

/-- The product of the local rotations along a chain given nearest first:
for `[n, parent n, ..., root]` it is `rot root * ... * rot (parent n) * rot n`. -/
def chainRotation (h : Heap) : List Ptr → Quat
  | [] => unitQuat
  | p :: qs => Quat.mul (chainRotation h qs) (h p).rotation

/-- The heaps agree on the parent link and the children sequence of every object. -/
def SameStructure (h h1 : Heap) : Prop :=
  ∀ a, (h1 a).parent = (h a).parent ∧ (h1 a).children = (h a).children

/-- The list `l` with `x` put in front of index `k`. -/
def insertAt (l : List Ptr) (k : Nat) (x : Ptr) : List Ptr :=
  l.take k ++ x :: l.drop k

/-- The index, in the sequence without the moved node, at which a move inside
one children sequence puts the node: `s` is the node's old index, `t` the index
passed to `SetParent`. -/
def moveIndex (s t : Nat) (pos : InsertPosition) : Nat :=
  let t1 := if InsertPosition.Bottom.toNat &&& pos.toNat ≠ 0 then t + 1 else t
  if t1 ≤ s then t1 else t1 - 1

/-- Root `0` and the chain `0 → 1 → 2 → 3` with rotations that are not the
identity: node `1` is turned by the unit quaternion `(0, 1, 0, 0)` and node `2`
by `(3/5, 4/5, 0, 0)`. -/
def turnedHeap : Heap := fun p =>
  match p with
  | 0 => plainObject none [1]
  | 1 => ⟨⟨1, 0, 0⟩, ⟨0, 1, 0, 0⟩, some 0, false, [2]⟩
  | 2 => ⟨⟨0, 2, 0⟩, ⟨3 / 5, 4 / 5, 0, 0⟩, some 1, false, [3]⟩
  | 3 => ⟨⟨0, 0, 3⟩, unitQuat, some 2, false, []⟩
  | _ => plainObject none []

/-- Root `0` with the children `1` (the cross, which is not in `objects`) and
`2`; the vector `objects` is `[2]`. -/
def crossScene : Scene :=
  { heap := fun p =>
      match p with
      | 0 => plainObject none [1, 2]
      | _ => plainObject (some 0) []
    objects := [2]
    root := 0
    cross := 1
    defaultObject := 0
    released := [] }

/-- The scene with root `0`, its children `1, 2, 3, 4`, all of them in `objects`. -/
def siblingScene : Scene :=
  { heap := siblingHeap
    objects := [1, 2, 3, 4]
    root := 0
    cross := 5
    defaultObject := 0
    released := [] }

/-! ## Deferred commands, events and properties -/

/-- The class `Command`: the identity of the object, the flag `isReady` and the
virtual method `Execute`, which returns success and acts on the program state
outside the queue. -/
structure Command (σ : Type) where
  id : Nat
  isReady : Bool
  Execute : σ → Bool × σ

/-- What one call of `Command::ExecuteAll` leaves: the value returned, the
program state, the queue, and the ids of the commands whose `Execute` was
called, in call order. -/
structure Drain (σ : Type) where
  result : Bool
  state : σ
  queue : List (Command σ)
  ran : List Nat

/-- The first loop of `Command::ExecuteAll` over the rest of the queue:
`deleteQueue` collects the commands that ran with success; the first component
is `false` when the loop left through `return false`. -/
def drainLoop {σ : Type} :
    List (Command σ) → σ → List (Command σ) → List Nat →
      Bool × σ × List (Command σ) × List Nat
  | [], w, deleteQueue, ran => (true, w, deleteQueue, ran)
  | command :: rest, w, deleteQueue, ran =>
    if command.isReady then
      if !(command.Execute w).1 then
        (false, (command.Execute w).2, deleteQueue, ran ++ [command.id])
      else
        drainLoop rest (command.Execute w).2 (deleteQueue ++ [command]) (ran ++ [command.id])
    else drainLoop rest w deleteQueue ran

/-- The static method `Command::ExecuteAll`; `GetQueue().remove(command)` drops
every entry equal to the pointer `command`. -/
def Command.ExecuteAll {σ : Type} (queue : List (Command σ)) (w : σ) : Drain σ :=
  match drainLoop queue w [] [] with
  | (false, w1, _, ran) => ⟨false, w1, queue, ran⟩
  | (true, w1, deleteQueue, ran) =>
    ⟨true, w1, deleteQueue.foldl (fun q command => q.filter (fun c => c.id != command.id)) queue,
      ran⟩

/-- The class `Event<T>`: the entries of the map `handlers` in key order. A
handler is a callback acting on the state outside the event. -/
structure Event (T σ : Type) where
  handlers : List (Nat × (T → σ → σ))

/-- The method `Event::Invoke`: the state after the calls and the calls made
(handler id and argument), in call order. -/
def Event.Invoke {T σ : Type} (e : Event T σ) (v : T) (w : σ) : σ × List (Nat × T) :=
  e.handlers.foldl (fun acc handler => (handler.2 v acc.1, acc.2 ++ [(handler.1, v)])) (w, [])

/-- The class `Property<T>::Node`: the value and the event `changed`. -/
structure PropertyNode (T σ : Type) where
  value : T
  changed : Event T σ

/-- The method `Property::Node::Get`. -/
def PropertyNode.Get {T σ : Type} (n : PropertyNode T σ) : T := n.value

/-- The method `Property::Node::Set`: the node, the state outside, and the
handler calls made. -/
def PropertyNode.Set {T σ : Type} [DecidableEq T] (n : PropertyNode T σ) (v : T) (w : σ) :
    PropertyNode T σ × σ × List (Nat × T) :=
  let old := n.value
  let n1 : PropertyNode T σ := { n with value := v }
  if old ≠ v then (n1, n1.changed.Invoke v w) else (n1, w, [])

/-- The nodes that `std::shared_ptr<Node<T>>` values point to. -/
abbrev NodeStore (T σ : Type) := Nat → PropertyNode T σ

/-- The class `Property<T>`: the shared pointer `node`. -/
structure Property where
  node : Nat
deriving DecidableEq

/-- The method `Property::Get`. -/
def Property.Get {T σ : Type} (st : NodeStore T σ) (p : Property) : T := (st p.node).Get

/-- The method `Property::Set`. -/
def Property.Set {T σ : Type} [DecidableEq T] (st : NodeStore T σ) (p : Property) (v : T)
    (w : σ) : NodeStore T σ × σ × List (Nat × T) :=
  (Function.update st p.node ((st p.node).Set v w).1, ((st p.node).Set v w).2)

/-- The method `Property::BindTwoWay`: `node = p.node`; the handle afterwards. -/
def Property.BindTwoWay (this p : Property) : Property := { this with node := p.node }

/-! ## Insertion and bulk deletion -/

/-- The method `Scene::Insert(SceneObject* destination, SceneObject* obj)`. -/
def Scene.Insert (s : Scene) (fuel : Nat) (destination : Option Ptr) (obj : Ptr) :
    Option (Bool × Scene) :=
  match SetParent s.heap fuel obj destination false with
  | none => none
  | some h1 => some (true, { s with heap := h1, objects := s.objects ++ [obj] })

/-- The method `Scene::Insert(SceneObject* obj)`. -/
def Scene.InsertAtRoot (s : Scene) (fuel : Nat) (obj : Ptr) : Option (Bool × Scene) :=
  match SetParent s.heap fuel obj (some s.root) false with
  | none => none
  | some h1 => some (true, { s with heap := h1, objects := s.objects ++ [obj] })

/-- The method `Scene::DeleteAll`. The member `deleteAll` and the state its
handlers act on are passed along; the result holds the scene, that state and
the handler calls made. -/
def Scene.DeleteAll {σ : Type} (s : Scene) (fuel : Nat) (deleteAll : Event Unit σ) (w : σ) :
    Option (Scene × σ × List (Nat × Unit)) :=
  let invoked := deleteAll.Invoke () w
  match SetParent s.heap fuel s.cross none false with
  | none => none
  | some h1 =>
    some ({ heap := setChildren h1 s.defaultObject []
            objects := []
            root := s.defaultObject
            cross := s.cross
            defaultObject := s.defaultObject
            released := s.objects.foldl (fun acc o => o :: acc) s.released }, invoked)

/-! ## The leaf `StereoPolyLine` -/

/-- The struct `Pair`. -/
structure Pair where
  p1 : Vec3
  p2 : Vec3
deriving DecidableEq

/-- The members `linesCache` and `vertices` of `StereoPolyLine`; the flag
`shouldUpdateCache` is the one of the scene object on the heap. -/
structure StereoPolyLine where
  linesCache : List Pair
  vertices : List Vec3
deriving DecidableEq

/-- The method `SceneObject::CascadeTransform(std::vector<glm::vec3>&)`. -/
def CascadeTransformAll (h : Heap) : Nat → Ptr → List Vec3 → Option (List Vec3)
  | 0, _, _ => none
  | fuel + 1, p, vertices =>
    let vs1 :=
      if (h p).rotation = unitQuat then
        vertices.map (fun v => Vec3.add v (h p).position)
      else
        vertices.map (fun v => Vec3.add (Quat.rotate (h p).rotation v) (h p).position)
    match (h p).parent with
    | some q => CascadeTransformAll h fuel q vs1
    | none => some vs1

/-- The method `StereoPolyLine::UpdateCache`. -/
def StereoPolyLine.UpdateCache (h : Heap) (fuel : Nat) (this : Ptr) (pl : StereoPolyLine) :
    Option (Heap × StereoPolyLine) :=
  if pl.vertices.length < 2 then
    some (h, { pl with linesCache := [] })
  else
    match CascadeTransformAll h fuel this pl.vertices with
    | none => none
    | some transformedVertices =>
      some (setFlag h this false,
        { pl with
          linesCache := (List.range (pl.vertices.length - 1)).map (fun i =>
            ⟨transformedVertices.getD i Vec3.zero, transformedVertices.getD (i + 1) Vec3.zero⟩) })

/-- The method `StereoPolyLine::GetLines`: the lines returned and the state left. -/
def StereoPolyLine.GetLines (h : Heap) (fuel : Nat) (this : Ptr) (pl : StereoPolyLine) :
    Option (List Pair × Heap × StereoPolyLine) :=
  if (h this).shouldUpdateCache then
    match StereoPolyLine.UpdateCache h fuel this pl with
    | none => none
    | some r => some (r.2.linesCache, r.1, r.2)
  else some (pl.linesCache, h, pl)

/-- The method `StereoPolyLine::AddVertice`. -/
def StereoPolyLine.AddVertice (h : Heap) (this : Ptr) (pl : StereoPolyLine) (v : Vec3) :
    Heap × StereoPolyLine :=
  (setFlag h this true, { pl with vertices := pl.vertices ++ [v] })

/-- The method `StereoPolyLine::SetVertice`; `vertices[index]` is defined only
for `index < vertices.size()`. -/
def StereoPolyLine.SetVertice (h : Heap) (this : Ptr) (pl : StereoPolyLine) (index : Nat)
    (v : Vec3) : Option (Heap × StereoPolyLine) :=
  if index < pl.vertices.length then
    some (setFlag h this true, { pl with vertices := pl.vertices.set index v })
  else none

/-- The method `StereoPolyLine::RemoveVertice`. -/
def StereoPolyLine.RemoveVertice (h : Heap) (this : Ptr) (pl : StereoPolyLine) :
    Heap × StereoPolyLine :=
  let cache1 := if pl.linesCache.length > 0 then pl.linesCache.dropLast else pl.linesCache
  let vertices1 := if pl.vertices.length > 0 then pl.vertices.dropLast else pl.vertices
  (setFlag h this true, { linesCache := cache1, vertices := vertices1 })

/-- One call among `AddVertice`, `SetVertice` and `RemoveVertice`. -/
inductive VerticeCall where
  | add (v : Vec3)
  | set (index : Nat) (v : Vec3)
  | remove
deriving DecidableEq

/-- The effect of one call on the heap and the polyline. -/
def VerticeCall.run (h : Heap) (this : Ptr) (pl : StereoPolyLine) :
    VerticeCall → Option (Heap × StereoPolyLine)
  | .add v => some (StereoPolyLine.AddVertice h this pl v)
  | .set index v => StereoPolyLine.SetVertice h this pl index v
  | .remove => some (StereoPolyLine.RemoveVertice h this pl)

/-- The effect of a sequence of calls, first call first. -/
def runCalls (this : Ptr) : List VerticeCall → Heap → StereoPolyLine →
    Option (Heap × StereoPolyLine)
  | [], h, pl => some (h, pl)
  | c :: cs, h, pl =>
    match c.run h this pl with
    | none => none
    | some r => runCalls this cs r.1 r.2

/-- Every `SetVertice` of the sequence has its index below the number of
vertices at the time of the call; `n` is the number of vertices at the start. -/
def CallsInRange : Nat → List VerticeCall → Prop
  | _, [] => True
  | n, .add _ :: cs => CallsInRange (n + 1) cs
  | n, .set index _ :: cs => index < n ∧ CallsInRange n cs
  | n, .remove :: cs => CallsInRange (n - 1) cs

instance CallsInRange.decide : ∀ (n : Nat) (cs : List VerticeCall),
    Decidable (CallsInRange n cs)
  | _, [] => inferInstanceAs (Decidable True)
  | n, .add _ :: cs => CallsInRange.decide (n + 1) cs
  | n, .set index _ :: cs =>
    @instDecidableAnd _ _ (inferInstanceAs (Decidable (index < n))) (CallsInRange.decide n cs)
  | n, .remove :: cs => CallsInRange.decide (n - 1) cs

/-! ## Descendants and scene consistency -/

/-- The node `q` is `p` or is reached from `p` by at most `d` steps along
`children` links. -/
def ReachesWithin (h : Heap) : Nat → Ptr → Ptr → Prop
  | 0, p, q => q = p
  | d + 1, p, q => q = p ∨ ∃ c, c ∈ (h p).children ∧ ReachesWithin h d c q

/-- The live nodes of a scene: the root and the members of `objects`. -/
def Scene.live (s : Scene) : List Ptr := s.root :: s.objects

/-- Every member of `objects` is a child of exactly one live node, and every
child of a live node is in `objects`. -/
def Scene.Linked (s : Scene) : Prop :=
  (∀ x, x ∈ s.objects →
    ∃ p, p ∈ s.live ∧ (x ∈ (s.heap p).children ∧
      ∀ p1, p1 ∈ s.live → x ∈ (s.heap p1).children → p1 = p)) ∧
  (∀ p, p ∈ s.live → ∀ c, c ∈ (s.heap p).children → c ∈ s.objects)

/-- Consistency of `objects` with the children sequences: `objects` and the
children sequence of every live node have no duplicates, and the scene is
linked. -/
def Scene.Consistent (s : Scene) : Prop :=
  s.objects.Nodup ∧ (∀ p, p ∈ s.live → (s.heap p).children.Nodup) ∧ s.Linked

instance Scene.Linked.decide (s : Scene) : Decidable s.Linked := by
  unfold Scene.Linked
  exact inferInstance

instance Scene.Consistent.decide (s : Scene) : Decidable s.Consistent := by
  unfold Scene.Consistent
  exact inferInstance

/-- Root `0` with the child `1`, and `objects = [1, 1]`. -/
def twiceListedScene : Scene :=
  { heap := fun p =>
      match p with
      | 0 => plainObject none [1]
      | _ => plainObject (some 0) []
    objects := [1, 1]
    root := 0
    cross := 8
    defaultObject := 0
    released := [] }

/-- Root `0` with the children `[1, 1]`, and `objects = [1]`. -/
def twiceChildScene : Scene :=
  { heap := fun p =>
      match p with
      | 0 => plainObject none [1, 1]
      | _ => plainObject (some 0) []
    objects := [1]
    root := 0
    cross := 8
    defaultObject := 0
    released := [] }

/-- Root `0` with the child `1`, which is the only member of `objects`; the
node `7`, which is not live, also lists `1` among its children. -/
def strayScene : Scene :=
  { heap := fun p =>
      match p with
      | 0 => plainObject none [1]
      | 1 => plainObject (some 0) []
      | 7 => plainObject none [1]
      | _ => plainObject none []
    objects := [1]
    root := 0
    cross := 8
    defaultObject := 0
    released := [] }

/-- Root `0` with the children `1` and `4`; node `1` sits at `(1, 0, 0)` and has
the child `2`, which has the child `3`; every rotation is the identity. -/
def adoptHeap : Heap := fun p =>
  match p with
  | 0 => plainObject none [1, 4]
  | 1 => { plainObject (some 0) [2] with position := ⟨1, 0, 0⟩ }
  | 2 => plainObject (some 1) [3]
  | 3 => plainObject (some 2) []
  | 4 => plainObject (some 0) []
  | _ => plainObject none []

/-- The scene over the chain `0 → 1 → 2 → 3`, with `1, 2, 3` in `objects`; the
other pointers are detached objects. -/
def chainScene : Scene :=
  { heap := chainHeap
    objects := [1, 2, 3]
    root := 0
    cross := 8
    defaultObject := 0
    released := [] }

/-! ## Vocabulary for statements about the command queue and the polyline -/

/-- The state after the ready commands of `l` have run in list order. -/
def runReady {σ : Type} : List (Command σ) → σ → σ
  | [], w => w
  | c :: cs, w => if c.isReady then runReady cs (c.Execute w).2 else runReady cs w

/-- Every ready command of `l`, run in list order from the state `w`, returns
success. -/
def AllSucceed {σ : Type} : List (Command σ) → σ → Prop
  | [], _ => True
  | c :: cs, w =>
    if c.isReady then (c.Execute w).1 = true ∧ AllSucceed cs (c.Execute w).2
    else AllSucceed cs w

instance AllSucceed.decide {σ : Type} : ∀ (l : List (Command σ)) (w : σ),
    Decidable (AllSucceed l w)
  | [], _ => inferInstanceAs (Decidable True)
  | c :: cs, w => by
    unfold AllSucceed
    by_cases hr : c.isReady = true
    · rw [if_pos hr]
      exact @instDecidableAnd _ _ inferInstance (AllSucceed.decide cs (c.Execute w).2)
    · rw [if_neg hr]
      exact AllSucceed.decide cs w

/-- The ids of the ready commands of `l`, in list order. -/
def readyIds {σ : Type} (l : List (Command σ)) : List Nat :=
  (l.filter (fun c => c.isReady)).map (fun c => c.id)

/-- A command that appends its id to a log and returns `ok`. -/
def logCommand (id : Nat) (isReady ok : Bool) : Command (List Nat) :=
  ⟨id, isReady, fun w => (ok, w ++ [id])⟩

/-- A handler that appends its id and its argument to a log. -/
def logHandler (id : Nat) : Nat × (Nat → List (Nat × Nat) → List (Nat × Nat)) :=
  (id, fun v w => w ++ [(id, v)])

/-- A store in which every node holds the value `5` and the handlers `3` and `7`. -/
def logStore : NodeStore Nat (List (Nat × Nat)) :=
  fun _ => ⟨5, ⟨[logHandler 3, logHandler 7]⟩⟩

/-- The vertices after a sequence of calls, first call first. -/
def verticesAfter : List Vec3 → List VerticeCall → List Vec3
  | vs, [] => vs
  | vs, .add v :: cs => verticesAfter (vs ++ [v]) cs
  | vs, .set index v :: cs => verticesAfter (vs.set index v) cs
  | vs, .remove :: cs => verticesAfter vs.dropLast cs

/-! ## Local setters -/

/-- The method `SceneObject::SetLocalPosition`. -/
def SetLocalPosition (h : Heap) (fuel : Nat) (p : Ptr) (v : Vec3) : Option Heap :=
  match ForceUpdateCache fuel h p with
  | none => none
  | some h1 => some (setPosition h1 p v)

/-- The method `SceneObject::SetLocalRotation`. -/
def SetLocalRotation (h : Heap) (fuel : Nat) (p : Ptr) (v : Quat) : Option Heap :=
  match ForceUpdateCache fuel h p with
  | none => none
  | some h1 => some (setRotation h1 p v)

/-! ## The leaves `Mesh` and `Cross` -/

/-- The members `vertices`, `linesCache` and `lines` of `Mesh`; an entry of
`lines` is the array of two vertex indices. -/
structure Mesh where
  vertices : List Vec3
  linesCache : List Pair
  lines : List (Nat × Nat)
deriving DecidableEq

/-- The loop of `Mesh::UpdateCache` that fills `linesCache` from the transformed
vertices; an index outside the vertices is an out-of-range read (`none`). -/
def connectLines (transformedVertices : List Vec3) : List (Nat × Nat) → Option (List Pair)
  | [] => some []
  | line :: rest =>
    match transformedVertices[line.1]?, transformedVertices[line.2]?,
        connectLines transformedVertices rest with
    | some a, some b, some ps => some (⟨a, b⟩ :: ps)
    | _, _, _ => none

/-- The method `Mesh::UpdateCache`. -/
def Mesh.UpdateCache (h : Heap) (fuel : Nat) (this : Ptr) (m : Mesh) : Option (Heap × Mesh) :=
  if m.lines.length < 1 then
    some (h, { m with linesCache := [] })
  else
    match CascadeTransformAll h fuel this m.vertices with
    | none => none
    | some transformedVertices =>
      match connectLines transformedVertices m.lines with
      | none => none
      | some cache => some (setFlag h this false, { m with linesCache := cache })

/-- The method `Mesh::GetLines`: the lines returned and the state left. -/
def Mesh.GetLines (h : Heap) (fuel : Nat) (this : Ptr) (m : Mesh) :
    Option (List Pair × Heap × Mesh) :=
  if (h this).shouldUpdateCache then
    match Mesh.UpdateCache h fuel this m with
    | none => none
    | some r => some (r.2.linesCache, r.1, r.2)
  else some (m.linesCache, h, m)

/-- The loop of `find` at the element type `std::array<size_t, 2>`. -/
def findLineFrom (item : Nat × Nat) : List (Nat × Nat) → Nat → Int
  | [], _ => -1
  | x :: xs, i => if x = item then (i : Int) else findLineFrom item xs (i + 1)

/-- The method `Mesh::Connect`; `vertices[p1]` and `vertices[p2]` are defined
only for indices below `vertices.size()`. -/
def Mesh.Connect (h : Heap) (this : Ptr) (m : Mesh) (p1 p2 : Nat) : Option (Heap × Mesh) :=
  match m.vertices[p1]?, m.vertices[p2]? with
  | some a, some b =>
    some (setFlag h this true,
      { m with lines := m.lines ++ [(p1, p2)], linesCache := m.linesCache ++ [⟨a, b⟩] })
  | _, _ => none

/-- The method `Mesh::Disconnect`; `linesCache.erase(linesCache.begin() + pos)`
is defined only for `pos < linesCache.size()`. -/
def Mesh.Disconnect (h : Heap) (this : Ptr) (m : Mesh) (p1 p2 : Nat) : Option (Heap × Mesh) :=
  let pos := findLineFrom (p1, p2) m.lines 0
  if pos = -1 then some (h, m)
  else if pos.toNat < m.linesCache.length then
    some (setFlag h this true,
      { m with
        lines := m.lines.eraseIdx pos.toNat
        linesCache := m.linesCache.eraseIdx pos.toNat })
  else none

/-- The method `Mesh::AddVertice`. -/
def Mesh.AddVertice (h : Heap) (this : Ptr) (m : Mesh) (v : Vec3) : Heap × Mesh :=
  (setFlag h this true, { m with vertices := m.vertices ++ [v] })

/-- The method `Mesh::SetVertices`. -/
def Mesh.SetVertices (h : Heap) (this : Ptr) (m : Mesh) (vs : List Vec3) : Heap × Mesh :=
  (setFlag h this true, { m with vertices := vs })

/-- The method `Mesh::SetConnections`. -/
def Mesh.SetConnections (h : Heap) (this : Ptr) (m : Mesh) (connections : List (Nat × Nat)) :
    Heap × Mesh :=
  (setFlag h this true, { m with lines := connections })

/-- The method `Mesh::RemoveVertice`; `pop_back` is defined only on a non-empty
vector. -/
def Mesh.RemoveVertice (h : Heap) (this : Ptr) (m : Mesh) : Option (Heap × Mesh) :=
  if m.vertices.length > 0 then
    some (setFlag h this true, { m with vertices := m.vertices.dropLast })
  else none

/-- The members `linesCache` and `size` of `Cross`. -/
structure Cross where
  linesCache : List Pair
  size : ℚ
deriving DecidableEq

/-- The six vertices that `Cross::UpdateCache` builds before the transform:
`std::vector<glm::vec3> vertices(6)` with `size` subtracted from or added to one
coordinate each. -/
def Cross.rawVertices (c : Cross) : List Vec3 :=
  [⟨0 - c.size, 0, 0⟩, ⟨0 + c.size, 0, 0⟩, ⟨0, 0 - c.size, 0⟩, ⟨0, 0 + c.size, 0⟩,
   ⟨0, 0, 0 - c.size⟩, ⟨0, 0, 0 + c.size⟩]

/-- The method `Cross::UpdateCache`. -/
def Cross.UpdateCache (h : Heap) (fuel : Nat) (this : Ptr) (c : Cross) : Option (Heap × Cross) :=
  match CascadeTransformAll h fuel this c.rawVertices with
  | none => none
  | some vertices =>
    some (h,
      { c with
        linesCache := (List.range 3).map (fun i =>
          ⟨vertices.getD (i * 2) Vec3.zero, vertices.getD (i * 2 + 1) Vec3.zero⟩) })

/-- The method `Cross::GetLines`: the lines returned and the state left. -/
def Cross.GetLines (h : Heap) (fuel : Nat) (this : Ptr) (c : Cross) :
    Option (List Pair × Heap × Cross) :=
  if (h this).shouldUpdateCache then
    match Cross.UpdateCache h fuel this c with
    | none => none
    | some r => some (r.2.linesCache, r.1, r.2)
  else some (c.linesCache, h, c)

/-! ## Handler registration through the deferred queue -/

/-- The assignment `handlers[k] = f` on the entries of a `std::map` in key order. -/
def mapAssign {α : Type} (k : Nat) (f : α) : List (Nat × α) → List (Nat × α)
  | [] => [(k, f)]
  | e :: rest =>
    if k < e.1 then (k, f) :: e :: rest
    else if k = e.1 then (k, f) :: rest
    else e :: mapAssign k f rest

/-- The call `handlers.erase(k)`. -/
def mapErase {α : Type} (k : Nat) (m : List (Nat × α)) : List (Nat × α) :=
  m.filter (fun e => e.1 != k)

/-- The entry of the map at key `k`, if any. -/
def mapFind {α : Type} (k : Nat) : List (Nat × α) → Option α
  | [] => none
  | e :: rest => if e.1 = k then some e.2 else mapFind k rest

/-- The class `FuncCommand`: ready from construction on, `Execute` runs `func`
and returns `true`. -/
def FuncCommand {σ : Type} (id : Nat) (func : σ → σ) : Command σ :=
  ⟨id, true, fun w => (true, func w)⟩

/-- The state that `IEvent<T>` and the deferred queue share: the queue of
`Command::GetQueue()`, the static counter `id` of `AddHandler`, the identity of
the next command object, and the event with its map `handlers`. -/
structure EventWorld (T ω : Type) where
  queue : List (Command (Event T ω))
  nextId : Nat
  nextCommand : Nat
  event : Event T ω

/-- The method `IEvent::AddHandler`: the id returned and the state left. -/
def IEvent.AddHandler {T ω : Type} (w : EventWorld T ω) (func : T → ω → ω) :
    Nat × EventWorld T ω :=
  (w.nextId,
    { w with
      queue := w.queue ++
        [FuncCommand w.nextCommand (fun e => ⟨mapAssign w.nextId func e.handlers⟩)]
      nextId := w.nextId + 1
      nextCommand := w.nextCommand + 1 })

/-- The method `IEvent::RemoveHandler`. -/
def IEvent.RemoveHandler {T ω : Type} (w : EventWorld T ω) (v : Nat) : EventWorld T ω :=
  { w with
    queue := w.queue ++ [FuncCommand w.nextCommand (fun e => ⟨mapErase v e.handlers⟩)]
    nextCommand := w.nextCommand + 1 }

/-- One call of `Command::ExecuteAll` on the shared state: the value returned
and the state left. -/
def EventWorld.drain {T ω : Type} (w : EventWorld T ω) : Bool × EventWorld T ω :=
  ((Command.ExecuteAll w.queue w.event).result,
    { w with
      queue := (Command.ExecuteAll w.queue w.event).queue
      event := (Command.ExecuteAll w.queue w.event).state })

/-! ## Parent and children links -/

/-- Every node `c` occurs in `p.children` exactly when `c.parent = p`, and then
exactly once. -/
def ParentChildConsistent (h : Heap) : Prop :=
  ∀ c p, (h p).children.count c = if (h c).parent = some p then 1 else 0

/-- The index at which the positioned `SetParent` inserts into the children of
another parent: the index given, plus one when the rule has the `Bottom` bit. -/
def insertIndex (i : Nat) (pos : InsertPosition) : Nat :=
  if InsertPosition.Bottom.toNat &&& pos.toNat ≠ 0 then i + 1 else i

/-- What the block that keeps world values needs in order to return: the node
has a finite ancestor chain before the assignment of `parent` and after it (the
new parent is not the node itself or one of its descendants). Nothing is asked
when values are not kept. -/
def AdaptReady (adapt : Bool) (h : Heap) (fuel : Nat) (X : Ptr) (newParent : Option Ptr) :
    Prop :=
  adapt = true → ∃ qs rs, IsChain h X qs ∧ qs.length < fuel ∧
    IsChain (setParentField h X newParent) X rs ∧ rs.length < fuel

/-- Root `0` with the children `1` and `4`, node `1` with the child `2`, node
`2` with the child `3`; every other pointer is a detached object. -/
def familyHeap : Heap := fun p =>
  match p with
  | 0 => plainObject none [1, 4]
  | 1 => plainObject (some 0) [2]
  | 2 => plainObject (some 1) [3]
  | 3 => plainObject (some 2) []
  | 4 => plainObject (some 0) []
  | _ => plainObject none []

/-- An event world with an empty queue and the logging handler `3` registered. -/
def logWorld : EventWorld Nat (List (Nat × Nat)) :=
  { queue := []
    nextId := 4
    nextCommand := 0
    event := ⟨[logHandler 3]⟩ }

/-- A mesh with three vertices and the connections `(0, 2)` and `(2, 1)`. -/
def sampleMesh : Mesh :=
  { vertices := [⟨1, 0, 0⟩, ⟨0, 1, 0⟩, ⟨0, 0, 1⟩]
    linesCache := []
    lines := [(0, 2), (2, 1)] }

/-- The chain `0 → 1 → 2 → 3` with turned ancestors and the dirty flag set on
node `3`. -/
def dirtyHeap : Heap := setFlag turnedHeap 3 true

/-! ## Geometry lemmas -/

theorem rotate_unitQuat (v : Vec3) : Quat.rotate unitQuat v = v := by
  cases v
  simp [Quat.rotate, unitQuat, Vec3.cross, Vec3.add, Vec3.smul]

theorem rotate_zero (q : Quat) : Quat.rotate q Vec3.zero = Vec3.zero := by
  simp [Quat.rotate, Vec3.cross, Vec3.add, Vec3.smul, Vec3.zero]

theorem add_zero_left (v : Vec3) : Vec3.add Vec3.zero v = v := by
  cases v
  simp [Vec3.add, Vec3.zero]

theorem transformStep_eq (o : SceneObject) (v : Vec3) :
    transformStep o v = levelTransform o v := by
  unfold transformStep levelTransform
  split
  · next hu => rw [hu, rotate_unitQuat]
  · rfl

theorem mul_unitQuat_left (q : Quat) : Quat.mul unitQuat q = q := by
  cases q
  simp [Quat.mul, unitQuat]

theorem dot_mul (a b : Quat) : (Quat.mul a b).dot = a.dot * b.dot := by
  simp only [Quat.mul, Quat.dot]
  ring

theorem dot_unitQuat : unitQuat.dot = 1 := by
  simp [Quat.dot, unitQuat]

theorem mul_inverse_cancel (w q : Quat) (hw : w.dot ≠ 0) :
    Quat.mul w (Quat.mul (Quat.inverse w) q) = q := by
  have hd : w.w * w.w + w.x * w.x + w.y * w.y + w.z * w.z ≠ 0 := hw
  cases q
  simp only [Quat.mul, Quat.inverse, Quat.dot, Quat.mk.injEq]
  refine ⟨?_, ?_, ?_, ?_⟩ <;> field_simp <;> ring

/-! ## Heap update lemmas -/

@[simp] theorem setFlag_apply (h : Heap) (p q : Ptr) (b : Bool) :
    setFlag h p b q = if q = p then { h p with shouldUpdateCache := b } else h q := by
  unfold setFlag Function.update
  split
  · next e => subst e; rfl
  · rfl

@[simp] theorem setPosition_apply (h : Heap) (p q : Ptr) (v : Vec3) :
    setPosition h p v q = if q = p then { h p with position := v } else h q := by
  unfold setPosition Function.update
  split
  · next e => subst e; rfl
  · rfl

@[simp] theorem setRotation_apply (h : Heap) (p q : Ptr) (v : Quat) :
    setRotation h p v q = if q = p then { h p with rotation := v } else h q := by
  unfold setRotation Function.update
  split
  · next e => subst e; rfl
  · rfl

@[simp] theorem setParentField_apply (h : Heap) (p q : Ptr) (v : Option Ptr) :
    setParentField h p v q = if q = p then { h p with parent := v } else h q := by
  unfold setParentField Function.update
  split
  · next e => subst e; rfl
  · rfl

@[simp] theorem setChildren_apply (h : Heap) (p q : Ptr) (l : List Ptr) :
    setChildren h p l q = if q = p then { h p with children := l } else h q := by
  unfold setChildren Function.update
  split
  · next e => subst e; rfl
  · rfl

theorem sameButFlags_refl (h : Heap) : SameButFlags h h := fun _ => ⟨rfl, rfl, rfl, rfl⟩

theorem sameButFlags_trans {h h1 h2 : Heap} (a : SameButFlags h h1) (b : SameButFlags h1 h2) :
    SameButFlags h h2 := fun q =>
  ⟨(b q).1.trans (a q).1, (b q).2.1.trans (a q).2.1, (b q).2.2.1.trans (a q).2.2.1,
    (b q).2.2.2.trans (a q).2.2.2⟩

theorem sameButFlags_symm {h h1 : Heap} (a : SameButFlags h h1) : SameButFlags h1 h := fun q =>
  ⟨(a q).1.symm, (a q).2.1.symm, (a q).2.2.1.symm, (a q).2.2.2.symm⟩

theorem sameButFlags_setFlag (h : Heap) (p : Ptr) (b : Bool) : SameButFlags h (setFlag h p b) := by
  intro q
  by_cases e : q = p
  · subst e; simp
  · simp [e]

theorem childDepth_congr {h h1 : Heap} (hc : ∀ q, (h1 q).children = (h q).children) :
    ∀ (d : Nat) (p : Ptr), ChildDepth h d p → ChildDepth h1 d p
  | 0, _, hd => hd
  | d + 1, p, hd => fun c hcm => childDepth_congr hc d c (hd c (by rw [← hc p]; exact hcm))

theorem childDepth_mono {h : Heap} : ∀ (d e : Nat) (p : Ptr), d ≤ e → ChildDepth h d p →
    ChildDepth h e p
  | 0, _, _, _, hd => hd.elim
  | _ + 1, 0, _, hle, _ => absurd hle (by omega)
  | d + 1, e + 1, p, hle, hd => fun c hcm => childDepth_mono d e c (by omega) (hd c hcm)

theorem isChain_congr {h h1 : Heap} : ∀ (qs : List Ptr) (p : Ptr),
    (∀ q ∈ p :: qs, (h1 q).parent = (h q).parent) → IsChain h p qs → IsChain h1 p qs
  | [], p, hp, hc => by
    have := hp p (by simp)
    simp only [IsChain] at hc ⊢
    rw [this, hc]
  | q :: qs, p, hp, hc => by
    have := hp p (by simp)
    simp only [IsChain] at hc ⊢
    refine ⟨by rw [this, hc.1], isChain_congr qs q (fun a ha => hp a (by simp [ha])) hc.2⟩
    
/-! ## Termination and frame of `ForceUpdateCache` -/

theorem forEachChild_spec (f : Heap → Ptr → Option Heap) (d : Nat) (h : Heap)
    (hf : ∀ (h0 : Heap) (c : Ptr), ChildDepth h0 d c →
      ∃ h1, f h0 c = some h1 ∧ SameButFlags h0 h1) :
    ∀ (cs : List Ptr) (h0 : Heap), (∀ c ∈ cs, ChildDepth h0 d c) → SameButFlags h h0 →
      ∃ h1, forEachChild f cs h0 = some h1 ∧ SameButFlags h h1
  | [], h0, _, hs => ⟨h0, rfl, hs⟩
  | c :: cs, h0, hd, hs => by
    obtain ⟨h1, e1, s1⟩ := hf h0 c (hd c (by simp))
    have hd1 : ∀ c1 ∈ cs, ChildDepth h1 d c1 := fun c1 hc1 =>
      childDepth_congr (fun q => (s1 q).2.2.2) d c1 (hd c1 (by simp [hc1]))
    obtain ⟨h2, e2, s2⟩ := forEachChild_spec f d h hf cs h1 hd1 (sameButFlags_trans hs s1)
    exact ⟨h2, by simp [forEachChild, e1, e2], s2⟩

theorem ForceUpdateCache_spec : ∀ (fuel : Nat) (h : Heap) (p : Ptr), ChildDepth h fuel p →
    ∃ h1, ForceUpdateCache fuel h p = some h1 ∧ SameButFlags h h1
  | 0, _, _, hd => hd.elim
  | fuel + 1, h, p, hd => by
    have s0 : SameButFlags h (setFlag h p true) := sameButFlags_setFlag h p true
    have hd0 : ∀ c ∈ (h p).children, ChildDepth (setFlag h p true) fuel c := fun c hc =>
      childDepth_congr (fun q => (s0 q).2.2.2) fuel c (hd c hc)
    exact forEachChild_spec (ForceUpdateCache fuel) fuel h
      (fun h0 c hc => ForceUpdateCache_spec fuel h0 c hc) (h p).children (setFlag h p true) hd0 s0

/-! ## Values of the recursive reads along a chain -/

theorem CascadeTransform_chain (h : Heap) : ∀ (qs : List Ptr) (fuel : Nat) (p : Ptr) (v : Vec3),
    IsChain h p qs → qs.length < fuel →
    CascadeTransform h fuel p v
      = some (qs.foldl (fun x q => levelTransform (h q) x) (levelTransform (h p) v))
  | _, 0, _, _, _, hl => absurd hl (by omega)
  | [], fuel + 1, p, v, hc, _ => by
    simp only [IsChain] at hc
    simp [CascadeTransform, hc, transformStep_eq]
  | q :: qs, fuel + 1, p, v, hc, hl => by
    simp only [IsChain] at hc
    have hl1 : qs.length < fuel := by simpa using hl
    simp [CascadeTransform, hc.1, transformStep_eq,
      CascadeTransform_chain h qs fuel q _ hc.2 hl1]

theorem GetWorldRotation_chain (h : Heap) : ∀ (qs : List Ptr) (fuel : Nat) (p : Ptr),
    IsChain h p qs → qs.length < fuel →
    GetWorldRotation h fuel p = some (chainRotation h (p :: qs))
  | _, 0, _, _, hl => absurd hl (by omega)
  | [], fuel + 1, p, hc, _ => by
    simp only [IsChain] at hc
    simp [GetWorldRotation, hc, chainRotation, mul_unitQuat_left]
  | q :: qs, fuel + 1, p, hc, hl => by
    simp only [IsChain] at hc
    have hl1 : qs.length < fuel := by simpa using hl
    simp [GetWorldRotation, hc.1, GetWorldRotation_chain h qs fuel q hc.2 hl1, chainRotation]

theorem chainRotation_congr {h h1 : Heap} : ∀ (qs : List Ptr),
    (∀ q ∈ qs, (h1 q).rotation = (h q).rotation) → chainRotation h1 qs = chainRotation h qs
  | [], _ => rfl
  | q :: qs, hq => by
    simp only [chainRotation]
    rw [chainRotation_congr qs (fun a ha => hq a (by simp [ha])), hq q (by simp)]

theorem chainRotation_dot_ne_zero (h : Heap) : ∀ (qs : List Ptr),
    (∀ q ∈ qs, (h q).rotation.dot ≠ 0) → (chainRotation h qs).dot ≠ 0
  | [], _ => by simp [chainRotation, dot_unitQuat]
  | q :: qs, hq => by
    simp only [chainRotation, dot_mul]
    exact mul_ne_zero (chainRotation_dot_ne_zero h qs (fun a ha => hq a (by simp [ha])))
      (hq q (by simp))

/-! ## A finite ancestor chain never passes through its own start -/

theorem isChain_unique {h : Heap} : ∀ (qs rs : List Ptr) (p : Ptr),
    IsChain h p qs → IsChain h p rs → qs = rs
  | [], [], _, _, _ => rfl
  | [], r :: rs, p, a, b => by
    simp only [IsChain] at a b
    rw [a] at b
    exact absurd b.1 (by simp)
  | q :: qs, [], p, a, b => by
    simp only [IsChain] at a b
    rw [b] at a
    exact absurd a.1 (by simp)
  | q :: qs, r :: rs, p, a, b => by
    simp only [IsChain] at a b
    have e : q = r := by
      have := a.1.symm.trans b.1
      simpa using this
    subst e
    rw [isChain_unique qs rs q a.2 b.2]

theorem isChain_suffix {h : Heap} : ∀ (as : List Ptr) (q : Ptr) (bs : List Ptr) (p : Ptr),
    IsChain h p (as ++ q :: bs) → IsChain h q bs
  | [], q, bs, p, hc => by
    simp only [List.nil_append, IsChain] at hc
    exact hc.2
  | a :: as, q, bs, p, hc => by
    simp only [List.cons_append, IsChain] at hc
    exact isChain_suffix as q bs a hc.2

theorem isChain_not_mem {h : Heap} {p : Ptr} {qs : List Ptr} (hc : IsChain h p qs) :
    p ∉ qs := by
  intro hm
  obtain ⟨as, bs, e⟩ := List.append_of_mem hm
  have h1 : IsChain h p bs := isChain_suffix as p bs p (e ▸ hc)
  have h2 := isChain_unique qs bs p hc h1
  have h3 := congrArg List.length e
  rw [h2] at h3
  simp at h3
  omega

/-! ## Claims on the transform engine -/

/-- C1 (evaluation at the failing input): in the tree `0 → 1 → 2 → 3` with
identity rotations and node `1` at local position `(1, 0, 0)`, calling
`SetWorldPosition((5, 6, 7))` on node `3` and then `GetWorldPosition()` returns
`(7, 6, 7)`, not `(5, 6, 7)`. -/
theorem C1_SetWorldPosition_then_Get_is_off :
    (SetWorldPosition chainHeap 10 3 ⟨5, 6, 7⟩).bind (fun h => GetWorldPosition h 10 3)
      = some ⟨7, 6, 7⟩ := by
  decide!

/-- C2 (evaluation at the failing input): in the tree `0 → 1 → 2 → 3` with
identity rotations and node `1` at local position `(1, 0, 0)`, node `2` maps the
point `(0, 0, 0)` to the world point `(1, 0, 0)`, and `ToLocalPosition` maps that
world point to `(2, 0, 0)`, not back to `(0, 0, 0)`. -/
theorem C2_ToLocal_of_ToWorld_is_off :
    ToWorldPosition chainHeap 10 2 ⟨0, 0, 0⟩ = some ⟨1, 0, 0⟩ ∧
    (ToWorldPosition chainHeap 10 2 ⟨0, 0, 0⟩).bind (ToLocalPosition chainHeap 10 2)
      = some ⟨2, 0, 0⟩ := by
  decide!

/-- C3: for a node `p` whose ancestors are `qs` (nearest first, the last one
without parent), all with invertible local rotation, and whose subtree is
finite, the world rotation is the product of the local rotations from the root
down to `p`, and `SetWorldRotation(q)` returns; it stores `q` when `p` has no parent and
`inverse(parentWorldRotation) * q` otherwise, where the parent's world rotation
is the product of the ancestors' local rotations from the root down; and
`GetWorldRotation()` afterwards returns `q`. -/
theorem C3_SetWorldRotation_then_Get (h : Heap) (fuel : Nat) (p : Ptr) (qs : List Ptr)
    (q : Quat) (hc : IsChain h p qs) (hl : qs.length < fuel) (hd : ChildDepth h fuel p)
    (hr : ∀ a ∈ qs, (h a).rotation.dot ≠ 0) :
    GetWorldRotation h fuel p = some (chainRotation h (p :: qs)) ∧
    ∃ h1, SetWorldRotation h fuel p q = some h1 ∧
      ((h p).parent = none → (h1 p).rotation = q) ∧
      (∀ par, (h p).parent = some par →
        GetWorldRotation h fuel par = some (chainRotation h qs) ∧
        (h1 p).rotation = Quat.mul (Quat.inverse (chainRotation h qs)) q) ∧
      GetWorldRotation h1 fuel p = some q := by
  refine ⟨GetWorldRotation_chain h qs fuel p hc hl, ?_⟩
  obtain ⟨h0, e0, s0⟩ := ForceUpdateCache_spec fuel h p hd
  have hc0 : IsChain h0 p qs := isChain_congr qs p (fun a _ => (s0 a).2.2.1) hc
  cases qs with
  | nil =>
    have hp : (h p).parent = none := hc
    have hp0 : (h0 p).parent = none := hc0
    refine ⟨setRotation h0 p q, by simp [SetWorldRotation, e0, hp0], fun _ => by simp, ?_, ?_⟩
    · intro par hpar
      rw [hp] at hpar
      exact absurd hpar (by simp)
    · have hc1 : IsChain (setRotation h0 p q) p [] := by
        simp [IsChain, hp0]
      rw [GetWorldRotation_chain _ [] fuel p hc1 hl]
      simp [chainRotation, mul_unitQuat_left]
  | cons par rs =>
    have hp : (h p).parent = some par := hc.1
    have hp0 : (h0 p).parent = some par := hc0.1
    have hw : (chainRotation h (par :: rs)).dot ≠ 0 := chainRotation_dot_ne_zero h _ hr
    have hl1 : rs.length < fuel := by
      simp only [List.length_cons] at hl
      omega
    have g0 : GetWorldRotation h0 fuel par = some (chainRotation h (par :: rs)) := by
      rw [GetWorldRotation_chain h0 rs fuel par hc0.2 hl1]
      rw [chainRotation_congr (par :: rs) (fun a _ => (s0 a).2.1)]
    have g : GetWorldRotation h fuel par = some (chainRotation h (par :: rs)) :=
      GetWorldRotation_chain h rs fuel par hc.2 hl1
    have hnm : p ∉ par :: rs := isChain_not_mem hc
    refine ⟨setRotation h0 p (Quat.mul (Quat.inverse (chainRotation h (par :: rs))) q),
      by simp [SetWorldRotation, e0, hp0, g0], fun hn => ?_, ?_, ?_⟩
    · rw [hp] at hn
      exact absurd hn (by simp)
    · intro par1 hpar1
      have e : par1 = par := by
        rw [hp] at hpar1
        simpa using hpar1.symm
      subst e
      exact ⟨g, by simp⟩
    · have hc1 : IsChain (setRotation h0 p (Quat.mul (Quat.inverse (chainRotation h (par :: rs))) q))
          p (par :: rs) := by
        refine isChain_congr (par :: rs) p (fun a _ => ?_) hc0
        by_cases e : a = p
        · subst e; simp
        · simp [e]
      rw [GetWorldRotation_chain _ (par :: rs) fuel p hc1 hl]
      have hrest : chainRotation
          (setRotation h0 p (Quat.mul (Quat.inverse (chainRotation h (par :: rs))) q)) (par :: rs)
          = chainRotation h (par :: rs) := by
        refine chainRotation_congr (par :: rs) (fun a ha => ?_)
        have e : a ≠ p := fun e => hnm (e ▸ ha)
        simp [e, (s0 a).2.1]
      rw [chainRotation, hrest]
      simp [mul_inverse_cancel _ q hw]

/-- C3 at a concrete input: node `3` of the chain `0 → 1 → 2 → 3` with turned ancestors. -/
theorem C3_SetWorldRotation_then_Get_witness :
    GetWorldRotation turnedHeap 4 3 = some (chainRotation turnedHeap (3 :: [2, 1, 0])) ∧
    ∃ h1, SetWorldRotation turnedHeap 4 3 ⟨0, 1, 0, 0⟩ = some h1 ∧
      ((turnedHeap 3).parent = none → (h1 3).rotation = ⟨0, 1, 0, 0⟩) ∧
      (∀ par, (turnedHeap 3).parent = some par →
        GetWorldRotation turnedHeap 4 par = some (chainRotation turnedHeap [2, 1, 0]) ∧
        (h1 3).rotation
          = Quat.mul (Quat.inverse (chainRotation turnedHeap [2, 1, 0])) ⟨0, 1, 0, 0⟩) ∧
      GetWorldRotation h1 4 3 = some ⟨0, 1, 0, 0⟩ :=
  C3_SetWorldRotation_then_Get turnedHeap 4 3 [2, 1, 0] ⟨0, 1, 0, 0⟩ (by decide) (by decide)
    (by decide) (by decide!)

/-- C4: for a node `p` whose ancestors are `qs = [n1, ..., nk]` (nearest first,
`nk` without parent), `GetWorldPosition()` returns
`T_k(... T_2(T_1(localPosition p)) ...)` with
`T_i x = rotate(localRotation n_i, x) + localPosition n_i`; with no ancestors it
returns the local position. -/
theorem C4_GetWorldPosition_chain (h : Heap) (fuel : Nat) (p : Ptr) (qs : List Ptr)
    (hc : IsChain h p qs) (hl : qs.length < fuel) :
    GetWorldPosition h fuel p
      = some (qs.foldl (fun x n => levelTransform (h n) x) (h p).position) := by
  cases qs with
  | nil =>
    have hp : (h p).parent = none := hc
    simp [GetWorldPosition, hp]
  | cons par rs =>
    have hp : (h p).parent = some par := hc.1
    simp only [GetWorldPosition, hp, ToWorldPosition]
    rw [CascadeTransform_chain h (par :: rs) fuel p Vec3.zero hc hl]
    simp [levelTransform, rotate_zero, add_zero_left]

/-- C4 at a concrete input: node `3` of the chain `0 → 1 → 2 → 3` with turned ancestors. -/
theorem C4_GetWorldPosition_chain_witness :
    GetWorldPosition turnedHeap 4 3
      = some ([2, 1, 0].foldl (fun x n => levelTransform (turnedHeap n) x)
          (turnedHeap 3).position) :=
  C4_GetWorldPosition_chain turnedHeap 4 3 [2, 1, 0] (by decide) (by decide)

/-! ## Termination and frame of the world-value setters -/

theorem sameStructure_refl (h : Heap) : SameStructure h h := fun _ => ⟨rfl, rfl⟩

theorem sameStructure_trans {h h1 h2 : Heap} (a : SameStructure h h1) (b : SameStructure h1 h2) :
    SameStructure h h2 := fun q =>
  ⟨(b q).1.trans (a q).1, (b q).2.trans (a q).2⟩

theorem sameButFlags_toStructure {h h1 : Heap} (a : SameButFlags h h1) : SameStructure h h1 :=
  fun q => ⟨(a q).2.2.1, (a q).2.2.2⟩

theorem sameStructure_setPosition (h : Heap) (p : Ptr) (v : Vec3) :
    SameStructure h (setPosition h p v) := by
  intro q
  by_cases e : q = p
  · subst e; simp
  · simp [e]

theorem sameStructure_setRotation (h : Heap) (p : Ptr) (v : Quat) :
    SameStructure h (setRotation h p v) := by
  intro q
  by_cases e : q = p
  · subst e; simp
  · simp [e]

theorem sameStructure_isChain {h h1 : Heap} (a : SameStructure h h1) {p : Ptr} {qs : List Ptr}
    (hc : IsChain h p qs) : IsChain h1 p qs :=
  isChain_congr qs p (fun q _ => (a q).1) hc

theorem sameStructure_childDepth {h h1 : Heap} (a : SameStructure h h1) {d : Nat} {p : Ptr}
    (hd : ChildDepth h d p) : ChildDepth h1 d p :=
  childDepth_congr (fun q => (a q).2) d p hd

theorem CascadeTransformInverse_total (h : Heap) (qs : List Ptr) (fuel : Nat) (p : Ptr)
    (v : Vec3) (hc : IsChain h p qs) (hl : qs.length < fuel) :
    ∃ r, CascadeTransformInverse h fuel p v = some r := by
  cases fuel with
  | zero => exact absurd hl (by omega)
  | succ f =>
    cases qs with
    | nil =>
      have hp : (h p).parent = none := hc
      simp [CascadeTransformInverse, hp]
    | cons q rs =>
      have hp : (h p).parent = some q := hc.1
      have hl1 : rs.length < f := by
        simp only [List.length_cons] at hl
        omega
      simp [CascadeTransformInverse, hp, CascadeTransform_chain h rs f q _ hc.2 hl1]

theorem SetWorldPosition_spec (h : Heap) (fuel : Nat) (p : Ptr) (qs : List Ptr) (v : Vec3)
    (hc : IsChain h p qs) (hl : qs.length < fuel) (hd : ChildDepth h fuel p) :
    ∃ h1, SetWorldPosition h fuel p v = some h1 ∧ SameStructure h h1 := by
  obtain ⟨h0, e0, s0⟩ := ForceUpdateCache_spec fuel h p hd
  have hc0 : IsChain h0 p qs := sameStructure_isChain (sameButFlags_toStructure s0) hc
  cases qs with
  | nil =>
    have hp0 : (h0 p).parent = none := hc0
    exact ⟨setPosition h0 p v, by simp [SetWorldPosition, e0, hp0],
      sameStructure_trans (sameButFlags_toStructure s0) (sameStructure_setPosition h0 p v)⟩
  | cons q rs =>
    have hp0 : (h0 p).parent = some q := hc0.1
    have hl1 : rs.length < fuel := by
      simp only [List.length_cons] at hl
      omega
    obtain ⟨r, er⟩ := CascadeTransformInverse_total h0 rs fuel q v hc0.2 hl1
    exact ⟨setPosition h0 p r, by simp [SetWorldPosition, e0, hp0, ToLocalPosition, er],
      sameStructure_trans (sameButFlags_toStructure s0) (sameStructure_setPosition h0 p r)⟩

theorem SetWorldRotation_spec (h : Heap) (fuel : Nat) (p : Ptr) (qs : List Ptr) (v : Quat)
    (hc : IsChain h p qs) (hl : qs.length < fuel) (hd : ChildDepth h fuel p) :
    ∃ h1, SetWorldRotation h fuel p v = some h1 ∧ SameStructure h h1 := by
  obtain ⟨h0, e0, s0⟩ := ForceUpdateCache_spec fuel h p hd
  have hc0 : IsChain h0 p qs := sameStructure_isChain (sameButFlags_toStructure s0) hc
  cases qs with
  | nil =>
    have hp0 : (h0 p).parent = none := hc0
    exact ⟨setRotation h0 p v, by simp [SetWorldRotation, e0, hp0],
      sameStructure_trans (sameButFlags_toStructure s0) (sameStructure_setRotation h0 p v)⟩
  | cons q rs =>
    have hp0 : (h0 p).parent = some q := hc0.1
    have hl1 : rs.length < fuel := by
      simp only [List.length_cons] at hl
      omega
    have er := GetWorldRotation_chain h0 rs fuel q hc0.2 hl1
    exact ⟨setRotation h0 p (Quat.mul (Quat.inverse (chainRotation h0 (q :: rs))) v),
      by simp [SetWorldRotation, e0, hp0, er],
      sameStructure_trans (sameButFlags_toStructure s0) (sameStructure_setRotation h0 p _)⟩

theorem GetWorldPosition_total (h : Heap) (fuel : Nat) (p : Ptr) (qs : List Ptr)
    (hc : IsChain h p qs) (hl : qs.length < fuel) : ∃ r, GetWorldPosition h fuel p = some r := by
  cases hp : (h p).parent with
  | none => simp [GetWorldPosition, hp]
  | some q =>
    simp [GetWorldPosition, hp, ToWorldPosition, CascadeTransform_chain h qs fuel p _ hc hl]

/-- The block that keeps world values returns when the node has a finite
ancestor chain before and after the assignment of `parent`, and a finite
subtree; it changes no parent link other than the assigned one and no children
sequence. -/
theorem reassignAdapting_spec (h : Heap) (fuel : Nat) (this : Ptr) (newParent : Option Ptr)
    (qs rs : List Ptr) (hc : IsChain h this qs) (hl : qs.length < fuel)
    (hc1 : IsChain (setParentField h this newParent) this rs) (hl1 : rs.length < fuel)
    (hd : ChildDepth h fuel this) :
    ∃ h2, reassignAdapting h fuel this newParent = some h2 ∧
      SameStructure (setParentField h this newParent) h2 := by
  obtain ⟨v, ev⟩ := GetWorldPosition_total h fuel this qs hc hl
  have er := GetWorldRotation_chain h qs fuel this hc hl
  have hd1 : ChildDepth (setParentField h this newParent) fuel this := by
    refine childDepth_congr (fun q => ?_) fuel this hd
    by_cases e : q = this
    · subst e; simp
    · simp [e]
  obtain ⟨h1, e1, s1⟩ := SetWorldPosition_spec _ fuel this rs v hc1 hl1 hd1
  obtain ⟨h2, e2, s2⟩ := SetWorldRotation_spec h1 fuel this rs (chainRotation h (this :: qs))
    (sameStructure_isChain s1 hc1) hl1 (sameStructure_childDepth s1 hd1)
  exact ⟨h2, by simp [reassignAdapting, ev, er, e1, e2], sameStructure_trans s1 s2⟩

/-! ## Vectors of pointers: lemmas -/

theorem findFrom_eq (item : Ptr) : ∀ (l : List Ptr) (s i : Nat) (hs : s < l.length),
    l[s] = item → item ∉ l.take s → findFrom item l i = ((i + s : Nat) : Int)
  | [], _, _, hs, _, _ => absurd hs (by simp)
  | x :: xs, 0, i, _, hx, _ => by
    have : x = item := by simpa using hx
    simp [findFrom, this]
  | x :: xs, s + 1, i, hs, hx, hn => by
    have hne : x ≠ item := by
      intro e
      exact hn (by simp [e])
    have hs1 : s < xs.length := by simpa using hs
    have hx1 : xs[s] = item := by simpa using hx
    have hn1 : item ∉ xs.take s := by
      intro hm
      exact hn (by simp [hm])
    rw [findFrom, if_neg hne, findFrom_eq item xs s (i + 1) hs1 hx1 hn1]
    congr 1
    omega

theorem find_eq (l : List Ptr) (item : Ptr) (s : Nat) (hs : s < l.length) (hx : l[s] = item)
    (hn : item ∉ l.take s) : find l item = (s : Int) := by
  rw [find, findFrom_eq item l s 0 hs hx hn]
  simp

theorem findFrom_not_mem (item : Ptr) : ∀ (l : List Ptr) (i : Nat), item ∉ l →
    findFrom item l i = -1
  | [], _, _ => rfl
  | x :: xs, i, hn => by
    have hne : x ≠ item := by
      intro e
      exact hn (by simp [e])
    rw [findFrom, if_neg hne, findFrom_not_mem item xs (i + 1) (fun hm => hn (by simp [hm]))]

theorem vecErase_nat (l : List Ptr) (i : Nat) (hi : i < l.length) :
    vecErase l (i : Int) = some (l.eraseIdx i) := by
  have : (0 : Int) ≤ (i : Int) ∧ (i : Int) < (l.length : Int) := ⟨by omega, by omega⟩
  simp [vecErase, this]

theorem vecInsert_nat (l : List Ptr) (i : Nat) (x : Ptr) (hi : i ≤ l.length) :
    vecInsert l (i : Int) x = some (insertAt l i x) := by
  have : (0 : Int) ≤ (i : Int) ∧ (i : Int) ≤ (l.length : Int) := ⟨by omega, by omega⟩
  simp [vecInsert, this, insertAt]

theorem eraseIdx_insertAt (x : Ptr) : ∀ (l : List Ptr) (s t : Nat) (hs : s < l.length),
    l[s] = x → s ≤ t →
    (insertAt l t x).eraseIdx s = insertAt (l.eraseIdx s) (if t ≤ s then t else t - 1) x
  | [], _, _, hs, _, _ => absurd hs (by simp)
  | a :: l, 0, 0, _, hx, _ => by
    have : a = x := by simpa using hx
    simp [insertAt, this]
  | a :: l, 0, t + 1, _, hx, _ => by
    simp [insertAt]
  | a :: l, s + 1, 0, _, _, hle => absurd hle (by omega)
  | a :: l, s + 1, t + 1, hs, hx, hle => by
    have hs1 : s < l.length := by simpa using hs
    have hx1 : l[s] = x := by simpa using hx
    have ih := eraseIdx_insertAt x l s t hs1 hx1 (by omega)
    simp only [insertAt] at ih ⊢
    by_cases c : t ≤ s
    · have c1 : t + 1 ≤ s + 1 := by omega
      simp only [c, c1, if_true] at ih ⊢
      simp only [List.take_succ_cons, List.drop_succ_cons, List.cons_append, List.eraseIdx_cons_succ]
      rw [ih]
    · have c1 : ¬ t + 1 ≤ s + 1 := by omega
      simp only [c, c1, if_false] at ih ⊢
      obtain ⟨u, rfl⟩ : ∃ u, t = u + 1 := ⟨t - 1, by omega⟩
      simp only [Nat.add_sub_cancel] at ih ⊢
      simp only [List.take_succ_cons, List.drop_succ_cons, List.cons_append, List.eraseIdx_cons_succ]
      rw [ih]

theorem setChildren_setChildren (h : Heap) (p : Ptr) (l l1 : List Ptr) :
    setChildren (setChildren h p l) p l1 = setChildren h p l1 := by
  funext a
  by_cases e : a = p
  · subst e; simp
  · simp [e]

theorem bottomBit_cases (pos : InsertPosition) :
    (InsertPosition.Bottom.toNat &&& pos.toNat ≠ 0) ↔
      (pos = InsertPosition.Bottom ∨ pos = InsertPosition.Any) := by
  cases pos <;> decide

/-! ## Moves inside one children sequence -/

/-- The tail of the positioned `SetParent` when source and destination are the
same vector: the node at index `s` is taken out and put back at `moveIndex`. -/
theorem placeChild_same (h : Heap) (X P : Ptr) (s t : Nat) (pos : InsertPosition)
    (hs : s < (h P).children.length) (hX : (h P).children[s] = X)
    (hn : X ∉ (h P).children.take s) (ht : t < (h P).children.length) :
    placeChild h X P P (t : Int) pos
      = some (setChildren h P (insertAt ((h P).children.eraseIdx s) (moveIndex s t pos) X)) := by
  have hf : find (h P).children X = (s : Int) := find_eq _ X s hs hX hn
  have hlen : (h P).children.length ≠ 0 := by omega
  unfold placeChild
  simp only [hf, hlen, if_false, true_and]
  by_cases hb : InsertPosition.Bottom.toNat &&& pos.toNat ≠ 0
  · simp only [if_pos hb, moveIndex]
    have e1 : ((t : Int) + 1) = ((t + 1 : Nat) : Int) := by push_cast; rfl
    rw [e1]
    by_cases c : t + 1 < s
    · have c1 : ((t + 1 : Nat) : Int) < (s : Int) := by exact_mod_cast c
      have c2 : t + 1 ≤ s := by omega
      simp only [c1, c2, if_true]
      rw [vecErase_nat _ s hs]
      simp only [setChildren_apply, if_true]
      rw [vecInsert_nat _ (t + 1) X (by rw [List.length_eraseIdx]; simp only [hs, if_true]; omega)]
      simp only [setChildren_setChildren]
    · have c1 : ¬ ((t + 1 : Nat) : Int) < (s : Int) := by
        intro hc
        exact c (by exact_mod_cast hc)
      simp only [c1, if_false]
      rw [vecInsert_nat _ (t + 1) X (by omega)]
      simp only [setChildren_apply, if_true]
      have hs1 : s < (insertAt (h P).children (t + 1) X).length := by
        simp [insertAt]
        omega
      rw [vecErase_nat _ s hs1, eraseIdx_insertAt X _ s (t + 1) hs hX (by omega)]
      simp only [setChildren_setChildren]
  · simp only [if_neg hb, moveIndex]
    by_cases c : t < s
    · have c1 : (t : Int) < (s : Int) := by exact_mod_cast c
      have c2 : t ≤ s := by omega
      simp only [c1, c2, if_true]
      rw [vecErase_nat _ s hs]
      simp only [setChildren_apply, if_true]
      rw [vecInsert_nat _ t X (by rw [List.length_eraseIdx]; simp only [hs, if_true]; omega)]
      simp only [setChildren_setChildren]
    · have c1 : ¬ (t : Int) < (s : Int) := by
        intro hc
        exact c (by exact_mod_cast hc)
      simp only [c1, if_false]
      rw [vecInsert_nat _ t X (by omega)]
      simp only [setChildren_apply, if_true]
      have hs1 : s < (insertAt (h P).children t X).length := by
        simp [insertAt]
        omega
      rw [vecErase_nat _ s hs1, eraseIdx_insertAt X _ s t hs hX (by omega)]
      simp only [setChildren_setChildren]

/-- The positioned `SetParent` with the node's own parent as new parent returns,
for a node with a finite ancestor chain and a finite subtree, under either
coordinate policy; the parent's children become the old sequence with the node
taken out and put back at `moveIndex`, and no other children sequence changes. -/
theorem SetParentAt_same (adapt : Bool) (fuel : Nat) (h : Heap) (X P : Ptr) (qs : List Ptr)
    (s t : Nat) (pos : InsertPosition) (hp : (h X).parent = some P)
    (hc : IsChain h X qs) (hl : qs.length < fuel) (hd : ChildDepth h fuel X)
    (hs : s < (h P).children.length) (hX : (h P).children[s] = X)
    (hn : X ∉ (h P).children.take s) (ht : t < (h P).children.length) :
    ∃ h1, SetParentAt adapt fuel h X (some P) (t : Int) pos = some h1 ∧
      (h1 P).children = insertAt ((h P).children.eraseIdx s) (moveIndex s t pos) X ∧
      (∀ a, a ≠ P → (h1 a).children = (h a).children) ∧
      (∀ a, (h1 a).parent = (h a).parent) := by
  obtain ⟨h0, e0, s0⟩ := ForceUpdateCache_spec fuel h X hd
  have hp0 : (h0 X).parent = some P := by rw [(s0 X).2.2.1, hp]
  have same : setParentField h0 X (some P) = h0 := by
    funext a
    by_cases e : a = X
    · subst e
      simp [← hp0]
    · simp [e]
  have hc0 : IsChain h0 X qs := sameStructure_isChain (sameButFlags_toStructure s0) hc
  have hd0 : ChildDepth h0 fuel X := sameStructure_childDepth (sameButFlags_toStructure s0) hd
  have key : ∃ h2, (if adapt then reassignAdapting h0 fuel X (some P)
      else some (setParentField h0 X (some P))) = some h2 ∧ SameStructure h h2 := by
    cases adapt with
    | false => exact ⟨h0, by simp [same], sameButFlags_toStructure s0⟩
    | true =>
      obtain ⟨h2, e2, s2⟩ := reassignAdapting_spec h0 fuel X (some P) qs qs hc0 hl
        (by rw [same]; exact hc0) hl hd0
      rw [same] at s2
      exact ⟨h2, by simp [e2], sameStructure_trans (sameButFlags_toStructure s0) s2⟩
  obtain ⟨h2, e2, s2⟩ := key
  have hch : (h2 P).children = (h P).children := (s2 P).2
  have hs2 : s < (h2 P).children.length := by rw [hch]; exact hs
  have hX2 : (h2 P).children[s] = X := by simp only [hch]; exact hX
  have hn2 : X ∉ (h2 P).children.take s := by rw [hch]; exact hn
  have ht2 : t < (h2 P).children.length := by rw [hch]; exact ht
  have hplace := placeChild_same h2 X P s t pos hs2 hX2 hn2 ht2
  refine ⟨setChildren h2 P (insertAt ((h2 P).children.eraseIdx s) (moveIndex s t pos) X),
    by simp only [SetParentAt, e0, hp0, e2, hplace], ?_, ?_, ?_⟩
  · simp [hch]
  · intro a ha
    simp [ha, (s2 a).2]
  · intro a
    by_cases e : a = P
    · subst e; simp [(s2 a).1]
    · simp [e, (s2 a).1]

/-- The sequence `l` without index `s`, split around the element that was at
index `t ≠ s` of `l`, and the two ways to put `x` next to that element. -/
theorem insertAt_around (l : List Ptr) (x : Ptr) (s t : Nat) (ht : t < l.length)
    (hne : t ≠ s) :
    ∃ pre post, l.eraseIdx s = pre ++ l[t] :: post ∧
      insertAt (l.eraseIdx s) (moveIndex s t InsertPosition.Top) x = pre ++ x :: l[t] :: post ∧
      insertAt (l.eraseIdx s) (moveIndex s t InsertPosition.Bottom) x
        = pre ++ l[t] :: x :: post := by
  by_cases c : t < s
  · have hj : t < (l.eraseIdx s).length := by
      rw [List.length_eraseIdx]
      split <;> omega
    have hg : (l.eraseIdx s)[t] = l[t] := List.getElem_eraseIdx_of_lt l s t hj c
    have hsplit : l.eraseIdx s = (l.eraseIdx s).take t ++ l[t] :: (l.eraseIdx s).drop (t + 1) := by
      conv_lhs => rw [← List.take_append_drop t (l.eraseIdx s), List.drop_eq_getElem_cons hj, hg]
    have m1 : moveIndex s t InsertPosition.Top = t := by
      have : t ≤ s := by omega
      simp [moveIndex, InsertPosition.toNat, this]
    have m2 : moveIndex s t InsertPosition.Bottom = t + 1 := by
      have : t + 1 ≤ s := by omega
      simp [moveIndex, InsertPosition.toNat, this]
    refine ⟨(l.eraseIdx s).take t, (l.eraseIdx s).drop (t + 1), hsplit, ?_, ?_⟩
    · rw [m1, insertAt, List.drop_eq_getElem_cons hj, hg]
    · rw [m2, insertAt, List.take_succ, List.getElem?_eq_getElem hj, hg]
      simp
  · have c1 : s < t := by omega
    obtain ⟨u, rfl⟩ : ∃ u, t = u + 1 := ⟨t - 1, by omega⟩
    have hj : u < (l.eraseIdx s).length := by
      rw [List.length_eraseIdx]
      split <;> omega
    have hg : (l.eraseIdx s)[u] = l[u + 1] :=
      List.getElem_eraseIdx_of_ge l s u hj (by omega)
    have hsplit : l.eraseIdx s
        = (l.eraseIdx s).take u ++ l[u + 1] :: (l.eraseIdx s).drop (u + 1) := by
      conv_lhs => rw [← List.take_append_drop u (l.eraseIdx s), List.drop_eq_getElem_cons hj, hg]
    have m1 : moveIndex s (u + 1) InsertPosition.Top = u := by
      have : ¬ u + 1 ≤ s := by omega
      simp [moveIndex, InsertPosition.toNat, this]
    have m2 : moveIndex s (u + 1) InsertPosition.Bottom = u + 1 := by
      have : ¬ u + 1 + 1 ≤ s := by omega
      simp [moveIndex, InsertPosition.toNat, this]
    refine ⟨(l.eraseIdx s).take u, (l.eraseIdx s).drop (u + 1), hsplit, ?_, ?_⟩
    · rw [m1, insertAt, List.drop_eq_getElem_cons hj, hg]
    · rw [m2, insertAt, List.take_succ, List.getElem?_eq_getElem hj, hg]
      simp

theorem not_mem_take_of_nodup (l : List Ptr) (s : Nat) (hs : s < l.length) (hnd : l.Nodup) :
    l[s] ∉ l.take s := by
  intro hm
  obtain ⟨i, hi, e⟩ := List.getElem_of_mem hm
  have hi1 : i < s := by
    have := hi
    simp only [List.length_take] at this
    omega
  rw [List.getElem_take] at e
  have := (List.Nodup.getElem_inj_iff hnd).mp e
  omega

theorem insertAt_perm (l : List Ptr) (s k : Nat) (hs : s < l.length) :
    (insertAt (l.eraseIdx s) k l[s]).Perm l := by
  have h1 : (insertAt (l.eraseIdx s) k l[s]).Perm (l[s] :: l.eraseIdx s) := by
    unfold insertAt
    refine List.perm_middle.trans ?_
    rw [List.take_append_drop]
  refine h1.trans ?_
  have h2 : l = l.take s ++ l[s] :: l.drop (s + 1) := by
    conv_lhs => rw [← List.take_append_drop s l, List.drop_eq_getElem_cons hs]
  rw [List.eraseIdx_eq_take_drop_succ]
  conv_rhs => rw [h2]
  exact List.perm_middle.symm

theorem IsMovedToItself_single (h : Heap) (X : Ptr) : ∀ (qs : List Ptr) (fuel : Nat) (T : Ptr),
    IsChain h T qs → qs.length < fuel → (X = T ∨ X ∈ qs) →
    IsMovedToItself h fuel T [X] = some true
  | _, 0, _, _, hl, _ => absurd hl (by omega)
  | [], fuel + 1, T, _, _, hx => by
    have e : X = T := by simpa using hx
    simp [IsMovedToItself, movedLoop, e]
  | par :: rs, fuel + 1, T, hc, hl, hx => by
    have hp : (h T).parent = some par := hc.1
    have hl1 : rs.length < fuel := by simpa using hl
    by_cases e : X = T
    · simp [IsMovedToItself, movedLoop, e]
    · by_cases e1 : par = X
      · simp [IsMovedToItself, movedLoop, e, hp, e1]
      · have hx1 : X = par ∨ X ∈ rs := by
          rcases hx with hx | hx
          · exact absurd hx e
          · rcases List.mem_cons.mp hx with hx | hx
            · exact Or.inl hx
            · exact Or.inr hx
        have ih := IsMovedToItself_single h X rs fuel par hc.2 hl1 hx1
        simp [IsMovedToItself, movedLoop, e, hp, e1, ih]

theorem scanChildren_not_mem (s : Scene) (source obj : Ptr) : ∀ (cs : List Ptr) (i : Nat),
    obj ∉ cs → scanChildren s source obj cs i = some (false, s)
  | [], _, _ => rfl
  | c :: cs, i, hn => by
    have hne : c ≠ obj := by
      intro e
      exact hn (by simp [e])
    rw [scanChildren, if_neg hne,
      scanChildren_not_mem s source obj cs (i + 1) (fun hm => hn (by simp [hm]))]

/-! ## Claims on the structural operations -/

/-- C5: a move inside one children sequence. For a sequence `L` without
duplicates, the node `X` at index `s` and a target index `t ≠ s`, the positioned
`SetParent` onto the same parent returns (under either coordinate policy, for a
finite tree) and leaves `L` with `X` taken out and put back directly before the
element that was at index `t` when the rule is `Top`, directly after it when the
rule is `Bottom`; the other elements keep their order (`pre` and `post` are the
parts of `L` without `X` around that element) and the result is a permutation
of `L`. -/
theorem C5_move_within_children (adapt : Bool) (fuel : Nat) (h : Heap) (X P : Ptr)
    (qs L : List Ptr) (s t : Nat) (pos : InsertPosition)
    (hp : (h X).parent = some P) (hc : IsChain h X qs) (hl : qs.length < fuel)
    (hd : ChildDepth h fuel X) (hL : (h P).children = L) (hnd : L.Nodup)
    (hs : s < L.length) (hX : L[s] = X) (ht : t < L.length) (hts : t ≠ s)
    (hpos : pos = InsertPosition.Top ∨ pos = InsertPosition.Bottom) :
    ∃ h1 pre post, SetParentAt adapt fuel h X (some P) (t : Int) pos = some h1 ∧
      L.eraseIdx s = pre ++ L[t] :: post ∧
      (h1 P).children
        = (if pos = InsertPosition.Top then pre ++ X :: L[t] :: post
           else pre ++ L[t] :: X :: post) ∧
      (h1 P).children.Perm L := by
  subst hL
  have hn : X ∉ (h P).children.take s := by
    rw [← hX]
    exact not_mem_take_of_nodup _ s hs hnd
  obtain ⟨h1, e1, c1, _, _⟩ :=
    SetParentAt_same adapt fuel h X P qs s t pos hp hc hl hd hs hX hn ht
  obtain ⟨pre, post, hsplit, htop, hbot⟩ := insertAt_around (h P).children X s t ht hts
  refine ⟨h1, pre, post, e1, hsplit, ?_, ?_⟩
  · rcases hpos with e | e
    · subst e
      rw [c1, htop]
      simp
    · subst e
      rw [c1, hbot]
      simp
  · rw [c1, ← hX]
    exact insertAt_perm _ s _ hs

/-- C5 at the concrete input of the claim: siblings `[A, B, C, D] = [1, 2, 3, 4]`,
moving `A` (index `0`) with rule `Bottom` onto `C` (index `2`), under the
`Adapt` policy. -/
theorem C5_move_within_children_witness :
    ∃ h1 pre post, SetParentAt true 5 siblingHeap 1 (some 0) ((2 : Nat) : Int)
        InsertPosition.Bottom = some h1 ∧
      [1, 2, 3, 4].eraseIdx 0 = pre ++ [1, 2, 3, 4][2] :: post ∧
      (h1 0).children
        = (if InsertPosition.Bottom = InsertPosition.Top then pre ++ 1 :: [1, 2, 3, 4][2] :: post
           else pre ++ [1, 2, 3, 4][2] :: 1 :: post) ∧
      (h1 0).children.Perm [1, 2, 3, 4] :=
  C5_move_within_children true 5 siblingHeap 1 0 [0] [1, 2, 3, 4] 0 2 InsertPosition.Bottom
    rfl (by decide) (by decide) (by decide) rfl (by decide) (by decide) rfl (by decide)
    (by decide) (Or.inr rfl)

/-- C6 (the claim fails): with the children `[A, B, C, D] = [1, 2, 3, 4]`, moving
`D` with rule `Top` onto `B` (index `1`) does not give `[D, A, B, C]`, under
either coordinate policy. -/
theorem C6_move_D_top_of_B_not_first :
    (SetParentAt false 5 siblingHeap 4 (some 0) 1 InsertPosition.Top).map
        (fun h => (h 0).children) ≠ some [4, 1, 2, 3] ∧
    (SetParentAt true 5 siblingHeap 4 (some 0) 1 InsertPosition.Top).map
        (fun h => (h 0).children) ≠ some [4, 1, 2, 3] := by
  decide!

/-- C6 (amended): for a parent whose children are `[A, B, C, D]` with `D` not
among `A, B, C`, moving `D` with rule `Top` onto `B` (target index `1`) returns,
under either coordinate policy and for a finite tree, and gives the children
`[A, D, B, C]`: `D` directly before `B`. -/
theorem C6_move_D_top_of_B (adapt : Bool) (fuel : Nat) (h : Heap) (P A B C D : Ptr)
    (qs : List Ptr) (hp : (h D).parent = some P) (hc : IsChain h D qs)
    (hl : qs.length < fuel) (hd : ChildDepth h fuel D)
    (hL : (h P).children = [A, B, C, D]) (hD : D ∉ [A, B, C]) :
    ∃ h1, SetParentAt adapt fuel h D (some P) 1 InsertPosition.Top = some h1 ∧
      (h1 P).children = [A, D, B, C] := by
  have hs : 3 < (h P).children.length := by simp [hL]
  have hX : (h P).children[3] = D := by simp [hL]
  have hn : D ∉ (h P).children.take 3 := by simpa [hL] using hD
  have ht : 1 < (h P).children.length := by simp [hL]
  obtain ⟨h1, e1, c1, _, _⟩ :=
    SetParentAt_same adapt fuel h D P qs 3 1 InsertPosition.Top hp hc hl hd hs hX hn ht
  refine ⟨h1, e1, ?_⟩
  rw [c1, hL]
  simp [insertAt, moveIndex, InsertPosition.toNat]

/-- C6 (amended) at the concrete input: siblings `[1, 2, 3, 4]`, moving `4`. -/
theorem C6_move_D_top_of_B_witness :
    ∃ h1, SetParentAt true 5 siblingHeap 4 (some 0) 1 InsertPosition.Top = some h1 ∧
      (h1 0).children = [1, 4, 2, 3] :=
  C6_move_D_top_of_B true 5 siblingHeap 0 1 2 3 4 [0] rfl (by decide) (by decide) (by decide)
    rfl (by decide)

/-- C7 (the claim fails): `Scene::MoveTo` with the move set `{X}` and the
destination `X` itself (node `1` of the siblings), or a child of `X` (node `2`
of the chain `0 → 1 → 2 → 3` for `X = 1`), returns `true` and rewires the tree:
`X` becomes its own parent, respectively the child of its own child. -/
theorem C7_MoveTo_accepts_cycle :
    (Scene.MoveTo false 5 siblingHeap (some 1) 0 [1] InsertPosition.Center).map
        (fun r => (r.1, (r.2 1).parent, (r.2 0).children, (r.2 1).children))
      = some (true, some 1, [2, 3, 4], [1]) ∧
    (Scene.MoveTo false 5 chainHeap (some 2) 0 [1] InsertPosition.Center).map
        (fun r => (r.1, (r.2 1).parent, (r.2 0).children, (r.2 2).children))
      = some (true, some 2, [], [1, 3]) := by
  decide

/-- C7 (amended): the rejection is made by the drag-and-drop handler. For a
destination `T` with the finite ancestor chain `qs` and a node `X` that is `T`
itself or one of its ancestors (so `T` is `X` or a descendant of `X`),
`IsMovedToItself(T, {X})` returns `true`, and `TryDragDropTarget` clears the
buffer and schedules no move: `Scene::MoveTo` is not called and the heap, which
the handler does not write, keeps every parent link and children sequence. -/
theorem C7_drag_drop_rejects_cycle (h : Heap) (fuel : Nat) (X T : Ptr) (qs : List Ptr)
    (pos : Int) (relativePosition : InsertPosition) (hc : IsChain h T qs)
    (hl : qs.length < fuel) (hx : X = T ∨ X ∈ qs) :
    IsMovedToItself h fuel T [X] = some true ∧
    TryDragDropTarget h fuel T pos relativePosition [X] = some ([], none) := by
  have e := IsMovedToItself_single h X qs fuel T hc hl hx
  exact ⟨e, by simp [TryDragDropTarget, e]⟩

/-- C7 (amended) at a concrete input: dropping node `1` onto its grandchild `3`
in the chain `0 → 1 → 2 → 3`. -/
theorem C7_drag_drop_rejects_cycle_witness :
    IsMovedToItself chainHeap 4 3 [1] = some true ∧
    TryDragDropTarget chainHeap 4 3 0 InsertPosition.Any [1] = some ([], none) :=
  C7_drag_drop_rejects_cycle chainHeap 4 1 3 [2, 1, 0] 0 InsertPosition.Any (by decide)
    (by decide) (by decide)

/-- C8: with more than one node in the move set, `Scene::MoveTo` returns `false`
and the heap it returns is the heap it was given: no field of any object
changes, for every destination, index, rule and coordinate policy. -/
theorem C8_MoveTo_rejects_several (adapt : Bool) (fuel : Nat) (h : Heap)
    (destination : Option Ptr) (destinationPos : Int) (items : List Ptr)
    (pos : InsertPosition) (hn : 1 < items.length) :
    Scene.MoveTo adapt fuel h destination destinationPos items pos = some (false, h) := by
  simp [Scene.MoveTo, hn]

/-- C8 at a concrete input: the move set `{1, 2}` among the siblings. -/
theorem C8_MoveTo_rejects_several_witness :
    Scene.MoveTo true 0 siblingHeap (some 3) 0 [1, 2] InsertPosition.Top
      = some (false, siblingHeap) :=
  C8_MoveTo_rejects_several true 0 siblingHeap (some 3) 0 [1, 2] InsertPosition.Top (by decide)

/-- C9 (evaluation at the failing input): in the scene with `root.children =
[cross, X] = [1, 2]` and `objects = [X] = [2]`, `Delete(root, X)` returns `false`
and erases nothing, although `X` occurs in both sequences: `X` sits at index `1`
of the children, which is not below `objects.size() = 1`, so the inner loop is
never entered. -/
theorem C9_Delete_misses_object :
    (Scene.Delete crossScene 0 2).map
        (fun r => (r.1, (r.2.heap 0).children, r.2.objects, r.2.released))
      = some (false, [1, 2], [2], []) := by
  decide

/-- C10: when `obj` does not occur in `source->children`, `Scene::Delete` returns
`false` and the scene is unchanged: no children sequence, not `objects`, and no
object is released. -/
theorem C10_Delete_absent (s : Scene) (source obj : Ptr)
    (hn : obj ∉ (s.heap source).children) :
    Scene.Delete s source obj = some (false, s) :=
  scanChildren_not_mem s source obj _ 0 hn

/-- C10 at a concrete input: node `7` is not a child of the root `0`. -/
theorem C10_Delete_absent_witness :
    Scene.Delete siblingScene 0 7 = some (false, siblingScene) :=
  C10_Delete_absent siblingScene 0 7 (by decide)

/-! ## Flags set by `ForceUpdateCache` -/

theorem reachesWithin_congr {h h1 : Heap} (hc : ∀ a, (h1 a).children = (h a).children) :
    ∀ (d : Nat) (p q : Ptr), ReachesWithin h d p q → ReachesWithin h1 d p q
  | 0, _, _, hr => hr
  | d + 1, p, q, hr => by
    rcases hr with e | ⟨c, hc1, hr1⟩
    · exact Or.inl e
    · exact Or.inr ⟨c, by rw [hc p]; exact hc1, reachesWithin_congr hc d c q hr1⟩

theorem forEachChild_flags (f : Heap → Ptr → Option Heap) (d : Nat)
    (hf : ∀ (h0 : Heap) (c : Ptr), ChildDepth h0 d c →
      ∃ h1, f h0 c = some h1 ∧ SameButFlags h0 h1 ∧
        (∀ q, (h0 q).shouldUpdateCache = true → (h1 q).shouldUpdateCache = true) ∧
        (∀ e q, ReachesWithin h0 e c q → (h1 q).shouldUpdateCache = true)) :
    ∀ (cs : List Ptr) (h0 : Heap), (∀ c ∈ cs, ChildDepth h0 d c) →
      ∃ h1, forEachChild f cs h0 = some h1 ∧ SameButFlags h0 h1 ∧
        (∀ q, (h0 q).shouldUpdateCache = true → (h1 q).shouldUpdateCache = true) ∧
        (∀ c ∈ cs, ∀ e q, ReachesWithin h0 e c q → (h1 q).shouldUpdateCache = true)
  | [], h0, _ => ⟨h0, rfl, sameButFlags_refl h0, fun _ hq => hq, fun c hc => absurd hc (by simp)⟩
  | c :: cs, h0, hd => by
    obtain ⟨h1, e1, s1, m1, r1⟩ := hf h0 c (hd c (by simp))
    have hd1 : ∀ c1 ∈ cs, ChildDepth h1 d c1 := fun c1 hc1 =>
      childDepth_congr (fun q => (s1 q).2.2.2) d c1 (hd c1 (by simp [hc1]))
    obtain ⟨h2, e2, s2, m2, r2⟩ := forEachChild_flags f d hf cs h1 hd1
    refine ⟨h2, by simp [forEachChild, e1, e2], sameButFlags_trans s1 s2,
      fun q hq => m2 q (m1 q hq), ?_⟩
    intro c1 hc1 e q hr
    rcases List.mem_cons.mp hc1 with rfl | hin
    · exact m2 q (r1 e q hr)
    · exact r2 c1 hin e q (reachesWithin_congr (fun a => (s1 a).2.2.2) e c1 q hr)

theorem ForceUpdateCache_flags : ∀ (fuel : Nat) (h : Heap) (p : Ptr), ChildDepth h fuel p →
    ∃ h1, ForceUpdateCache fuel h p = some h1 ∧ SameButFlags h h1 ∧
      (∀ q, (h q).shouldUpdateCache = true → (h1 q).shouldUpdateCache = true) ∧
      (∀ e q, ReachesWithin h e p q → (h1 q).shouldUpdateCache = true)
  | 0, _, _, hd => hd.elim
  | fuel + 1, h, p, hd => by
    have s0 : SameButFlags h (setFlag h p true) := sameButFlags_setFlag h p true
    have hd0 : ∀ c ∈ (h p).children, ChildDepth (setFlag h p true) fuel c := fun c hc =>
      childDepth_congr (fun q => (s0 q).2.2.2) fuel c (hd c hc)
    obtain ⟨h1, e1, s1, m1, r1⟩ := forEachChild_flags (ForceUpdateCache fuel) fuel
      (fun h0 c hc => ForceUpdateCache_flags fuel h0 c hc) (h p).children (setFlag h p true) hd0
    have m0 : ∀ q, (h q).shouldUpdateCache = true →
        (setFlag h p true q).shouldUpdateCache = true := by
      intro q hq
      by_cases e : q = p
      · subst e; simp
      · simp [e, hq]
    have hp1 : (h1 p).shouldUpdateCache = true := m1 p (by simp)
    refine ⟨h1, by simp [ForceUpdateCache, e1], sameButFlags_trans s0 s1,
      fun q hq => m1 q (m0 q hq), ?_⟩
    intro e q hr
    cases e with
    | zero =>
      have : q = p := hr
      rw [this]; exact hp1
    | succ e =>
      rcases hr with rfl | ⟨c, hc, hr1⟩
      · exact hp1
      · exact r1 c hc e q (reachesWithin_congr (fun a => (s0 a).2.2.2) e c q hr1)

/-! ## `SetParent` without conversion of values -/

theorem SetParent_plain_total (h : Heap) (fuel : Nat) (this : Ptr) (newParent : Option Ptr)
    (hd : ChildDepth h fuel this) : ∃ h1, SetParent h fuel this newParent false = some h1 := by
  obtain ⟨h0, e0, _⟩ := ForceUpdateCache_spec fuel h this hd
  cases newParent with
  | none => simp [SetParent, e0]
  | some np => simp [SetParent, e0]

theorem SetParent_detached (h : Heap) (fuel : Nat) (X D : Ptr) (hp : (h X).parent = none)
    (hd : ChildDepth h fuel X) :
    ∃ h0, SameButFlags h h0 ∧
      SetParent h fuel X (some D) false
        = some (setChildren (setParentField h0 X (some D)) D ((h D).children ++ [X])) := by
  obtain ⟨h0, e0, s0⟩ := ForceUpdateCache_spec fuel h X hd
  have hp0 : (h0 X).parent = none := by rw [(s0 X).2.2.1, hp]
  refine ⟨h0, s0, ?_⟩
  have hch : (setParentField h0 X (some D) D).children = (h D).children := by
    by_cases e : D = X
    · subst e; simp [(s0 D).2.2.2]
    · simp [e, (s0 D).2.2.2]
  simp only [SetParent, e0, hp0, Bool.false_eq_true, if_false, hch]

/-! ## Claims on insertion, bulk deletion and invalidation -/

/-- C11: for every scene whose cross has a finite subtree, every event
`deleteAll` and every state its handlers act on, `Scene::DeleteAll` returns, and
afterwards `objects` is empty and `root.children` is empty, so that the only
node reached from the root along `children` links is the root itself. -/
theorem C11_DeleteAll_empties {σ : Type} (s : Scene) (fuel : Nat) (deleteAll : Event Unit σ)
    (w : σ) (hd : ChildDepth s.heap fuel s.cross) :
    ∃ s1 w1 calls, Scene.DeleteAll s fuel deleteAll w = some (s1, w1, calls) ∧
      s1.objects = [] ∧ (s1.heap s1.root).children = [] ∧
      ∀ d q, ReachesWithin s1.heap d s1.root q → q = s1.root := by
  obtain ⟨h1, e1⟩ := SetParent_plain_total s.heap fuel s.cross none hd
  refine ⟨{ heap := setChildren h1 s.defaultObject []
            objects := []
            root := s.defaultObject
            cross := s.cross
            defaultObject := s.defaultObject
            released := s.objects.foldl (fun acc o => o :: acc) s.released },
    (deleteAll.Invoke () w).1, (deleteAll.Invoke () w).2,
    by simp only [Scene.DeleteAll, e1], rfl, by simp, ?_⟩
  intro d q hr
  cases d with
  | zero => exact hr
  | succ d =>
    rcases hr with e | ⟨c, hc, _⟩
    · exact e
    · simp at hc

/-- C11 at a concrete input: the scene with root `0`, cross `1` and object `2`,
with one handler on `deleteAll`. -/
theorem C11_DeleteAll_empties_witness :
    ∃ s1 w1 calls,
      Scene.DeleteAll crossScene 3 (⟨[(0, fun _ n => n + 1)]⟩ : Event Unit Nat) 0
        = some (s1, w1, calls) ∧
      s1.objects = [] ∧ (s1.heap s1.root).children = [] ∧
      ∀ d q, ReachesWithin s1.heap d s1.root q → q = s1.root :=
  C11_DeleteAll_empties crossScene 3 ⟨[(0, fun _ n => n + 1)]⟩ 0 (by decide)

/-- C12: for a detached node `X` (no parent) with a finite subtree,
`Scene::Insert(D, X)` returns `true`; afterwards the parent of `X` is `D`, the
children of `D` are the old ones followed by `X`, `objects` is the old vector
followed by `X`, and no other children sequence, parent link, position,
rotation or scene member changes. `Insert(X)` is `Insert(root, X)`. -/
theorem C12_Insert_appends (s : Scene) (fuel : Nat) (D X : Ptr)
    (hp : (s.heap X).parent = none) (hd : ChildDepth s.heap fuel X) :
    (∃ s1, Scene.Insert s fuel (some D) X = some (true, s1) ∧
      (s1.heap X).parent = some D ∧
      (s1.heap D).children = (s.heap D).children ++ [X] ∧
      s1.objects = s.objects ++ [X] ∧
      (∀ a, a ≠ D → (s1.heap a).children = (s.heap a).children) ∧
      (∀ a, a ≠ X → (s1.heap a).parent = (s.heap a).parent) ∧
      (∀ a, (s1.heap a).position = (s.heap a).position ∧
        (s1.heap a).rotation = (s.heap a).rotation) ∧
      s1.root = s.root ∧ s1.cross = s.cross ∧ s1.released = s.released) ∧
    Scene.InsertAtRoot s fuel X = Scene.Insert s fuel (some s.root) X := by
  refine ⟨?_, rfl⟩
  obtain ⟨h0, s0, e0⟩ := SetParent_detached s.heap fuel X D hp hd
  refine ⟨{ s with
      heap := setChildren (setParentField h0 X (some D)) D ((s.heap D).children ++ [X])
      objects := s.objects ++ [X] },
    by simp only [Scene.Insert, e0], ?_, ?_, rfl, ?_, ?_, ?_, rfl, rfl, rfl⟩
  · by_cases e : X = D
    · subst e; simp
    · simp [e]
  · simp
  · intro a ha
    by_cases e : a = X
    · subst e; simp [ha, (s0 a).2.2.2]
    · simp [ha, e, (s0 a).2.2.2]
  · intro a ha
    by_cases e : a = D
    · subst e; simp [ha, (s0 a).2.2.1]
    · simp [ha, e, (s0 a).2.2.1]
  · intro a
    by_cases e : a = D <;> by_cases e1 : a = X
    · subst e; subst e1; simp [(s0 a).1, (s0 a).2.1]
    · subst e; simp [e1, (s0 a).1, (s0 a).2.1]
    · subst e1; simp [e, (s0 a).1, (s0 a).2.1]
    · simp [e, e1, (s0 a).1, (s0 a).2.1]

/-- C12 at a concrete input: the detached node `7` is inserted under the root
`0` of the chain scene. -/
theorem C12_Insert_appends_witness :
    (∃ s1, Scene.Insert chainScene 2 (some 0) 7 = some (true, s1) ∧
      (s1.heap 7).parent = some 0 ∧
      (s1.heap 0).children = (chainScene.heap 0).children ++ [7] ∧
      s1.objects = chainScene.objects ++ [7] ∧
      (∀ a, a ≠ 0 → (s1.heap a).children = (chainScene.heap a).children) ∧
      (∀ a, a ≠ 7 → (s1.heap a).parent = (chainScene.heap a).parent) ∧
      (∀ a, (s1.heap a).position = (chainScene.heap a).position ∧
        (s1.heap a).rotation = (chainScene.heap a).rotation) ∧
      s1.root = chainScene.root ∧ s1.cross = chainScene.cross ∧
      s1.released = chainScene.released) ∧
    Scene.InsertAtRoot chainScene 2 7 = Scene.Insert chainScene 2 (some chainScene.root) 7 :=
  C12_Insert_appends chainScene 2 0 7 (by decide) (by decide)

/-- C18: for a node `N` whose subtree is finite, `ForceUpdateCache()` returns,
and afterwards the flag `shouldUpdateCache` is `true` on `N` and on every node
reached from `N` along `children` links in any number of steps, whatever the
flags were before; no other field of any object changes. -/
theorem C18_ForceUpdateCache_marks_subtree (h : Heap) (fuel : Nat) (N : Ptr)
    (hd : ChildDepth h fuel N) :
    ∃ h1, ForceUpdateCache fuel h N = some h1 ∧
      (h1 N).shouldUpdateCache = true ∧
      (∀ d q, ReachesWithin h d N q → (h1 q).shouldUpdateCache = true) ∧
      SameButFlags h h1 := by
  obtain ⟨h1, e1, s1, _, r1⟩ := ForceUpdateCache_flags fuel h N hd
  exact ⟨h1, e1, r1 0 N rfl, r1, s1⟩

/-- C18 at a concrete input: the root `0` of the chain `0 → 1 → 2 → 3`. -/
theorem C18_ForceUpdateCache_marks_subtree_witness :
    ∃ h1, ForceUpdateCache 4 chainHeap 0 = some h1 ∧
      (h1 0).shouldUpdateCache = true ∧
      (∀ d q, ReachesWithin chainHeap d 0 q → (h1 q).shouldUpdateCache = true) ∧
      SameButFlags chainHeap h1 :=
  C18_ForceUpdateCache_marks_subtree chainHeap 4 0 (by decide)

/-! ## The command queue -/

theorem drainLoop_succeed {σ : Type} : ∀ (l : List (Command σ)) (w : σ)
    (deleteQueue : List (Command σ)) (ran : List Nat), AllSucceed l w →
    drainLoop l w deleteQueue ran
      = (true, runReady l w, deleteQueue ++ l.filter (fun c => c.isReady), ran ++ readyIds l)
  | [], w, deleteQueue, ran, _ => by simp [drainLoop, runReady, readyIds]
  | c :: cs, w, deleteQueue, ran, ha => by
    unfold AllSucceed at ha
    by_cases hr : c.isReady = true
    · rw [if_pos hr] at ha
      simp [drainLoop, runReady, readyIds, hr, ha.1,
        drainLoop_succeed cs (c.Execute w).2 _ _ ha.2]
    · rw [if_neg hr] at ha
      simp [drainLoop, runReady, readyIds, hr, drainLoop_succeed cs w _ _ ha]

theorem drainLoop_fail {σ : Type} (c : Command σ) (post : List (Command σ)) :
    ∀ (pre : List (Command σ)) (w : σ) (deleteQueue : List (Command σ)) (ran : List Nat),
    AllSucceed pre w → c.isReady = true → (c.Execute (runReady pre w)).1 = false →
    drainLoop (pre ++ c :: post) w deleteQueue ran
      = (false, (c.Execute (runReady pre w)).2,
          deleteQueue ++ pre.filter (fun d => d.isReady), ran ++ readyIds pre ++ [c.id])
  | [], w, deleteQueue, ran, _, hc, hf => by
    simp only [runReady] at hf
    simp [drainLoop, runReady, readyIds, hc, hf]
  | d :: ds, w, deleteQueue, ran, ha, hc, hf => by
    unfold AllSucceed at ha
    by_cases hr : d.isReady = true
    · rw [if_pos hr] at ha
      simp only [runReady, hr, if_true] at hf
      simp [drainLoop, runReady, readyIds, hr, ha.1,
        drainLoop_fail c post ds (d.Execute w).2 _ _ ha.2 hc hf]
    · rw [if_neg hr] at ha
      simp only [runReady, hr] at hf
      simp [drainLoop, runReady, readyIds, hr, drainLoop_fail c post ds w _ _ ha hc hf]

theorem readyIds_sublist {σ : Type} (l : List (Command σ)) :
    (readyIds l).Sublist (l.map (fun c => c.id)) := by
  unfold readyIds
  exact (List.filter_sublist l).map _

/-- C13: when the ready commands of `pre` all succeed and the ready command `c`
after them fails, `ExecuteAll` on the queue `pre ++ c :: post` returns `false`;
the commands whose `Execute` was called are the ready ones of `pre` in queue
order followed by `c`, the state is the one `c` leaves after them, and the queue
is unchanged, so every command of `post` is still queued at its position; with
pairwise distinct commands no command ran twice and no command of `post` ran.
When no ready command fails, `ExecuteAll` returns `true` after calling the ready
commands in queue order. -/
theorem C13_ExecuteAll_fifo_and_failure {σ : Type} (pre post : List (Command σ))
    (c : Command σ) (w : σ) (ha : AllSucceed pre w) (hc : c.isReady = true)
    (hf : (c.Execute (runReady pre w)).1 = false) :
    ((Command.ExecuteAll (pre ++ c :: post) w).result = false ∧
      (Command.ExecuteAll (pre ++ c :: post) w).ran = readyIds pre ++ [c.id] ∧
      (Command.ExecuteAll (pre ++ c :: post) w).state = (c.Execute (runReady pre w)).2 ∧
      (Command.ExecuteAll (pre ++ c :: post) w).queue = pre ++ c :: post ∧
      (((pre ++ c :: post).map (fun d => d.id)).Nodup →
        (Command.ExecuteAll (pre ++ c :: post) w).ran.Nodup ∧
        ∀ d ∈ post, d.id ∉ (Command.ExecuteAll (pre ++ c :: post) w).ran)) ∧
    (∀ (queue : List (Command σ)) (w0 : σ), AllSucceed queue w0 →
      (Command.ExecuteAll queue w0).result = true ∧
      (Command.ExecuteAll queue w0).ran = readyIds queue ∧
      (Command.ExecuteAll queue w0).state = runReady queue w0) := by
  constructor
  · have e := drainLoop_fail c post pre w [] [] ha hc hf
    have hran : (Command.ExecuteAll (pre ++ c :: post) w).ran = readyIds pre ++ [c.id] := by
      simp [Command.ExecuteAll, e]
    refine ⟨by simp [Command.ExecuteAll, e], hran, by simp [Command.ExecuteAll, e],
      by simp [Command.ExecuteAll, e], ?_⟩
    intro hnd
    rw [hran]
    have hsub : (readyIds pre ++ [c.id]).Sublist ((pre ++ [c]).map (fun d => d.id)) := by
      rw [List.map_append]
      exact (readyIds_sublist pre).append (List.Sublist.refl _)
    have hsplit : (pre ++ c :: post).map (fun d => d.id)
        = (pre ++ [c]).map (fun d => d.id) ++ post.map (fun d => d.id) := by
      simp
    rw [hsplit] at hnd
    have hnd2 := List.nodup_append.mp hnd
    refine ⟨hnd2.1.sublist hsub, ?_⟩
    intro d hd hmem
    exact hnd2.2.2 (hsub.subset hmem) (List.mem_map_of_mem (fun d => d.id) hd)
  · intro queue w0 hall
    have e := drainLoop_succeed queue w0 [] [] hall
    simp [Command.ExecuteAll, e]

/-- C13 at the concrete input of the claim: the queue `C1, C2, C3` of ready
commands with `C2` failing. -/
theorem C13_ExecuteAll_fifo_and_failure_witness :
    ((Command.ExecuteAll ([logCommand 1 true true] ++ logCommand 2 true false ::
        [logCommand 3 true true]) []).result = false ∧
      (Command.ExecuteAll ([logCommand 1 true true] ++ logCommand 2 true false ::
        [logCommand 3 true true]) []).ran
        = readyIds [logCommand 1 true true] ++ [(logCommand 2 true false).id] ∧
      (Command.ExecuteAll ([logCommand 1 true true] ++ logCommand 2 true false ::
        [logCommand 3 true true]) []).state
        = ((logCommand 2 true false).Execute (runReady [logCommand 1 true true] [])).2 ∧
      (Command.ExecuteAll ([logCommand 1 true true] ++ logCommand 2 true false ::
        [logCommand 3 true true]) []).queue
        = [logCommand 1 true true] ++ logCommand 2 true false :: [logCommand 3 true true] ∧
      ((([logCommand 1 true true] ++ logCommand 2 true false ::
          [logCommand 3 true true]).map (fun d => d.id)).Nodup →
        (Command.ExecuteAll ([logCommand 1 true true] ++ logCommand 2 true false ::
          [logCommand 3 true true]) []).ran.Nodup ∧
        ∀ d ∈ [logCommand 3 true true],
          d.id ∉ (Command.ExecuteAll ([logCommand 1 true true] ++ logCommand 2 true false ::
            [logCommand 3 true true]) []).ran)) ∧
    (∀ (queue : List (Command (List Nat))) (w0 : List Nat), AllSucceed queue w0 →
      (Command.ExecuteAll queue w0).result = true ∧
      (Command.ExecuteAll queue w0).ran = readyIds queue ∧
      (Command.ExecuteAll queue w0).state = runReady queue w0) :=
  C13_ExecuteAll_fifo_and_failure [logCommand 1 true true] [logCommand 3 true true]
    (logCommand 2 true false) [] (by decide) rfl rfl

/-- C14 (evaluation at the failing input): with the queue `C1, C2` of ready
commands, `C1` succeeding and `C2` failing, `ExecuteAll` returns `false` after
calling `C1` and `C2`, and the queue still holds `C1`, which ran with success. -/
theorem C14_ExecuteAll_keeps_executed :
    (Command.ExecuteAll [logCommand 1 true true, logCommand 2 true false] []).result = false ∧
    (Command.ExecuteAll [logCommand 1 true true, logCommand 2 true false] []).ran = [1, 2] ∧
    (Command.ExecuteAll [logCommand 1 true true, logCommand 2 true false] []).state = [1, 2] ∧
    (Command.ExecuteAll [logCommand 1 true true, logCommand 2 true false] []).queue.map
      (fun c => c.id) = [1, 2] := by
  decide

/-! ## Events and properties -/

theorem invoke_fold {T σ : Type} (v : T) : ∀ (hs : List (Nat × (T → σ → σ))) (w : σ)
    (calls : List (Nat × T)),
    hs.foldl (fun acc handler => (handler.2 v acc.1, acc.2 ++ [(handler.1, v)])) (w, calls)
      = (hs.foldl (fun w1 handler => handler.2 v w1) w,
          calls ++ hs.map (fun handler => (handler.1, v)))
  | [], w, calls => by simp
  | a :: hs, w, calls => by
    simp [invoke_fold v hs]

theorem Event_Invoke_eq {T σ : Type} (e : Event T σ) (v : T) (w : σ) :
    e.Invoke v w
      = (e.handlers.foldl (fun w1 handler => handler.2 v w1) w,
          e.handlers.map (fun handler => (handler.1, v))) := by
  unfold Event.Invoke
  rw [invoke_fold v e.handlers w []]
  simp

/-- C15: for a property whose cell holds `old` and has any handlers on
`changed`: `Set(v)` with `v = old` makes no handler call and leaves the state
outside untouched; `Set(v)` with `v ≠ old` makes exactly one call per handler
entry, in key order, each with the argument `v`, and the state outside is the
one these calls leave; in both cases `Get()` afterwards returns `v`. -/
theorem C15_Set_notifies_on_change {T σ : Type} [DecidableEq T] (st : NodeStore T σ)
    (p : Property) (v : T) (w : σ) :
    (Property.Get st p = v →
      (Property.Set st p v w).2.2 = [] ∧ (Property.Set st p v w).2.1 = w) ∧
    (Property.Get st p ≠ v →
      (Property.Set st p v w).2.2
        = (st p.node).changed.handlers.map (fun handler => (handler.1, v)) ∧
      (Property.Set st p v w).2.1
        = (st p.node).changed.handlers.foldl (fun w1 handler => handler.2 v w1) w) ∧
    Property.Get (Property.Set st p v w).1 p = v := by
  refine ⟨fun he => ?_, fun hne => ?_, ?_⟩
  · have he1 : (st p.node).value = v := he
    simp [Property.Set, PropertyNode.Set, he1]
  · have hne1 : (st p.node).value ≠ v := hne
    simp [Property.Set, PropertyNode.Set, hne1, Event_Invoke_eq]
  · by_cases he : (st p.node).value = v
    · simp [Property.Set, PropertyNode.Set, Property.Get, PropertyNode.Get, he]
    · simp [Property.Set, PropertyNode.Set, Property.Get, PropertyNode.Get, he]

/-- C15 at a concrete input: a cell holding `5` with the logging handlers `3`
and `7`, set to `9`. -/
theorem C15_Set_notifies_on_change_witness :
    (Property.Get logStore ⟨0⟩ = 9 →
      (Property.Set logStore ⟨0⟩ 9 []).2.2 = [] ∧ (Property.Set logStore ⟨0⟩ 9 []).2.1 = []) ∧
    (Property.Get logStore ⟨0⟩ ≠ 9 →
      (Property.Set logStore ⟨0⟩ 9 []).2.2
        = (logStore (⟨0⟩ : Property).node).changed.handlers.map (fun handler => (handler.1, 9)) ∧
      (Property.Set logStore ⟨0⟩ 9 []).2.1
        = (logStore (⟨0⟩ : Property).node).changed.handlers.foldl
            (fun w1 handler => handler.2 9 w1) []) ∧
    Property.Get (Property.Set logStore ⟨0⟩ 9 []).1 ⟨0⟩ = 9 :=
  C15_Set_notifies_on_change logStore ⟨0⟩ 9 []

/-- C16: after `a.BindTwoWay(b)` the handle `a` points to the node of `b`, so
`a.Get()` equals `b.Get()`; for every value `v`, `a.Set(v)` makes `b.Get()` return
`v` and `b.Set(v)` makes `a.Get()` return `v`; and a second `a.BindTwoWay(b)`
leaves the handle as the first call left it (the call writes nothing else). -/
theorem C16_BindTwoWay_shares_cell {T σ : Type} [DecidableEq T] (st : NodeStore T σ)
    (a b : Property) :
    (a.BindTwoWay b).node = b.node ∧
    Property.Get st (a.BindTwoWay b) = Property.Get st b ∧
    (∀ (v : T) (w : σ), Property.Get (Property.Set st (a.BindTwoWay b) v w).1 b = v) ∧
    (∀ (v : T) (w : σ), Property.Get (Property.Set st b v w).1 (a.BindTwoWay b) = v) ∧
    (a.BindTwoWay b).BindTwoWay b = a.BindTwoWay b := by
  refine ⟨rfl, rfl, fun v w => ?_, fun v w => ?_, rfl⟩
  · by_cases he : (st b.node).value = v
    · simp [Property.BindTwoWay, Property.Set, PropertyNode.Set, Property.Get,
        PropertyNode.Get, he]
    · simp [Property.BindTwoWay, Property.Set, PropertyNode.Set, Property.Get,
        PropertyNode.Get, he]
  · by_cases he : (st b.node).value = v
    · simp [Property.BindTwoWay, Property.Set, PropertyNode.Set, Property.Get,
        PropertyNode.Get, he]
    · simp [Property.BindTwoWay, Property.Set, PropertyNode.Set, Property.Get,
        PropertyNode.Get, he]

/-! ## The polyline cache -/

theorem CascadeTransformAll_chain (h : Heap) : ∀ (qs : List Ptr) (fuel : Nat) (p : Ptr)
    (vs : List Vec3), IsChain h p qs → qs.length < fuel →
    CascadeTransformAll h fuel p vs
      = some (vs.map (fun v =>
          qs.foldl (fun x q => levelTransform (h q) x) (levelTransform (h p) v)))
  | _, 0, _, _, _, hl => absurd hl (by omega)
  | [], fuel + 1, p, vs, hc, _ => by
    simp only [IsChain] at hc
    have hstep : (if (h p).rotation = unitQuat then
          vs.map (fun v => Vec3.add v (h p).position)
        else vs.map (fun v => Vec3.add (Quat.rotate (h p).rotation v) (h p).position))
        = vs.map (fun v => levelTransform (h p) v) := by
      split
      · next hu => simp [levelTransform, hu, rotate_unitQuat]
      · rfl
    simp only [CascadeTransformAll, hc, hstep, List.foldl_nil]
  | q :: qs, fuel + 1, p, vs, hc, hl => by
    simp only [IsChain] at hc
    have hl1 : qs.length < fuel := by simpa using hl
    have hstep : (if (h p).rotation = unitQuat then
          vs.map (fun v => Vec3.add v (h p).position)
        else vs.map (fun v => Vec3.add (Quat.rotate (h p).rotation v) (h p).position))
        = vs.map (fun v => levelTransform (h p) v) := by
      split
      · next hu => simp [levelTransform, hu, rotate_unitQuat]
      · rfl
    simp only [CascadeTransformAll, hc.1, hstep]
    rw [CascadeTransformAll_chain h qs fuel q _ hc.2 hl1]
    simp [List.map_map, Function.comp]

theorem runCalls_spec (this : Ptr) : ∀ (cs : List VerticeCall) (h : Heap) (pl : StereoPolyLine),
    CallsInRange pl.vertices.length cs →
    ∃ h1 pl1, runCalls this cs h pl = some (h1, pl1) ∧ SameButFlags h h1 ∧
      pl1.vertices = verticesAfter pl.vertices cs ∧
      (((h this).shouldUpdateCache = true ∨ cs ≠ []) → (h1 this).shouldUpdateCache = true)
  | [], h, pl, _ => ⟨h, pl, rfl, sameButFlags_refl h, rfl, fun hf => by
      rcases hf with hf | hf
      · exact hf
      · exact absurd rfl hf⟩
  | .add v :: cs, h, pl, hr => by
    have hr1 : CallsInRange (pl.vertices ++ [v]).length cs := by
      simpa [CallsInRange] using hr
    obtain ⟨h1, pl1, e1, s1, v1, f1⟩ := runCalls_spec this cs (setFlag h this true)
      { pl with vertices := pl.vertices ++ [v] } hr1
    exact ⟨h1, pl1, by simp [runCalls, VerticeCall.run, StereoPolyLine.AddVertice, e1],
      sameButFlags_trans (sameButFlags_setFlag h this true) s1, by simpa [verticesAfter] using v1,
      fun _ => f1 (Or.inl (by simp))⟩
  | .set index v :: cs, h, pl, hr => by
    have hi : index < pl.vertices.length := hr.1
    have hr1 : CallsInRange (pl.vertices.set index v).length cs := by
      simpa [CallsInRange] using hr.2
    obtain ⟨h1, pl1, e1, s1, v1, f1⟩ := runCalls_spec this cs (setFlag h this true)
      { pl with vertices := pl.vertices.set index v } hr1
    exact ⟨h1, pl1, by simp [runCalls, VerticeCall.run, StereoPolyLine.SetVertice, hi, e1],
      sameButFlags_trans (sameButFlags_setFlag h this true) s1, by simpa [verticesAfter] using v1,
      fun _ => f1 (Or.inl (by simp))⟩
  | .remove :: cs, h, pl, hr => by
    have hv : (if pl.vertices.length > 0 then pl.vertices.dropLast else pl.vertices)
        = pl.vertices.dropLast := by
      split
      · rfl
      · next hz =>
        have : pl.vertices = [] := List.length_eq_zero.mp (by omega)
        simp [this]
    have hr1 : CallsInRange pl.vertices.dropLast.length cs := by
      simpa [CallsInRange] using hr
    obtain ⟨h1, pl1, e1, s1, v1, f1⟩ := runCalls_spec this cs (setFlag h this true)
      { linesCache := if pl.linesCache.length > 0 then pl.linesCache.dropLast else pl.linesCache
        vertices := pl.vertices.dropLast } hr1
    exact ⟨h1, pl1, by simp only [runCalls, VerticeCall.run, StereoPolyLine.RemoveVertice, hv, e1],
      sameButFlags_trans (sameButFlags_setFlag h this true) s1, by simpa [verticesAfter] using v1,
      fun _ => f1 (Or.inl (by simp))⟩

/-- C17: for a polyline at the node `this` with a finite ancestor chain, and a
non-empty sequence of `AddVertice`, `SetVertice` (index in range) and
`RemoveVertice` calls, the calls return, and the next `GetLines()` returns a list
that depends on the current vertices only: it has `count - 1` entries, is empty
with fewer than 2 vertices, and entry `i` joins the images under
`ToWorldPosition` of the current vertices `i` and `i + 1`. -/
theorem C17_GetLines_after_calls (h : Heap) (fuel : Nat) (this : Ptr) (qs : List Ptr)
    (pl : StereoPolyLine) (cs : List VerticeCall) (hc : IsChain h this qs)
    (hl : qs.length < fuel) (hr : CallsInRange pl.vertices.length cs) (hne : cs ≠ []) :
    ∃ h1 pl1 lines h2 pl2, runCalls this cs h pl = some (h1, pl1) ∧
      pl1.vertices = verticesAfter pl.vertices cs ∧
      StereoPolyLine.GetLines h1 fuel this pl1 = some (lines, h2, pl2) ∧
      lines.length = pl1.vertices.length - 1 ∧
      (pl1.vertices.length < 2 → lines = []) ∧
      (∀ i v1 v2, pl1.vertices[i]? = some v1 → pl1.vertices[i + 1]? = some v2 →
        ∃ a b, ToWorldPosition h1 fuel this v1 = some a ∧
          ToWorldPosition h1 fuel this v2 = some b ∧ lines[i]? = some ⟨a, b⟩) := by
  obtain ⟨h1, pl1, e1, s1, hv, hflag⟩ := runCalls_spec this cs h pl hr
  have hf : (h1 this).shouldUpdateCache = true := hflag (Or.inr hne)
  have hc1 : IsChain h1 this qs := sameStructure_isChain (sameButFlags_toStructure s1) hc
  by_cases hsmall : pl1.vertices.length < 2
  · refine ⟨h1, pl1, [], h1, { pl1 with linesCache := [] }, e1, hv,
      by simp [StereoPolyLine.GetLines, StereoPolyLine.UpdateCache, hf, hsmall], ?_, fun _ => rfl, ?_⟩
    · simp only [List.length_nil]
      omega
    · intro i v1 v2 _ h2
      have : i + 1 < pl1.vertices.length := by
        by_contra hge
        rw [List.getElem?_eq_none (by omega)] at h2
        exact absurd h2 (by simp)
      omega
  · have hall := CascadeTransformAll_chain h1 qs fuel this pl1.vertices hc1 hl
    refine ⟨h1, pl1,
      (List.range (pl1.vertices.length - 1)).map (fun i =>
        (⟨(pl1.vertices.map (fun v => qs.foldl (fun x q => levelTransform (h1 q) x)
              (levelTransform (h1 this) v))).getD i Vec3.zero,
          (pl1.vertices.map (fun v => qs.foldl (fun x q => levelTransform (h1 q) x)
              (levelTransform (h1 this) v))).getD (i + 1) Vec3.zero⟩ : Pair)),
      setFlag h1 this false,
      { pl1 with
        linesCache := (List.range (pl1.vertices.length - 1)).map (fun i =>
          (⟨(pl1.vertices.map (fun v => qs.foldl (fun x q => levelTransform (h1 q) x)
                (levelTransform (h1 this) v))).getD i Vec3.zero,
            (pl1.vertices.map (fun v => qs.foldl (fun x q => levelTransform (h1 q) x)
                (levelTransform (h1 this) v))).getD (i + 1) Vec3.zero⟩ : Pair)) },
      e1, hv,
      by simp only [StereoPolyLine.GetLines, StereoPolyLine.UpdateCache, hf, hsmall, hall,
        if_true, if_false], ?_, fun hlt => absurd hlt hsmall, ?_⟩
    · simp
    · intro i v1 v2 hi1 hi2
      have hlt : i + 1 < pl1.vertices.length := by
        by_contra hge
        rw [List.getElem?_eq_none (by omega)] at hi2
        exact absurd hi2 (by simp)
      refine ⟨_, _, CascadeTransform_chain h1 qs fuel this v1 hc1 hl,
        CascadeTransform_chain h1 qs fuel this v2 hc1 hl, ?_⟩
      have hir : i < pl1.vertices.length - 1 := by omega
      simp [List.getElem?_map, List.getElem?_range hir, List.getD_eq_getElem?_getD, hi1, hi2]

/-- C17 at a concrete input: the polyline at node `3` of the chain with turned
ancestors, after three `AddVertice`, a `RemoveVertice`, a `SetVertice` and a
further `AddVertice`. -/
theorem C17_GetLines_after_calls_witness :
    ∃ h1 pl1 lines h2 pl2,
      runCalls 3 [.add ⟨1, 0, 0⟩, .add ⟨0, 1, 0⟩, .add ⟨0, 0, 1⟩, .remove,
        .set 0 ⟨2, 2, 2⟩, .add ⟨3, 3, 3⟩] turnedHeap ⟨[], []⟩ = some (h1, pl1) ∧
      pl1.vertices = verticesAfter (⟨[], []⟩ : StereoPolyLine).vertices
        [.add ⟨1, 0, 0⟩, .add ⟨0, 1, 0⟩, .add ⟨0, 0, 1⟩, .remove,
          .set 0 ⟨2, 2, 2⟩, .add ⟨3, 3, 3⟩] ∧
      StereoPolyLine.GetLines h1 4 3 pl1 = some (lines, h2, pl2) ∧
      lines.length = pl1.vertices.length - 1 ∧
      (pl1.vertices.length < 2 → lines = []) ∧
      (∀ i v1 v2, pl1.vertices[i]? = some v1 → pl1.vertices[i + 1]? = some v2 →
        ∃ a b, ToWorldPosition h1 4 3 v1 = some a ∧
          ToWorldPosition h1 4 3 v2 = some b ∧ lines[i]? = some ⟨a, b⟩) :=
  C17_GetLines_after_calls turnedHeap 4 3 [2, 1, 0] ⟨[], []⟩
    [.add ⟨1, 0, 0⟩, .add ⟨0, 1, 0⟩, .add ⟨0, 0, 1⟩, .remove, .set 0 ⟨2, 2, 2⟩, .add ⟨3, 3, 3⟩]
    (by decide) (by decide) (by decide) (by decide)

/-! ## Reparenting under the `Adapt` policy, and deletion -/

/-- C19 (evaluation at the failing input): in the tree with root `0`, its
children `1` (at `(1, 0, 0)`) and `4`, and `2` below `1`, node `4` has the world
position `(0, 0, 0)`; after reparenting it under `2` with values adapted, by the
positioned `SetParent` under the `Adapt` policy or by
`SetParent(newParent, true)`, its world position is `(2, 0, 0)`. -/
theorem C19_Adapt_reparent_moves_node :
    GetWorldPosition adoptHeap 6 4 = some ⟨0, 0, 0⟩ ∧
    (SetParentAt true 6 adoptHeap 4 (some 2) 0 InsertPosition.Top).bind
        (fun h => GetWorldPosition h 6 4) = some ⟨2, 0, 0⟩ ∧
    (SetParent adoptHeap 6 4 (some 2) true).bind
        (fun h => GetWorldPosition h 6 4) = some ⟨2, 0, 0⟩ := by
  decide!

theorem scanObjects_mem (obj : Ptr) : ∀ (os : List Ptr) (j : Nat), obj ∈ os →
    scanObjects obj os j = some (j + os.indexOf obj)
  | [], _, hm => absurd hm (by simp)
  | o :: os, j, hm => by
    by_cases e : o = obj
    · simp [scanObjects, e]
    · have hm1 : obj ∈ os := by
        rcases List.mem_cons.mp hm with h1 | h1
        · exact absurd h1.symm e
        · exact h1
      rw [scanObjects, if_neg e, scanObjects_mem obj os (j + 1) hm1,
        List.indexOf_cons_ne _ e]
      congr 1
      omega

theorem scanChildren_mem (s : Scene) (source obj : Ptr) (ho : obj ∈ s.objects) :
    ∀ (cs : List Ptr) (i : Nat), obj ∈ cs → i + cs.length ≤ s.objects.length →
    scanChildren s source obj cs i
      = some (true,
          { s with
            heap := setChildren s.heap source
              ((s.heap source).children.eraseIdx (i + cs.indexOf obj))
            objects := s.objects.eraseIdx (s.objects.indexOf obj)
            released := obj :: s.released })
  | [], _, hm, _ => absurd hm (by simp)
  | c :: cs, i, hm, hle => by
    have hlen : i < s.objects.length := by
      simp only [List.length_cons] at hle
      omega
    by_cases e : c = obj
    · have hs := scanObjects_mem obj s.objects 0 ho
      simp only [Nat.zero_add] at hs
      simp [scanChildren, e, hlen, hs]
    · have hm1 : obj ∈ cs := by
        rcases List.mem_cons.mp hm with h1 | h1
        · exact absurd h1.symm e
        · exact h1
      have hle1 : i + 1 + cs.length ≤ s.objects.length := by
        simp only [List.length_cons] at hle
        omega
      rw [scanChildren, if_neg e, scanChildren_mem s source obj ho cs (i + 1) hm1 hle1,
        List.indexOf_cons_ne _ e]
      have : i + 1 + List.indexOf obj cs = i + (List.indexOf obj cs).succ := by omega
      rw [this]

/-- In a consistent scene, deleting a child `X` of a live node `P` succeeds and
erases `X` from the children of `P` and from `objects`. -/
theorem Delete_consistent_eq (s : Scene) (P X : Ptr) (hs : s.Consistent) (hP : P ∈ s.live)
    (hX : X ∈ (s.heap P).children) :
    Scene.Delete s P X
      = some (true,
          { s with
            heap := setChildren s.heap P ((s.heap P).children.erase X)
            objects := s.objects.erase X
            released := X :: s.released }) := by
  obtain ⟨_, hcn, _, hsub⟩ := hs
  have ho : X ∈ s.objects := hsub P hP X hX
  have hlen : (s.heap P).children.length ≤ s.objects.length :=
    ((hcn P hP).subperm (fun c hc => hsub P hP c hc)).length_le
  have e := scanChildren_mem s P X ho (s.heap P).children 0 hX (by omega)
  simp only [Nat.zero_add, List.eraseIdx_indexOf_eq_erase] at e
  exact e

/-- C20 (the claim fails): each of four scenes is linked (every member of
`objects` the child of exactly one live node, every child of a live node in
`objects`), `Delete` succeeds on it, and the scene left is not linked.
In the chain scene `0 → 1 → 2 → 3` with `objects = [1, 2, 3]`, `Delete(0, 1)`
leaves `2` in `objects` as the child of no live node. With a node `7` outside
the scene that lists the root's child `1` too, `Delete(7, 1)` leaves the root
with a child that is not in `objects`. With `objects = [1, 1]`, `Delete(0, 1)`
leaves `1` in `objects` without parent. With `root.children = [1, 1]`,
`Delete(0, 1)` leaves the root with a child that is not in `objects`. -/
theorem C20_Delete_breaks_consistency :
    (chainScene.Linked ∧
      ∃ s1, Scene.Delete chainScene 0 1 = some (true, s1) ∧ ¬ s1.Linked) ∧
    (strayScene.Linked ∧
      ∃ s1, Scene.Delete strayScene 7 1 = some (true, s1) ∧ ¬ s1.Linked) ∧
    (twiceListedScene.Linked ∧
      ∃ s1, Scene.Delete twiceListedScene 0 1 = some (true, s1) ∧ ¬ s1.Linked) ∧
    (twiceChildScene.Linked ∧
      ∃ s1, Scene.Delete twiceChildScene 0 1 = some (true, s1) ∧ ¬ s1.Linked) := by
  refine ⟨⟨by decide, ?_⟩, ⟨by decide, ?_⟩, ⟨by decide, ?_⟩, ⟨by decide, ?_⟩⟩
  · exact ⟨{ chainScene with
        heap := setChildren chainScene.heap 0 ((chainScene.heap 0).children.eraseIdx 0)
        objects := chainScene.objects.eraseIdx 0
        released := 1 :: chainScene.released }, rfl, by decide⟩
  · exact ⟨{ strayScene with
        heap := setChildren strayScene.heap 7 ((strayScene.heap 7).children.eraseIdx 0)
        objects := strayScene.objects.eraseIdx 0
        released := 1 :: strayScene.released }, rfl, by decide⟩
  · exact ⟨{ twiceListedScene with
        heap := setChildren twiceListedScene.heap 0
          ((twiceListedScene.heap 0).children.eraseIdx 0)
        objects := twiceListedScene.objects.eraseIdx 0
        released := 1 :: twiceListedScene.released }, rfl, by decide⟩
  · exact ⟨{ twiceChildScene with
        heap := setChildren twiceChildScene.heap 0
          ((twiceChildScene.heap 0).children.eraseIdx 0)
        objects := twiceChildScene.objects.eraseIdx 0
        released := 1 :: twiceChildScene.released }, rfl, by decide⟩

/-- C20 (amended): in a consistent scene (`objects` and the children of live
nodes without duplicates, every member of `objects` the child of exactly one
live node, every child of a live node in `objects`), for a live node `P` and a
child `X` of `P` that has no children itself, `Delete(P, X)` succeeds and the
scene it leaves is consistent in the same sense. -/
theorem C20_Delete_leaf_keeps_consistency (s : Scene) (P X : Ptr) (hs : s.Consistent)
    (hP : P ∈ s.live) (hX : X ∈ (s.heap P).children) (hleaf : (s.heap X).children = []) :
    ∃ s1, Scene.Delete s P X = some (true, s1) ∧ s1.Consistent := by
  refine ⟨_, Delete_consistent_eq s P X hs hP hX, ?_⟩
  obtain ⟨hon, hcn, hpar, hsub⟩ := hs
  have hPX : P ≠ X := by
    intro e
    rw [e, hleaf] at hX
    exact absurd hX (by simp)
  -- children after the call
  have hch : ∀ a, (setChildren s.heap P ((s.heap P).children.erase X) a).children
      = if a = P then (s.heap P).children.erase X else (s.heap a).children := by
    intro a
    by_cases e : a = P
    · subst e; simp
    · simp [e]
  have hsubch : ∀ a c, c ∈ (setChildren s.heap P ((s.heap P).children.erase X) a).children →
      c ∈ (s.heap a).children := by
    intro a c hc
    rw [hch a] at hc
    by_cases e : a = P
    · rw [if_pos e] at hc
      rw [e]
      exact List.mem_of_mem_erase hc
    · rw [if_neg e] at hc
      exact hc
  have hlive : ∀ a, a ∈ s.root :: s.objects.erase X → a ∈ s.live := by
    intro a ha
    rcases List.mem_cons.mp ha with e | hm
    · rw [e]; exact List.mem_cons_self _ _
    · exact List.mem_cons_of_mem _ (List.mem_of_mem_erase hm)
  refine ⟨hon.erase X, ?_, ?_, ?_⟩
  · intro p hp
    have hp1 := hlive p hp
    show (setChildren s.heap P ((s.heap P).children.erase X) p).children.Nodup
    rw [hch p]
    by_cases e : p = P
    · rw [if_pos e]
      exact (hcn P hP).erase X
    · rw [if_neg e]
      exact hcn p hp1
  · intro x hx
    have hx1 : x ≠ X ∧ x ∈ s.objects := (hon.mem_erase_iff).mp hx
    obtain ⟨p, hp, hxp, huniq⟩ := hpar x hx1.2
    have hpX : p ≠ X := by
      intro e
      rw [e, hleaf] at hxp
      exact absurd hxp (by simp)
    refine ⟨p, ?_, ?_, ?_⟩
    · rcases List.mem_cons.mp hp with e | hm
      · rw [e]; exact List.mem_cons_self _ _
      · exact List.mem_cons_of_mem _ ((hon.mem_erase_iff).mpr ⟨hpX, hm⟩)
    · show x ∈ (setChildren s.heap P ((s.heap P).children.erase X) p).children
      rw [hch p]
      by_cases e : p = P
      · rw [if_pos e]
        rw [e] at hxp
        exact (List.mem_erase_of_ne hx1.1).mpr hxp
      · rw [if_neg e]
        exact hxp
    · intro p1 hp1 hxp1
      exact huniq p1 (hlive p1 hp1) (hsubch p1 x hxp1)
  · intro p hp c hc
    have hp1 := hlive p hp
    have hc1 : c ∈ (s.heap p).children := hsubch p c hc
    have hco : c ∈ s.objects := hsub p hp1 c hc1
    have hcX : c ≠ X := by
      intro e
      rw [e] at hc hc1
      have hc2 : X ∈ (setChildren s.heap P ((s.heap P).children.erase X) p).children := hc
      rw [hch p] at hc2
      by_cases e1 : p = P
      · rw [if_pos e1] at hc2
        exact ((hcn P hP).mem_erase_iff.mp hc2).1 rfl
      · obtain ⟨p0, _, _, huniq⟩ := hpar X (hsub P hP X hX)
        exact e1 ((huniq p hp1 hc1).trans (huniq P hP hX).symm)
    exact (hon.mem_erase_iff).mpr ⟨hcX, hco⟩

/-- C20 (amended) at a concrete input: deleting the leaf `3` below the live
node `2` of the chain scene. -/
theorem C20_Delete_leaf_keeps_consistency_witness :
    ∃ s1, Scene.Delete chainScene 2 3 = some (true, s1) ∧ s1.Consistent :=
  C20_Delete_leaf_keeps_consistency chainScene 2 3 (by decide) (by decide) (by decide)
    (by decide)

/-! ## Invalidation by the setters -/

theorem flag_setPosition (h : Heap) (p q : Ptr) (v : Vec3) :
    (setPosition h p v q).shouldUpdateCache = (h q).shouldUpdateCache := by
  by_cases e : q = p
  · subst e; simp
  · simp [e]

theorem flag_setRotation (h : Heap) (p q : Ptr) (v : Quat) :
    (setRotation h p v q).shouldUpdateCache = (h q).shouldUpdateCache := by
  by_cases e : q = p
  · subst e; simp
  · simp [e]

/-- C21: for a node `N` with a finite subtree and a finite ancestor chain, each
of `SetLocalPosition`, `SetWorldPosition`, `SetLocalRotation` and
`SetWorldRotation` returns for every argument (the value already stored
included) and leaves the dirty flag set on `N` and on every node reached from
`N` along `children` links. -/
theorem C21_setters_invalidate_subtree (h : Heap) (fuel : Nat) (N : Ptr) (qs : List Ptr)
    (v : Vec3) (r : Quat) (hd : ChildDepth h fuel N) (hc : IsChain h N qs)
    (hl : qs.length < fuel) :
    (∃ h1, SetLocalPosition h fuel N v = some h1 ∧
      ∀ d q, ReachesWithin h d N q → (h1 q).shouldUpdateCache = true) ∧
    (∃ h1, SetWorldPosition h fuel N v = some h1 ∧
      ∀ d q, ReachesWithin h d N q → (h1 q).shouldUpdateCache = true) ∧
    (∃ h1, SetLocalRotation h fuel N r = some h1 ∧
      ∀ d q, ReachesWithin h d N q → (h1 q).shouldUpdateCache = true) ∧
    (∃ h1, SetWorldRotation h fuel N r = some h1 ∧
      ∀ d q, ReachesWithin h d N q → (h1 q).shouldUpdateCache = true) := by
  obtain ⟨h0, e0, s0, _, r0⟩ := ForceUpdateCache_flags fuel h N hd
  have hc0 : IsChain h0 N qs := sameStructure_isChain (sameButFlags_toStructure s0) hc
  refine ⟨⟨setPosition h0 N v, by simp [SetLocalPosition, e0], fun d q hr => ?_⟩, ?_,
    ⟨setRotation h0 N r, by simp [SetLocalRotation, e0], fun d q hr => ?_⟩, ?_⟩
  · rw [flag_setPosition]; exact r0 d q hr
  · cases qs with
    | nil =>
      have hp0 : (h0 N).parent = none := hc0
      refine ⟨setPosition h0 N v, by simp [SetWorldPosition, e0, hp0], fun d q hr => ?_⟩
      rw [flag_setPosition]; exact r0 d q hr
    | cons par rs =>
      have hp0 : (h0 N).parent = some par := hc0.1
      have hl1 : rs.length < fuel := by
        simp only [List.length_cons] at hl
        omega
      obtain ⟨x, ex⟩ := CascadeTransformInverse_total h0 rs fuel par v hc0.2 hl1
      refine ⟨setPosition h0 N x, by simp [SetWorldPosition, e0, hp0, ToLocalPosition, ex],
        fun d q hr => ?_⟩
      rw [flag_setPosition]; exact r0 d q hr
  · rw [flag_setRotation]; exact r0 d q hr
  · cases qs with
    | nil =>
      have hp0 : (h0 N).parent = none := hc0
      refine ⟨setRotation h0 N r, by simp [SetWorldRotation, e0, hp0], fun d q hr => ?_⟩
      rw [flag_setRotation]; exact r0 d q hr
    | cons par rs =>
      have hp0 : (h0 N).parent = some par := hc0.1
      have hl1 : rs.length < fuel := by
        simp only [List.length_cons] at hl
        omega
      have er := GetWorldRotation_chain h0 rs fuel par hc0.2 hl1
      refine ⟨setRotation h0 N (Quat.mul (Quat.inverse (chainRotation h0 (par :: rs))) r),
        by simp [SetWorldRotation, e0, hp0, er], fun d q hr => ?_⟩
      rw [flag_setRotation]; exact r0 d q hr

/-- C21 at a concrete input: node `1` of the chain `0 → 1 → 2 → 3` with turned
ancestors, set to the position and rotation it already has. -/
theorem C21_setters_invalidate_subtree_witness :
    (∃ h1, SetLocalPosition turnedHeap 4 1 ⟨1, 0, 0⟩ = some h1 ∧
      ∀ d q, ReachesWithin turnedHeap d 1 q → (h1 q).shouldUpdateCache = true) ∧
    (∃ h1, SetWorldPosition turnedHeap 4 1 ⟨1, 0, 0⟩ = some h1 ∧
      ∀ d q, ReachesWithin turnedHeap d 1 q → (h1 q).shouldUpdateCache = true) ∧
    (∃ h1, SetLocalRotation turnedHeap 4 1 ⟨0, 1, 0, 0⟩ = some h1 ∧
      ∀ d q, ReachesWithin turnedHeap d 1 q → (h1 q).shouldUpdateCache = true) ∧
    (∃ h1, SetWorldRotation turnedHeap 4 1 ⟨0, 1, 0, 0⟩ = some h1 ∧
      ∀ d q, ReachesWithin turnedHeap d 1 q → (h1 q).shouldUpdateCache = true) :=
  C21_setters_invalidate_subtree turnedHeap 4 1 [0] ⟨1, 0, 0⟩ ⟨0, 1, 0, 0⟩ (by decide)
    (by decide) (by decide)

/-! ## The drag-and-drop guard for any move set -/

theorem movedLoop_root (target : Ptr) (up : Option Bool) : ∀ (buffer : List Ptr),
    movedLoop target none up buffer = some (decide (target ∈ buffer))
  | [] => by simp [movedLoop]
  | o :: os => by
    by_cases e : o = target
    · simp [movedLoop, e]
    · have e1 : ¬ target = o := fun x => e x.symm
      simp [movedLoop, e, e1, movedLoop_root target up os]

theorem movedLoop_false (target par : Ptr) : ∀ (buffer : List Ptr),
    movedLoop target (some par) (some false) buffer
      = some (decide (target ∈ buffer ∨ par ∈ buffer))
  | [] => by simp [movedLoop]
  | o :: os => by
    by_cases e : o = target
    · simp [movedLoop, e]
    · have e1 : ¬ target = o := fun x => e x.symm
      by_cases e2 : par = o
      · simp [movedLoop, e, e2]
      · simp [movedLoop, e, e1, e2, movedLoop_false target par os]

theorem movedLoop_true (target par : Ptr) (buffer : List Ptr) (hne : buffer ≠ []) :
    movedLoop target (some par) (some true) buffer = some true := by
  cases buffer with
  | nil => exact absurd rfl hne
  | cons o os =>
    by_cases e : o = target
    · simp [movedLoop, e]
    · by_cases e2 : par = o
      · simp [movedLoop, e, e2]
      · simp [movedLoop, e, e2]

theorem IsMovedToItself_spec (h : Heap) (buffer : List Ptr) :
    ∀ (qs : List Ptr) (fuel : Nat) (T : Ptr), IsChain h T qs → qs.length < fuel →
    ∃ b, IsMovedToItself h fuel T buffer = some b ∧
      (b = true ↔ ∃ o, o ∈ buffer ∧ (o = T ∨ o ∈ qs))
  | _, 0, _, _, hl => absurd hl (by omega)
  | [], fuel + 1, T, hc, _ => by
    have hp : (h T).parent = none := hc
    refine ⟨decide (T ∈ buffer), by simp [IsMovedToItself, hp, movedLoop_root], ?_⟩
    simp
  | par :: rs, fuel + 1, T, hc, hl => by
    have hp : (h T).parent = some par := hc.1
    have hl1 : rs.length < fuel := by simpa using hl
    obtain ⟨u, eu, hu⟩ := IsMovedToItself_spec h buffer rs fuel par hc.2 hl1
    cases u with
    | false =>
      refine ⟨decide (T ∈ buffer ∨ par ∈ buffer),
        by simp [IsMovedToItself, hp, eu, movedLoop_false], ?_⟩
      have hno : ¬ ∃ o, o ∈ buffer ∧ (o = par ∨ o ∈ rs) := fun hx => by
        have := hu.mpr hx
        exact absurd this (by simp)
      simp only [decide_eq_true_eq]
      constructor
      · rintro (ht | hpar)
        · exact ⟨T, ht, Or.inl rfl⟩
        · exact ⟨par, hpar, Or.inr (List.mem_cons_self _ _)⟩
      · rintro ⟨o, ho, hor⟩
        rcases hor with e | hm
        · exact Or.inl (e ▸ ho)
        · rcases List.mem_cons.mp hm with e | hm1
          · exact Or.inr (e ▸ ho)
          · exact absurd ⟨o, ho, Or.inr hm1⟩ hno
    | true =>
      obtain ⟨o, ho, hor⟩ := hu.mp rfl
      have hne : buffer ≠ [] := List.ne_nil_of_mem ho
      refine ⟨true, by simp [IsMovedToItself, hp, eu, movedLoop_true _ _ _ hne], ?_⟩
      simp only [true_iff]
      refine ⟨o, ho, Or.inr ?_⟩
      rcases hor with e | hm
      · rw [e]; exact List.mem_cons_self _ _
      · exact List.mem_cons_of_mem _ hm

/-- C23: for a destination `T` with the finite ancestor chain `qs` (parent,
grandparent, ..., root) and every move set `B`, `IsMovedToItself(T, B)` returns,
and it returns `true` exactly when some member of `B` is `T` or one of its
ancestors; for the empty `B` it returns `false`. -/
theorem C23_IsMovedToItself_iff (h : Heap) (fuel : Nat) (T : Ptr) (qs B : List Ptr)
    (hc : IsChain h T qs) (hl : qs.length < fuel) :
    (∃ b, IsMovedToItself h fuel T B = some b ∧
      (b = true ↔ ∃ o, o ∈ B ∧ (o = T ∨ o ∈ qs))) ∧
    IsMovedToItself h fuel T [] = some false := by
  refine ⟨IsMovedToItself_spec h B qs fuel T hc hl, ?_⟩
  obtain ⟨b, eb, hb⟩ := IsMovedToItself_spec h [] qs fuel T hc hl
  cases b with
  | false => exact eb
  | true =>
    obtain ⟨o, ho, _⟩ := hb.mp rfl
    exact absurd ho (by simp)

/-- C23 at a concrete input: destination `3` of the chain `0 → 1 → 2 → 3` and
the move set `{5, 1}`. -/
theorem C23_IsMovedToItself_iff_witness :
    (∃ b, IsMovedToItself chainHeap 4 3 [5, 1] = some b ∧
      (b = true ↔ ∃ o, o ∈ [5, 1] ∧ (o = 3 ∨ o ∈ [2, 1, 0]))) ∧
    IsMovedToItself chainHeap 4 3 [] = some false :=
  C23_IsMovedToItself_iff chainHeap 4 3 [2, 1, 0] [5, 1] (by decide) (by decide)

/-! ## The caches of `Mesh` and `Cross` -/

theorem connectLines_map (W : Vec3 → Vec3) (vs : List Vec3) : ∀ (ls : List (Nat × Nat)),
    (∀ l ∈ ls, l.1 < vs.length ∧ l.2 < vs.length) →
    connectLines (vs.map W) ls
      = some (ls.map (fun l => ⟨W (vs.getD l.1 Vec3.zero), W (vs.getD l.2 Vec3.zero)⟩))
  | [], _ => rfl
  | l :: ls, hr => by
    have h1 := hr l (by simp)
    have ih := connectLines_map W vs ls (fun x hx => hr x (by simp [hx]))
    simp [connectLines, ih, List.getElem?_map, List.getElem?_eq_getElem h1.1,
      List.getElem?_eq_getElem h1.2, List.getD_eq_getElem?_getD]

/-- C24: for a mesh at the node `this` with a finite ancestor chain, the dirty
flag set and every index of its connections below the vertex count,
`GetLines()` returns as many segments as there are connections, in connection
order, segment `i` joining the images under `ToWorldPosition` of the vertices
`a_i` and `b_i`; with no connections it returns the empty list. -/
theorem C24_Mesh_GetLines (h : Heap) (fuel : Nat) (this : Ptr) (qs : List Ptr) (m : Mesh)
    (hc : IsChain h this qs) (hl : qs.length < fuel)
    (hf : (h this).shouldUpdateCache = true)
    (hr : ∀ l ∈ m.lines, l.1 < m.vertices.length ∧ l.2 < m.vertices.length) :
    ∃ (lines : List Pair) (h1 : Heap) (m1 : Mesh),
      Mesh.GetLines h fuel this m = some (lines, h1, m1) ∧
      lines.length = m.lines.length ∧
      (m.lines = [] → lines = []) ∧
      (∀ (i a b : Nat), m.lines[i]? = some (a, b) →
        ∃ va vb wa wb, m.vertices[a]? = some va ∧ m.vertices[b]? = some vb ∧
          ToWorldPosition h fuel this va = some wa ∧
          ToWorldPosition h fuel this vb = some wb ∧ lines[i]? = some ⟨wa, wb⟩) := by
  by_cases hz : m.lines.length < 1
  · have hnil : m.lines = [] := List.length_eq_zero.mp (by omega)
    refine ⟨[], h, { m with linesCache := [] },
      by simp [Mesh.GetLines, Mesh.UpdateCache, hf, hz], by simp [hnil], fun _ => rfl, ?_⟩
    intro i a b hi
    rw [hnil] at hi
    simp at hi
  · have hall := CascadeTransformAll_chain h qs fuel this m.vertices hc hl
    have hcon := connectLines_map
      (fun v => qs.foldl (fun x q => levelTransform (h q) x) (levelTransform (h this) v))
      m.vertices m.lines hr
    refine ⟨m.lines.map (fun l =>
        (⟨qs.foldl (fun x q => levelTransform (h q) x)
            (levelTransform (h this) (m.vertices.getD l.1 Vec3.zero)),
          qs.foldl (fun x q => levelTransform (h q) x)
            (levelTransform (h this) (m.vertices.getD l.2 Vec3.zero))⟩ : Pair)),
      setFlag h this false,
      { m with
        linesCache := m.lines.map (fun l =>
          (⟨qs.foldl (fun x q => levelTransform (h q) x)
              (levelTransform (h this) (m.vertices.getD l.1 Vec3.zero)),
            qs.foldl (fun x q => levelTransform (h q) x)
              (levelTransform (h this) (m.vertices.getD l.2 Vec3.zero))⟩ : Pair)) },
      by simp only [Mesh.GetLines, Mesh.UpdateCache, hf, hz, hall, hcon, if_true, if_false],
      by simp, ?_, ?_⟩
    · intro hnil
      rw [hnil]
      rfl
    · intro i a b hi
      have hmem : (a, b) ∈ m.lines := List.mem_iff_getElem?.mpr ⟨i, hi⟩
      have hab := hr (a, b) hmem
      refine ⟨m.vertices[a], m.vertices[b], _, _, List.getElem?_eq_getElem hab.1,
        List.getElem?_eq_getElem hab.2,
        CascadeTransform_chain h qs fuel this _ hc hl,
        CascadeTransform_chain h qs fuel this _ hc hl, ?_⟩
      simp [List.getElem?_map, hi, List.getD_eq_getElem?_getD, List.getElem?_eq_getElem hab.1,
        List.getElem?_eq_getElem hab.2]

/-- C24 at a concrete input: the sample mesh at the dirty node `3` of the chain
with turned ancestors. -/
theorem C24_Mesh_GetLines_witness :
    ∃ (lines : List Pair) (h1 : Heap) (m1 : Mesh),
      Mesh.GetLines dirtyHeap 4 3 sampleMesh = some (lines, h1, m1) ∧
      lines.length = sampleMesh.lines.length ∧
      (sampleMesh.lines = [] → lines = []) ∧
      (∀ (i a b : Nat), sampleMesh.lines[i]? = some (a, b) →
        ∃ va vb wa wb, sampleMesh.vertices[a]? = some va ∧ sampleMesh.vertices[b]? = some vb ∧
          ToWorldPosition dirtyHeap 4 3 va = some wa ∧
          ToWorldPosition dirtyHeap 4 3 vb = some wb ∧ lines[i]? = some ⟨wa, wb⟩) :=
  C24_Mesh_GetLines dirtyHeap 4 3 [2, 1, 0] sampleMesh (by decide) (by decide) (by decide)
    (by decide)

/-- C25: for a cross of size `s` at the node `this` with a finite ancestor chain
and the dirty flag set, `GetLines()` returns exactly three segments, in this
order: the images under `ToWorldPosition` of `(-s, 0, 0)` and `(s, 0, 0)`, of
`(0, -s, 0)` and `(0, s, 0)`, and of `(0, 0, -s)` and `(0, 0, s)`. -/
theorem C25_Cross_GetLines (h : Heap) (fuel : Nat) (this : Ptr) (qs : List Ptr) (c : Cross)
    (hc : IsChain h this qs) (hl : qs.length < fuel)
    (hf : (h this).shouldUpdateCache = true) :
    ∃ (lines : List Pair) (h1 : Heap) (c1 : Cross) (x0 x1 y0 y1 z0 z1 : Vec3),
      Cross.GetLines h fuel this c = some (lines, h1, c1) ∧
      ToWorldPosition h fuel this ⟨-c.size, 0, 0⟩ = some x0 ∧
      ToWorldPosition h fuel this ⟨c.size, 0, 0⟩ = some x1 ∧
      ToWorldPosition h fuel this ⟨0, -c.size, 0⟩ = some y0 ∧
      ToWorldPosition h fuel this ⟨0, c.size, 0⟩ = some y1 ∧
      ToWorldPosition h fuel this ⟨0, 0, -c.size⟩ = some z0 ∧
      ToWorldPosition h fuel this ⟨0, 0, c.size⟩ = some z1 ∧
      lines = [⟨x0, x1⟩, ⟨y0, y1⟩, ⟨z0, z1⟩] := by
  have hall := CascadeTransformAll_chain h qs fuel this c.rawVertices hc hl
  refine ⟨[⟨qs.foldl (fun x q => levelTransform (h q) x)
          (levelTransform (h this) ⟨-c.size, 0, 0⟩),
        qs.foldl (fun x q => levelTransform (h q) x) (levelTransform (h this) ⟨c.size, 0, 0⟩)⟩,
      ⟨qs.foldl (fun x q => levelTransform (h q) x) (levelTransform (h this) ⟨0, -c.size, 0⟩),
        qs.foldl (fun x q => levelTransform (h q) x) (levelTransform (h this) ⟨0, c.size, 0⟩)⟩,
      ⟨qs.foldl (fun x q => levelTransform (h q) x) (levelTransform (h this) ⟨0, 0, -c.size⟩),
        qs.foldl (fun x q => levelTransform (h q) x)
          (levelTransform (h this) ⟨0, 0, c.size⟩)⟩],
    h,
    { c with
      linesCache :=
        [⟨qs.foldl (fun x q => levelTransform (h q) x)
            (levelTransform (h this) ⟨-c.size, 0, 0⟩),
          qs.foldl (fun x q => levelTransform (h q) x)
            (levelTransform (h this) ⟨c.size, 0, 0⟩)⟩,
        ⟨qs.foldl (fun x q => levelTransform (h q) x)
            (levelTransform (h this) ⟨0, -c.size, 0⟩),
          qs.foldl (fun x q => levelTransform (h q) x)
            (levelTransform (h this) ⟨0, c.size, 0⟩)⟩,
        ⟨qs.foldl (fun x q => levelTransform (h q) x)
            (levelTransform (h this) ⟨0, 0, -c.size⟩),
          qs.foldl (fun x q => levelTransform (h q) x)
            (levelTransform (h this) ⟨0, 0, c.size⟩)⟩] },
    _, _, _, _, _, _, ?_,
    CascadeTransform_chain h qs fuel this _ hc hl,
    CascadeTransform_chain h qs fuel this _ hc hl,
    CascadeTransform_chain h qs fuel this _ hc hl,
    CascadeTransform_chain h qs fuel this _ hc hl,
    CascadeTransform_chain h qs fuel this _ hc hl,
    CascadeTransform_chain h qs fuel this _ hc hl, rfl⟩
  simp only [Cross.GetLines, Cross.UpdateCache, hf, hall, if_true]
  simp [Cross.rawVertices, List.range_succ]

/-- C25 at a concrete input: a cross of size `1/10` at the dirty node `3` of the
chain with turned ancestors. -/
theorem C25_Cross_GetLines_witness :
    ∃ (lines : List Pair) (h1 : Heap) (c1 : Cross) (x0 x1 y0 y1 z0 z1 : Vec3),
      Cross.GetLines dirtyHeap 4 3 ⟨[], 1 / 10⟩ = some (lines, h1, c1) ∧
      ToWorldPosition dirtyHeap 4 3 ⟨-(⟨[], 1 / 10⟩ : Cross).size, 0, 0⟩ = some x0 ∧
      ToWorldPosition dirtyHeap 4 3 ⟨(⟨[], 1 / 10⟩ : Cross).size, 0, 0⟩ = some x1 ∧
      ToWorldPosition dirtyHeap 4 3 ⟨0, -(⟨[], 1 / 10⟩ : Cross).size, 0⟩ = some y0 ∧
      ToWorldPosition dirtyHeap 4 3 ⟨0, (⟨[], 1 / 10⟩ : Cross).size, 0⟩ = some y1 ∧
      ToWorldPosition dirtyHeap 4 3 ⟨0, 0, -(⟨[], 1 / 10⟩ : Cross).size⟩ = some z0 ∧
      ToWorldPosition dirtyHeap 4 3 ⟨0, 0, (⟨[], 1 / 10⟩ : Cross).size⟩ = some z1 ∧
      lines = [⟨x0, x1⟩, ⟨y0, y1⟩, ⟨z0, z1⟩] :=
  C25_Cross_GetLines dirtyHeap 4 3 [2, 1, 0] ⟨[], 1 / 10⟩ (by decide) (by decide) (by decide)

/-- C26 (evaluation at the failing inputs): at the node `3` with the dirty flag
set, `GetLines()` of a cross, of a polyline with one vertex and of a mesh
without connections returns and leaves the flag `shouldUpdateCache` set. -/
theorem C26_GetLines_leaves_flag_set :
    (Cross.GetLines dirtyHeap 4 3 ⟨[], 1 / 10⟩).map
        (fun r => (r.2.1 3).shouldUpdateCache) = some true ∧
    (StereoPolyLine.GetLines dirtyHeap 4 3 ⟨[], [⟨1, 2, 3⟩]⟩).map
        (fun r => (r.2.1 3).shouldUpdateCache) = some true ∧
    (Mesh.GetLines dirtyHeap 4 3 ⟨[⟨1, 2, 3⟩, ⟨4, 5, 6⟩], [], []⟩).map
        (fun r => (r.2.1 3).shouldUpdateCache) = some true := by
  decide!

/-- C30 (evaluation at the failing input): on a new mesh, two `AddVertice` calls
and `SetConnections({{0, 1}})` leave `lines` with one entry and `linesCache`
empty, and the following `Disconnect(0, 1)` erases from `linesCache` at index
`0`, which is not an index of the empty cache (no defined result). -/
theorem C30_SetConnections_desyncs_cache :
    ((Mesh.SetConnections
        (Mesh.AddVertice (Mesh.AddVertice chainHeap 3 ⟨[], [], []⟩ ⟨1, 0, 0⟩).1 3
          (Mesh.AddVertice chainHeap 3 ⟨[], [], []⟩ ⟨1, 0, 0⟩).2 ⟨0, 1, 0⟩).1 3
        (Mesh.AddVertice (Mesh.AddVertice chainHeap 3 ⟨[], [], []⟩ ⟨1, 0, 0⟩).1 3
          (Mesh.AddVertice chainHeap 3 ⟨[], [], []⟩ ⟨1, 0, 0⟩).2 ⟨0, 1, 0⟩).2
        [(0, 1)]).2.lines.length = 1) ∧
    ((Mesh.SetConnections
        (Mesh.AddVertice (Mesh.AddVertice chainHeap 3 ⟨[], [], []⟩ ⟨1, 0, 0⟩).1 3
          (Mesh.AddVertice chainHeap 3 ⟨[], [], []⟩ ⟨1, 0, 0⟩).2 ⟨0, 1, 0⟩).1 3
        (Mesh.AddVertice (Mesh.AddVertice chainHeap 3 ⟨[], [], []⟩ ⟨1, 0, 0⟩).1 3
          (Mesh.AddVertice chainHeap 3 ⟨[], [], []⟩ ⟨1, 0, 0⟩).2 ⟨0, 1, 0⟩).2
        [(0, 1)]).2.linesCache.length = 0) ∧
    (Mesh.Disconnect chainHeap 3
        (Mesh.SetConnections
          (Mesh.AddVertice (Mesh.AddVertice chainHeap 3 ⟨[], [], []⟩ ⟨1, 0, 0⟩).1 3
            (Mesh.AddVertice chainHeap 3 ⟨[], [], []⟩ ⟨1, 0, 0⟩).2 ⟨0, 1, 0⟩).1 3
          (Mesh.AddVertice (Mesh.AddVertice chainHeap 3 ⟨[], [], []⟩ ⟨1, 0, 0⟩).1 3
            (Mesh.AddVertice chainHeap 3 ⟨[], [], []⟩ ⟨1, 0, 0⟩).2 ⟨0, 1, 0⟩).2
          [(0, 1)]).2 0 1).isNone = true := by
  decide!

/-! ## Handler registration through the deferred queue -/

theorem runReady_append {σ : Type} : ∀ (a b : List (Command σ)) (w : σ),
    runReady (a ++ b) w = runReady b (runReady a w)
  | [], _, _ => rfl
  | c :: cs, b, w => by
    by_cases hr : c.isReady = true
    · simp [runReady, hr, runReady_append cs b]
    · simp [runReady, hr, runReady_append cs b]

theorem allSucceed_append {σ : Type} : ∀ (a b : List (Command σ)) (w : σ),
    AllSucceed a w → AllSucceed b (runReady a w) → AllSucceed (a ++ b) w
  | [], _, _, _, hb => hb
  | c :: cs, b, w, ha, hb => by
    unfold AllSucceed at ha
    by_cases hr : c.isReady = true
    · rw [if_pos hr] at ha
      simp only [runReady, hr, if_true] at hb
      simp only [List.cons_append, AllSucceed, hr, if_true]
      exact ⟨ha.1, allSucceed_append cs b _ ha.2 hb⟩
    · rw [if_neg hr] at ha
      simp only [runReady, hr] at hb
      simp only [List.cons_append, AllSucceed, hr]
      exact allSucceed_append cs b _ ha hb

theorem ExecuteAll_succeed {σ : Type} (queue : List (Command σ)) (w : σ)
    (ha : AllSucceed queue w) :
    (Command.ExecuteAll queue w).result = true ∧
      (Command.ExecuteAll queue w).state = runReady queue w := by
  have e := drainLoop_succeed queue w [] [] ha
  simp [Command.ExecuteAll, e]

theorem mapFind_mapAssign {α : Type} (k : Nat) (f : α) : ∀ (m : List (Nat × α)),
    mapFind k (mapAssign k f m) = some f
  | [] => by simp [mapAssign, mapFind]
  | e :: rest => by
    by_cases h1 : k < e.1
    · simp [mapAssign, mapFind, h1]
    · by_cases h2 : k = e.1
      · simp [mapAssign, mapFind, h1, h2]
      · have h3 : ¬ e.1 = k := fun x => h2 x.symm
        simp [mapAssign, mapFind, h1, h2, h3, mapFind_mapAssign k f rest]

theorem not_mem_keys_mapErase {α : Type} (k : Nat) (m : List (Nat × α)) :
    ∀ e ∈ mapErase k m, e.1 ≠ k := by
  intro e he
  have := (List.mem_filter.mp he).2
  simpa using this

theorem mapFind_none_of_keys {α : Type} (k : Nat) : ∀ (m : List (Nat × α)),
    (∀ e ∈ m, e.1 ≠ k) → mapFind k m = none
  | [], _ => rfl
  | e :: rest, hk => by
    have h1 : e.1 ≠ k := hk e (by simp)
    simp [mapFind, h1, mapFind_none_of_keys k rest (fun x hx => hk x (by simp [hx]))]

theorem funcCommand_allSucceed {σ : Type} (id : Nat) (func : σ → σ) (w : σ) :
    AllSucceed [FuncCommand id func] w := by
  simp [AllSucceed, FuncCommand]

/-- C28: `AddHandler` and `RemoveHandler` leave the handler map as it is at call
time; each appends one ready command to the deferred queue. When the commands
queued before succeed, the next `ExecuteAll` returns `true` and runs that
command: afterwards the id returned by `AddHandler` maps to the handler,
respectively the id given to `RemoveHandler` has no entry. -/
theorem C28_handlers_change_on_drain {T ω : Type} (w : EventWorld T ω) (f : T → ω → ω)
    (v : Nat) (hq : AllSucceed w.queue w.event) :
    ((IEvent.AddHandler w f).2.event = w.event ∧
      ∃ c, (IEvent.AddHandler w f).2.queue = w.queue ++ [c] ∧ c.isReady = true) ∧
    ((IEvent.RemoveHandler w v).event = w.event ∧
      ∃ c, (IEvent.RemoveHandler w v).queue = w.queue ++ [c] ∧ c.isReady = true) ∧
    ((IEvent.AddHandler w f).2.drain.1 = true ∧
      mapFind (IEvent.AddHandler w f).1 (IEvent.AddHandler w f).2.drain.2.event.handlers
        = some f) ∧
    ((IEvent.RemoveHandler w v).drain.1 = true ∧
      mapFind v (IEvent.RemoveHandler w v).drain.2.event.handlers = none) := by
  refine ⟨⟨rfl, _, rfl, rfl⟩, ⟨rfl, _, rfl, rfl⟩, ?_, ?_⟩
  · have ha : AllSucceed (IEvent.AddHandler w f).2.queue w.event :=
      allSucceed_append w.queue _ w.event hq (funcCommand_allSucceed _ _ _)
    obtain ⟨e1, e2⟩ := ExecuteAll_succeed _ _ ha
    refine ⟨e1, ?_⟩
    simp only [EventWorld.drain]
    rw [show (IEvent.AddHandler w f).2.event = w.event from rfl, e2]
    simp only [IEvent.AddHandler, runReady_append, runReady, FuncCommand, if_true]
    exact mapFind_mapAssign _ _ _
  · have ha : AllSucceed (IEvent.RemoveHandler w v).queue w.event :=
      allSucceed_append w.queue _ w.event hq (funcCommand_allSucceed _ _ _)
    obtain ⟨e1, e2⟩ := ExecuteAll_succeed _ _ ha
    refine ⟨e1, ?_⟩
    simp only [EventWorld.drain]
    rw [show (IEvent.RemoveHandler w v).event = w.event from rfl, e2]
    simp only [IEvent.RemoveHandler, runReady_append, runReady, FuncCommand, if_true]
    exact mapFind_none_of_keys _ _ (not_mem_keys_mapErase _ _)

/-- C28 at a concrete input: the world with an empty queue and the handler `3`. -/
theorem C28_handlers_change_on_drain_witness :
    ((IEvent.AddHandler logWorld (logHandler 9).2).2.event = logWorld.event ∧
      ∃ c, (IEvent.AddHandler logWorld (logHandler 9).2).2.queue = logWorld.queue ++ [c] ∧
        c.isReady = true) ∧
    ((IEvent.RemoveHandler logWorld 3).event = logWorld.event ∧
      ∃ c, (IEvent.RemoveHandler logWorld 3).queue = logWorld.queue ++ [c] ∧
        c.isReady = true) ∧
    ((IEvent.AddHandler logWorld (logHandler 9).2).2.drain.1 = true ∧
      mapFind (IEvent.AddHandler logWorld (logHandler 9).2).1
          (IEvent.AddHandler logWorld (logHandler 9).2).2.drain.2.event.handlers
        = some (logHandler 9).2) ∧
    ((IEvent.RemoveHandler logWorld 3).drain.1 = true ∧
      mapFind 3 (IEvent.RemoveHandler logWorld 3).drain.2.event.handlers = none) :=
  C28_handlers_change_on_drain logWorld (logHandler 9).2 3 (by decide)

/-- C29: `AddHandler(f)` followed by `RemoveHandler(id)` with the id returned,
before any drain, returns; when the commands queued before succeed, the next
`ExecuteAll` returns `true`, the handler map then has no entry for `id`, and no
call made by a later `Invoke` bears `id`. -/
theorem C29_add_then_remove_before_drain {T ω : Type} (w : EventWorld T ω) (f : T → ω → ω)
    (hq : AllSucceed w.queue w.event) :
    (IEvent.RemoveHandler (IEvent.AddHandler w f).2 (IEvent.AddHandler w f).1).drain.1 = true ∧
    mapFind (IEvent.AddHandler w f).1
      (IEvent.RemoveHandler (IEvent.AddHandler w f).2
        (IEvent.AddHandler w f).1).drain.2.event.handlers = none ∧
    ∀ (x : T) (s : ω) (call : Nat × T),
      call ∈ ((IEvent.RemoveHandler (IEvent.AddHandler w f).2
        (IEvent.AddHandler w f).1).drain.2.event.Invoke x s).2 →
      call.1 ≠ (IEvent.AddHandler w f).1 := by
  have ha : AllSucceed
      (IEvent.RemoveHandler (IEvent.AddHandler w f).2 (IEvent.AddHandler w f).1).queue
      w.event := by
    refine allSucceed_append _ _ w.event ?_ (funcCommand_allSucceed _ _ _)
    exact allSucceed_append w.queue _ w.event hq (funcCommand_allSucceed _ _ _)
  obtain ⟨e1, e2⟩ := ExecuteAll_succeed _ _ ha
  have hev : (IEvent.RemoveHandler (IEvent.AddHandler w f).2
      (IEvent.AddHandler w f).1).drain.2.event.handlers
      = mapErase w.nextId (mapAssign w.nextId f (runReady w.queue w.event).handlers) := by
    simp only [EventWorld.drain]
    rw [show (IEvent.RemoveHandler (IEvent.AddHandler w f).2
      (IEvent.AddHandler w f).1).event = w.event from rfl, e2]
    simp only [IEvent.RemoveHandler, IEvent.AddHandler, runReady_append, runReady, FuncCommand,
      if_true]
  refine ⟨e1, ?_, ?_⟩
  · rw [hev]
    exact mapFind_none_of_keys _ _ (not_mem_keys_mapErase _ _)
  · intro x s call hcall
    rw [Event_Invoke_eq, hev] at hcall
    obtain ⟨e, he, rfl⟩ := List.mem_map.mp hcall
    exact not_mem_keys_mapErase _ _ e he

/-- C29 at a concrete input: the world with an empty queue and the handler `3`. -/
theorem C29_add_then_remove_before_drain_witness :
    (IEvent.RemoveHandler (IEvent.AddHandler logWorld (logHandler 9).2).2
      (IEvent.AddHandler logWorld (logHandler 9).2).1).drain.1 = true ∧
    mapFind (IEvent.AddHandler logWorld (logHandler 9).2).1
      (IEvent.RemoveHandler (IEvent.AddHandler logWorld (logHandler 9).2).2
        (IEvent.AddHandler logWorld (logHandler 9).2).1).drain.2.event.handlers = none ∧
    ∀ (x : Nat) (s : List (Nat × Nat)) (call : Nat × Nat),
      call ∈ ((IEvent.RemoveHandler (IEvent.AddHandler logWorld (logHandler 9).2).2
        (IEvent.AddHandler logWorld (logHandler 9).2).1).drain.2.event.Invoke x s).2 →
      call.1 ≠ (IEvent.AddHandler logWorld (logHandler 9).2).1 :=
  C29_add_then_remove_before_drain logWorld (logHandler 9).2 (by decide)

/-! ## Moves between different parents -/

theorem parent_setChildren (h : Heap) (p a : Ptr) (l : List Ptr) :
    (setChildren h p l a).parent = (h a).parent := by
  by_cases e : a = p
  · subst e; simp
  · simp [e]

theorem children_setParentField (h : Heap) (p a : Ptr) (v : Option Ptr) :
    (setParentField h p v a).children = (h a).children := by
  by_cases e : a = p
  · subst e; simp
  · simp [e]

theorem sameStructure_setParentField {h h0 : Heap} (a : SameStructure h h0) (X : Ptr)
    (np : Option Ptr) : SameStructure (setParentField h X np) (setParentField h0 X np) := by
  intro q
  by_cases e : q = X
  · subst e; simp [(a q).2]
  · simp [e, (a q).1, (a q).2]

theorem adaptReady_congr {adapt : Bool} {h h0 : Heap} {fuel : Nat} {X : Ptr}
    {np : Option Ptr} (a : SameStructure h h0) (hr : AdaptReady adapt h fuel X np) :
    AdaptReady adapt h0 fuel X np := by
  intro ha
  obtain ⟨qs, rs, c1, l1, c2, l2⟩ := hr ha
  exact ⟨qs, rs, sameStructure_isChain a c1, l1,
    sameStructure_isChain (sameStructure_setParentField a X np) c2, l2⟩

/-- The assignment of `parent` in either `SetParent` overload, with or without
kept world values, returns and changes no other parent link and no children
sequence. -/
theorem reassign_spec (adapt : Bool) (h : Heap) (fuel : Nat) (X : Ptr) (np : Option Ptr)
    (hd : ChildDepth h fuel X) (hr : AdaptReady adapt h fuel X np) :
    ∃ h2, (if adapt then reassignAdapting h fuel X np else some (setParentField h X np))
        = some h2 ∧ SameStructure (setParentField h X np) h2 := by
  cases adapt with
  | false => exact ⟨_, by simp, sameStructure_refl _⟩
  | true =>
    obtain ⟨qs, rs, c1, l1, c2, l2⟩ := hr rfl
    obtain ⟨h2, e2, s2⟩ := reassignAdapting_spec h fuel X np qs rs c1 l1 c2 l2 hd
    exact ⟨h2, by simp [e2], s2⟩

theorem SetParentAt_place (adapt : Bool) (fuel : Nat) (h : Heap) (X Q P : Ptr) (i : Int)
    (pos : InsertPosition) (hp : (h X).parent = some Q) (hd : ChildDepth h fuel X)
    (hr : AdaptReady adapt h fuel X (some P)) :
    ∃ h2, SameStructure (setParentField h X (some P)) h2 ∧
      SetParentAt adapt fuel h X (some P) i pos = placeChild h2 X Q P i pos := by
  obtain ⟨h0, e0, s0⟩ := ForceUpdateCache_spec fuel h X hd
  have st0 := sameButFlags_toStructure s0
  have hp0 : (h0 X).parent = some Q := by rw [(s0 X).2.2.1, hp]
  obtain ⟨h2, e2, s2⟩ := reassign_spec adapt h0 fuel X (some P)
    (sameStructure_childDepth st0 hd) (adaptReady_congr st0 hr)
  refine ⟨h2, sameStructure_trans (sameStructure_setParentField st0 X (some P)) s2, ?_⟩
  simp only [SetParentAt, e0, hp0, e2]

theorem placeChild_other (h : Heap) (X Q P : Ptr) (s i : Nat) (pos : InsertPosition)
    (hQP : Q ≠ P) (hs : s < (h Q).children.length) (hX : (h Q).children[s] = X)
    (hn : X ∉ (h Q).children.take s)
    (hi : (h P).children = [] ∨ i < (h P).children.length) :
    placeChild h X Q P (i : Int) pos
      = some (setChildren
          (setChildren h P
            (if (h P).children = [] then [X]
             else insertAt (h P).children (insertIndex i pos) X))
          Q ((h Q).children.eraseIdx s)) := by
  have hf : find (h Q).children X = (s : Int) := find_eq _ X s hs hX hn
  unfold placeChild
  simp only [hf]
  by_cases hD : (h P).children = []
  · have hlen : (h P).children.length = 0 := by simp [hD]
    have hq : (setChildren h P ((h P).children ++ [X]) Q).children = (h Q).children := by
      simp [hQP]
    simp only [hlen, if_true, hq, vecErase_nat _ s hs]
    simp [hD]
  · have hlen : ¬ (h P).children.length = 0 := fun e => hD (List.length_eq_zero.mp e)
    have hi1 : i < (h P).children.length := by
      rcases hi with e | e
      · exact absurd e hD
      · exact e
    have hcast : (if InsertPosition.Bottom.toNat &&& pos.toNat ≠ 0 then (i : Int) + 1
        else (i : Int)) = ((insertIndex i pos : Nat) : Int) := by
      unfold insertIndex
      split <;> simp
    have hk : insertIndex i pos ≤ (h P).children.length := by
      unfold insertIndex
      split <;> omega
    simp only [hlen, if_false, hD, hcast, hQP, false_and]
    rw [vecInsert_nat _ _ X hk]
    have hq : (setChildren h P (insertAt (h P).children (insertIndex i pos) X) Q).children
        = (h Q).children := by simp [hQP]
    simp only [hq, vecErase_nat _ s hs]

theorem first_index_of_mem (x : Ptr) : ∀ (l : List Ptr), x ∈ l →
    ∃ s, ∃ hs : s < l.length, l[s] = x ∧ x ∉ l.take s
  | [], hm => absurd hm (by simp)
  | a :: l, hm => by
    by_cases e : a = x
    · exact ⟨0, by simp, by simp [e], by simp⟩
    · have hm1 : x ∈ l := by
        rcases List.mem_cons.mp hm with h1 | h1
        · exact absurd h1.symm e
        · exact h1
      obtain ⟨s, hs, hx, hn⟩ := first_index_of_mem x l hm1
      refine ⟨s + 1, by simpa using hs, by simpa using hx, ?_⟩
      intro hmem
      simp only [List.take_succ_cons, List.mem_cons] at hmem
      rcases hmem with h1 | h1
      · exact e h1.symm
      · exact hn h1

theorem eraseIdx_first_eq_erase (x : Ptr) : ∀ (l : List Ptr) (s : Nat) (hs : s < l.length),
    l[s] = x → x ∉ l.take s → l.eraseIdx s = l.erase x
  | [], _, hs, _, _ => absurd hs (by simp)
  | a :: l, 0, _, hx, _ => by
    have : a = x := by simpa using hx
    simp [this]
  | a :: l, s + 1, hs, hx, hn => by
    have hne : a ≠ x := by
      intro e
      exact hn (by simp [e])
    have hs1 : s < l.length := by simpa using hs
    have hx1 : l[s] = x := by simpa using hx
    have hn1 : x ∉ l.take s := fun hm => hn (by simp [hm])
    rw [List.eraseIdx_cons_succ, eraseIdx_first_eq_erase x l s hs1 hx1 hn1,
      List.erase_cons_tail (by simpa using hne)]

/-- C22: a move between different parents. For a node `X` that occurs once in
the children `L` of its parent `Q`, another node `P` with the children `D`, and
an index `i` (below `|D|` unless `D` is empty), the positioned `SetParent(P, i,
rule)` returns; `Q.children` becomes `L` without `X`, `P.children` becomes `D`
with `X` put in front of index `i` for `Top` and `Center` and in front of index
`i + 1` for `Bottom` and `Any`, or `[X]` when `D` is empty; `X.parent` is `P` and
no other children sequence or parent link changes. -/
theorem C22_move_between_parents (adapt : Bool) (fuel : Nat) (h : Heap) (X Q P : Ptr)
    (i : Nat) (pos : InsertPosition) (hp : (h X).parent = some Q) (hQP : Q ≠ P)
    (hone : (h Q).children.count X = 1) (hd : ChildDepth h fuel X)
    (hr : AdaptReady adapt h fuel X (some P))
    (hi : (h P).children = [] ∨ i < (h P).children.length) :
    ∃ h1, SetParentAt adapt fuel h X (some P) (i : Int) pos = some h1 ∧
      (h1 Q).children = (h Q).children.erase X ∧ X ∉ (h1 Q).children ∧
      (h1 P).children
        = (if (h P).children = [] then [X]
           else insertAt (h P).children (insertIndex i pos) X) ∧
      (insertIndex i pos =
        if pos = InsertPosition.Top ∨ pos = InsertPosition.Center then i else i + 1) ∧
      (h1 X).parent = some P ∧
      (∀ a, a ≠ Q → a ≠ P → (h1 a).children = (h a).children) ∧
      (∀ a, a ≠ X → (h1 a).parent = (h a).parent) := by
  have hmem : X ∈ (h Q).children := List.count_pos_iff.mp (by omega)
  obtain ⟨s, hs, hX, hn⟩ := first_index_of_mem X _ hmem
  obtain ⟨h2, s2, e2⟩ := SetParentAt_place adapt fuel h X Q P (i : Int) pos hp hd hr
  have hchQ : (h2 Q).children = (h Q).children := by
    rw [(s2 Q).2, children_setParentField]
  have hchP : (h2 P).children = (h P).children := by
    rw [(s2 P).2, children_setParentField]
  have hplace := placeChild_other h2 X Q P s i pos hQP (by rw [hchQ]; exact hs)
    (by simp only [hchQ]; exact hX) (by rw [hchQ]; exact hn) (by rw [hchP]; exact hi)
  rw [hplace] at e2
  simp only [hchQ, hchP] at e2
  have herase := eraseIdx_first_eq_erase X _ s hs hX hn
  refine ⟨_, e2, by simp [herase], ?_, by simp [hQP.symm], ?_, ?_, ?_, ?_⟩
  · simp only [setChildren_apply, if_true]
    rw [herase]
    intro hx
    have hc := List.count_pos_iff.mpr hx
    rw [List.count_erase_self] at hc
    omega
  · cases pos
    · have hb : ¬ (InsertPosition.Bottom.toNat &&& InsertPosition.Top.toNat ≠ 0) := by decide
      rw [insertIndex, if_neg hb]
      simp
    · have hb : InsertPosition.Bottom.toNat &&& InsertPosition.Bottom.toNat ≠ 0 := by decide
      rw [insertIndex, if_pos hb]
      simp
    · have hb : ¬ (InsertPosition.Bottom.toNat &&& InsertPosition.Center.toNat ≠ 0) := by
        decide
      rw [insertIndex, if_neg hb]
      simp
    · have hb : InsertPosition.Bottom.toNat &&& InsertPosition.Any.toNat ≠ 0 := by decide
      rw [insertIndex, if_pos hb]
      simp
  · rw [parent_setChildren, parent_setChildren, (s2 X).1]
    simp
  · intro a ha1 ha2
    simp only [setChildren_apply, ha1, ha2, if_false]
    rw [(s2 a).2, children_setParentField]
  · intro a ha
    rw [parent_setChildren, parent_setChildren, (s2 a).1]
    simp [ha]

/-- C22 at a concrete input: node `4` moves from the root `0` to node `1`, in
front of index `1` of its children `[2]` (rule `Bottom` on index `0`), under the
`Adapt` policy. -/
theorem C22_move_between_parents_witness :
    ∃ h1, SetParentAt true 5 familyHeap 4 (some 1) ((0 : Nat) : Int) InsertPosition.Bottom
        = some h1 ∧
      (h1 0).children = (familyHeap 0).children.erase 4 ∧ 4 ∉ (h1 0).children ∧
      (h1 1).children
        = (if (familyHeap 1).children = [] then [4]
           else insertAt (familyHeap 1).children (insertIndex 0 InsertPosition.Bottom) 4) ∧
      (insertIndex 0 InsertPosition.Bottom =
        if InsertPosition.Bottom = InsertPosition.Top ∨
          InsertPosition.Bottom = InsertPosition.Center then 0 else 0 + 1) ∧
      (h1 4).parent = some 1 ∧
      (∀ a, a ≠ 0 → a ≠ 1 → (h1 a).children = (familyHeap a).children) ∧
      (∀ a, a ≠ 4 → (h1 a).parent = (familyHeap a).parent) :=
  C22_move_between_parents true 5 familyHeap 4 0 1 0 InsertPosition.Bottom rfl (by decide)
    (by decide) (by decide)
    (fun _ => ⟨[0], [1, 0], by decide, by decide, by decide, by decide⟩) (by decide)

/-! ## Parent and children links under reparenting -/

theorem childDepth_subset {h h1 : Heap} (hc : ∀ a c, c ∈ (h1 a).children → c ∈ (h a).children) :
    ∀ (d : Nat) (p : Ptr), ChildDepth h d p → ChildDepth h1 d p
  | 0, _, hd => hd
  | d + 1, p, hd => fun c hcm => childDepth_subset hc d c (hd c (hc p c hcm))

theorem adaptReady_of_parents {adapt : Bool} {h h0 : Heap} {fuel : Nat} {X : Ptr}
    {np : Option Ptr} (a : ∀ q, (h0 q).parent = (h q).parent)
    (hr : AdaptReady adapt h fuel X np) : AdaptReady adapt h0 fuel X np := by
  intro ha
  obtain ⟨qs, rs, c1, l1, c2, l2⟩ := hr ha
  refine ⟨qs, rs, isChain_congr qs X (fun q _ => a q) c1, l1,
    isChain_congr rs X (fun q _ => ?_) c2, l2⟩
  by_cases e : q = X
  · subst e; simp
  · simp [e, a q]

theorem count_insertAt (l : List Ptr) (k : Nat) (x c : Ptr) :
    (insertAt l k x).count c = l.count c + if c = x then 1 else 0 := by
  have hp : (insertAt l k x).Perm (x :: l) := by
    unfold insertAt
    refine List.perm_middle.trans ?_
    rw [List.take_append_drop]
  rw [hp.count_eq, List.count_cons]
  by_cases e : c = x
  · simp [e]
  · have e1 : ¬ x = c := fun y => e y.symm
    simp [e, e1]

theorem consistent_relink (h hf : Heap) (X : Ptr) (np : Option Ptr)
    (hinv : ParentChildConsistent h)
    (hpar : ∀ a, (hf a).parent = if a = X then np else (h a).parent)
    (hother : ∀ p c, c ≠ X → (hf p).children.count c = (h p).children.count c)
    (hX : ∀ p, (hf p).children.count X = if np = some p then 1 else 0) :
    ParentChildConsistent hf := by
  intro c p
  by_cases e : c = X
  · subst e
    rw [hX p, hpar c]
    simp
  · rw [hother p c e, hpar c, hinv c p]
    simp [e]

/-- The unpositioned `SetParent` returns, and describes the heap it leaves:
the node is erased from the children of its old parent and appended to those
of the new parent, and its parent link is the new parent. -/
theorem SetParent_place (h : Heap) (fuel : Nat) (X : Ptr) (np : Option Ptr) (conv : Bool)
    (hd : ChildDepth h fuel X) (hr : AdaptReady conv h fuel X np) :
    ∃ hf, SetParent h fuel X np conv = some hf ∧
      (∀ a, (hf a).parent = if a = X then np else (h a).parent) ∧
      (∀ a, (hf a).children
        = (if (h X).parent = some a then (h a).children.erase X else (h a).children)
          ++ (if np = some a then [X] else [])) := by
  obtain ⟨h0, e0, s0⟩ := ForceUpdateCache_spec fuel h X hd
  -- the heap after the node has left the children of its old parent
  obtain ⟨h2, e2, p2, c2⟩ : ∃ h2,
      (match (h0 X).parent with
        | some par =>
          if (h0 par).children.length > 0 then
            setChildren h0 par ((h0 par).children.erase X)
          else h0
        | none => h0) = h2 ∧
      (∀ a, (h2 a).parent = (h a).parent) ∧
      (∀ a, (h2 a).children
        = if (h X).parent = some a then (h a).children.erase X else (h a).children) := by
    refine ⟨_, rfl, ?_, ?_⟩
    · intro a
      cases hpx : (h0 X).parent with
      | none => simp only [(s0 a).2.2.1]
      | some par =>
        simp only
        split
        · rw [parent_setChildren, (s0 a).2.2.1]
        · exact (s0 a).2.2.1
    · intro a
      have hpe : (h X).parent = (h0 X).parent := ((s0 X).2.2.1).symm
      cases hpx : (h0 X).parent with
      | none =>
        rw [hpe, hpx]
        simp [(s0 a).2.2.2]
      | some par =>
        rw [hpe, hpx]
        simp only
        by_cases ea : par = a
        · subst ea
          split
          · simp [(s0 par).2.2.2]
          · next hz =>
            have hnil : (h0 par).children = [] := List.length_eq_zero.mp (by omega)
            have hnil1 : (h par).children = [] := by rw [← (s0 par).2.2.2, hnil]
            simp [hnil1, (s0 par).2.2.2]
        · have ea1 : ¬ a = par := fun y => ea y.symm
          have ea2 : ¬ some par = some a := by simpa using ea
          split
          · simp [ea1, ea2, (s0 a).2.2.2]
          · simp [ea2, (s0 a).2.2.2]
  have hsub : ∀ a c, c ∈ (h2 a).children → c ∈ (h a).children := by
    intro a c hc
    rw [c2 a] at hc
    split at hc
    · exact List.mem_of_mem_erase hc
    · exact hc
  obtain ⟨h3, e3, s3⟩ := reassign_spec conv h2 fuel X np (childDepth_subset hsub fuel X hd)
    (adaptReady_of_parents p2 hr)
  have hp3 : ∀ a, (h3 a).parent = if a = X then np else (h a).parent := by
    intro a
    rw [(s3 a).1]
    by_cases e : a = X
    · subst e; simp
    · simp [e, p2 a]
  have hc3 : ∀ a, (h3 a).children
      = if (h X).parent = some a then (h a).children.erase X else (h a).children := by
    intro a
    rw [(s3 a).2, children_setParentField, c2 a]
  cases np with
  | none =>
    refine ⟨h3, by simp only [SetParent, e0, e2, e3], hp3, fun a => ?_⟩
    rw [hc3 a]
    simp
  | some p =>
    refine ⟨setChildren h3 p ((h3 p).children ++ [X]),
      by simp only [SetParent, e0, e2, e3], fun a => ?_, fun a => ?_⟩
    · rw [parent_setChildren, hp3 a]
    · by_cases e : a = p
      · subst e
        simp [hc3 a]
      · have e1 : ¬ some p = some a := by
          intro y
          exact e (Option.some.inj y).symm
        simp [e, e1, hc3 a]

theorem SetParent_consistent (h : Heap) (fuel : Nat) (X : Ptr) (np : Option Ptr) (conv : Bool)
    (hinv : ParentChildConsistent h) (hd : ChildDepth h fuel X)
    (hr : AdaptReady conv h fuel X np) :
    ∃ hf, SetParent h fuel X np conv = some hf ∧ ParentChildConsistent hf := by
  obtain ⟨hf, e, hp, hc⟩ := SetParent_place h fuel X np conv hd hr
  refine ⟨hf, e, consistent_relink h hf X np hinv hp ?_ ?_⟩
  · intro p c hne
    rw [hc p, List.count_append]
    have h1 : (if np = some p then [X] else []).count c = 0 := by
      split
      · have hne1 : ¬ X = c := fun y => hne y.symm
        simp [List.count_cons, hne1]
      · simp
    rw [h1]
    split
    · rw [List.count_erase_of_ne hne]
      simp
    · simp
  · intro p
    rw [hc p, List.count_append]
    have hbase : (if (h X).parent = some p then (h p).children.erase X
        else (h p).children).count X = 0 := by
      have hi := hinv X p
      split
      · next hpx =>
        rw [if_pos hpx] at hi
        rw [List.count_erase_self, hi]
      · next hpx =>
        rw [if_neg hpx] at hi
        exact hi
    rw [hbase]
    split <;> simp

theorem count_eraseIdx_self (l : List Ptr) (s : Nat) (hs : s < l.length) (c : Ptr) :
    l.count c = (l.eraseIdx s).count c + if c = l[s] then 1 else 0 := by
  have hp : (l[s] :: l.eraseIdx s).Perm l := by
    have := insertAt_perm l s 0 hs
    simpa [insertAt] using this
  rw [← hp.count_eq, List.count_cons]
  by_cases e : c = l[s]
  · simp [e]
  · have e1 : ¬ l[s] = c := fun y => e y.symm
    simp [e, e1]

theorem SetParentAt_consistent (adapt : Bool) (fuel : Nat) (h : Heap) (X Q P : Ptr) (i : Nat)
    (pos : InsertPosition) (hinv : ParentChildConsistent h) (hp : (h X).parent = some Q)
    (hd : ChildDepth h fuel X) (hr : AdaptReady adapt h fuel X (some P))
    (hi : (h P).children = [] ∨ i < (h P).children.length) :
    ∃ hf, SetParentAt adapt fuel h X (some P) (i : Int) pos = some hf ∧
      ParentChildConsistent hf := by
  have hone : (h Q).children.count X = 1 := by
    have := hinv X Q
    rw [if_pos hp] at this
    exact this
  have hmem : X ∈ (h Q).children := List.count_pos_iff.mp (by omega)
  obtain ⟨s, hs, hX, hn⟩ := first_index_of_mem X _ hmem
  obtain ⟨h2, s2, e2⟩ := SetParentAt_place adapt fuel h X Q P (i : Int) pos hp hd hr
  have hch : ∀ a, (h2 a).children = (h a).children := fun a => by
    rw [(s2 a).2, children_setParentField]
  have hpar2 : ∀ a, (h2 a).parent = if a = X then some P else (h a).parent := by
    intro a
    rw [(s2 a).1]
    by_cases e : a = X
    · subst e; simp
    · simp [e]
  by_cases hQP : Q = P
  · subst hQP
    have hi1 : i < (h Q).children.length := by
      rcases hi with e | e
      · rw [e] at hmem
        exact absurd hmem (by simp)
      · exact e
    have hplace := placeChild_same h2 X Q s i pos (by rw [hch]; exact hs)
      (by simp only [hch]; exact hX) (by rw [hch]; exact hn) (by rw [hch]; exact hi1)
    rw [hplace] at e2
    refine ⟨_, e2, ?_⟩
    intro c p
    have hparent : (setChildren h2 Q
        (insertAt ((h2 Q).children.eraseIdx s) (moveIndex s i pos) X) c).parent
        = (h c).parent := by
      rw [parent_setChildren, hpar2 c]
      by_cases e : c = X
      · subst e; simp [hp]
      · simp [e]
    rw [hparent, ← hinv c p]
    by_cases e : p = Q
    · subst e
      simp only [setChildren_apply, if_true, hch]
      rw [count_insertAt, count_eraseIdx_self (h p).children s hs c, hX]
    · simp only [setChildren_apply, e, if_false, hch]
  · have hplace := placeChild_other h2 X Q P s i pos hQP (by rw [hch]; exact hs)
      (by simp only [hch]; exact hX) (by rw [hch]; exact hn) (by rw [hch]; exact hi)
    rw [hplace] at e2
    simp only [hch] at e2
    have hPQ : ¬ P = Q := fun y => hQP y.symm
    have hXP : (h P).children.count X = 0 := by
      have := hinv X P
      rw [hp] at this
      have hne : ¬ some Q = some P := by simpa using hQP
      rw [if_neg hne] at this
      exact this
    refine ⟨_, e2, consistent_relink h _ X (some P) hinv ?_ ?_ ?_⟩
    · intro a
      rw [parent_setChildren, parent_setChildren, hpar2 a]
    · intro p c hne
      by_cases e1 : p = Q
      · subst e1
        simp only [setChildren_apply, if_true]
        have := count_eraseIdx_self (h p).children s hs c
        rw [hX, if_neg hne] at this
        omega
      · by_cases e3 : p = P
        · subst e3
          simp only [setChildren_apply, e1, if_false, if_true]
          split
          · next hD =>
            have hne1 : ¬ X = c := fun y => hne y.symm
            simp [hD, List.count_cons, hne1]
          · rw [count_insertAt, if_neg hne]
            omega
        · simp only [setChildren_apply, e1, e3, if_false, hch]
    · intro p
      by_cases e1 : p = Q
      · subst e1
        simp only [setChildren_apply, if_true]
        have := count_eraseIdx_self (h p).children s hs X
        rw [hX, if_pos rfl, hone] at this
        have hne : ¬ some P = some p := by simpa using hPQ
        rw [if_neg hne]
        omega
      · by_cases e3 : p = P
        · subst e3
          simp only [setChildren_apply, e1, if_false, if_true]
          split
          · simp
          · rw [count_insertAt, hXP]
            simp
        · simp only [setChildren_apply, e1, e3, if_false, hch]
          have := hinv X p
          rw [hp] at this
          have hne : ¬ some Q = some p := by
            intro y
            exact e1 (Option.some.inj y).symm
          rw [if_neg hne] at this
          have hne2 : ¬ some P = some p := by
            intro y
            exact e3 (Option.some.inj y).symm
          rw [if_neg hne2]
          exact this

theorem familyHeap_consistent : ParentChildConsistent familyHeap := by
  intro c p
  rcases c with _ | _ | _ | _ | _ | c <;> rcases p with _ | _ | _ | _ | _ | p <;>
    simp [familyHeap, plainObject]

/-- C27: when every node `c` occurs in `p.children` exactly when `c.parent = p`,
and then once, the same holds after each of these calls on a node `X` with a
finite subtree, and the call returns: `SetParent(newParent, shouldConvertValues)`;
the positioned `SetParent(P, i, rule)` for a node that has a parent, with `i`
below the number of children of `P` (or `P` without children); and
`Scene::Insert`. Where world values are kept, `X` is asked to have a finite
ancestor chain before and after the assignment. -/
theorem C27_reparenting_keeps_links (h : Heap) (fuel : Nat) (X : Ptr)
    (hinv : ParentChildConsistent h) (hd : ChildDepth h fuel X) :
    (∀ (newParent : Option Ptr) (shouldConvertValues : Bool),
      AdaptReady shouldConvertValues h fuel X newParent →
      ∃ h1, SetParent h fuel X newParent shouldConvertValues = some h1 ∧
        ParentChildConsistent h1) ∧
    (∀ (adapt : Bool) (Q P : Ptr) (i : Nat) (pos : InsertPosition),
      (h X).parent = some Q → AdaptReady adapt h fuel X (some P) →
      ((h P).children = [] ∨ i < (h P).children.length) →
      ∃ h1, SetParentAt adapt fuel h X (some P) (i : Int) pos = some h1 ∧
        ParentChildConsistent h1) ∧
    (∀ (s : Scene) (destination : Option Ptr), s.heap = h →
      ∃ s1, Scene.Insert s fuel destination X = some (true, s1) ∧
        ParentChildConsistent s1.heap) := by
  refine ⟨fun np conv hr => SetParent_consistent h fuel X np conv hinv hd hr,
    fun adapt Q P i pos hp hr hi => SetParentAt_consistent adapt fuel h X Q P i pos hinv hp hd hr hi,
    fun s destination hs => ?_⟩
  subst hs
  obtain ⟨hf, e, hc⟩ := SetParent_consistent s.heap fuel X destination false hinv hd
    (fun hfalse => absurd hfalse (by simp))
  exact ⟨{ s with heap := hf, objects := s.objects ++ [X] }, by simp only [Scene.Insert, e], hc⟩

/-- C27 at a concrete input: in the family tree, node `4` goes under node `2`
with values kept, node `3` goes in front of index `0` of the root's children
under the `Adapt` policy, and the detached node `7` is inserted under node `4`. -/
theorem C27_reparenting_keeps_links_witness :
    (∃ h1, SetParent familyHeap 5 4 (some 2) true = some h1 ∧ ParentChildConsistent h1) ∧
    (∃ h1, SetParentAt true 5 familyHeap 3 (some 0) ((0 : Nat) : Int) InsertPosition.Top
        = some h1 ∧ ParentChildConsistent h1) ∧
    (∃ s1, Scene.Insert ⟨familyHeap, [1, 2, 3, 4], 0, 8, 0, []⟩ 5 (some 4) 7 = some (true, s1) ∧
      ParentChildConsistent s1.heap) :=
  ⟨(C27_reparenting_keeps_links familyHeap 5 4 familyHeap_consistent (by decide)).1 (some 2) true
      (fun _ => ⟨[0], [2, 1, 0], by decide, by decide, by decide, by decide⟩),
    (C27_reparenting_keeps_links familyHeap 5 3 familyHeap_consistent (by decide)).2.1 true 2 0 0
      InsertPosition.Top rfl
      (fun _ => ⟨[2, 1, 0], [0], by decide, by decide, by decide, by decide⟩)
      (Or.inr (by decide)),
    (C27_reparenting_keeps_links familyHeap 5 7 familyHeap_consistent (by decide)).2.2
      ⟨familyHeap, [1, 2, 3, 4], 0, 8, 0, []⟩ (some 4) rfl⟩

end StereoPlus
